import Mathlib

/-!
# Column-store delete (`src/btree/col_put.c`)

A shallow embedding of `__wt_db_col_del` and of the two work-queue server
functions `__wt_bt_rcc_expand_serial_func` and
`__wt_bt_rcc_expand_repl_serial_func`.

Memory is a typed heap: one partial map per C type that the file allocates
(`WT_REPL`, `WT_COL_EXPAND`, `WT_REPL *[]`, `WT_COL_EXPAND *[]`).  A pointer
is a natural number, `0` is `NULL`, and a cell that is not allocated maps to
`none`.  Dereferencing `NULL`, an unallocated cell, or an array index out of
range is undefined behaviour in C; the embedding returns `none` there.
-/

namespace ColPut

/-- A C pointer; `0` is `NULL`. -/
abbrev Ptr := Nat

/-- The struct `WT_REPL`: a replacement record (`data`, `next`). -/
structure WT_REPL where
  data : Nat
  next : Ptr
deriving DecidableEq, Repr

/-- The struct `WT_COL_EXPAND`: an expansion entry (`rcc_offset`, `repl`, `next`). -/
structure WT_COL_EXPAND where
  rcc_offset : Nat
  repl : Ptr
  next : Ptr
deriving DecidableEq, Repr

/-- The fields of `WT_PAGE` that `col_put.c` reads or writes.  `modified` is
the flag set by `WT_PAGE_MODIFY_SET_AND_FLUSH`. -/
structure WT_PAGE where
  indx_count : Nat
  repl : Ptr
  expcol : Ptr
  modified : Bool
deriving DecidableEq, Repr

/-- The searched page together with the typed heap. -/
structure Mem where
  page : WT_PAGE
  repls : Ptr → Option WT_REPL
  exps : Ptr → Option WT_COL_EXPAND
  replArr : Ptr → Option (List Ptr)
  expArr : Ptr → Option (List Ptr)

/-- The fields of `WT_TOC` that `__wt_bt_search_col` fills in and that
`__wt_db_col_del` reads.  `srch_slot` is `WT_COL_SLOT(page, toc->srch_ip)`. -/
structure WT_TOC where
  srch_page : Ptr
  srch_slot : Nat
  srch_repl : Ptr
  srch_exp : Ptr
  srch_rcc_offset : Nat
deriving DecidableEq, Repr

/-- The fields of `IDB` that `__wt_db_col_del` reads: the `WT_REPEAT_COMP`
flag and the pinned root page. -/
structure IDB where
  repeat_comp : Bool
  root_page : Ptr
deriving DecidableEq, Repr

/-- Modelled from the spec: the reserved deleted-marker `WT_REPL_DELETED_VALUE`
(its definition is in a header that is not part of the sources). -/
def WT_REPL_DELETED_VALUE : Nat := 1

/-- Modelled from the spec: the out-of-memory failure that the fallible
allocator `__wt_calloc` surfaces (the allocator is not part of the sources). -/
def WT_ENOMEM : Int := 12

/-- The page-out flag `WT_MODIFIED`, a non-zero flag bit (its value is in a
header that is not part of the sources). -/
def WT_MODIFIED : Nat := 1

/-- The result of each `__wt_calloc` call site of one `__wt_db_col_del` call,
should the call site be reached: `none` is failure, `some p` is the address of
the zeroed block.  `arr` is the array allocation (lines 63 and 76), `exp` the
`WT_COL_EXPAND` allocation (line 80), `repl` the `WT_REPL` allocation (lines
67, 81 and 92). -/
structure Calloc where
  arr : Option Ptr
  exp : Option Ptr
  repl : Option Ptr
deriving DecidableEq, Repr

/-- What `__wt_db_col_del` does that is visible outside the heap: the outcome of
each `__wt_calloc`, each `__wt_free`, each `*_serial` call and each
`__wt_bt_page_out`, in program order. -/
inductive Event where
  | calloc_fail
  | calloc_new_repl (p : Ptr)
  | calloc_new_expcol (p : Ptr)
  | calloc_exp (p : Ptr)
  | calloc_repl (p : Ptr)
  | free_exp (p : Ptr)
  | free_repl (p : Ptr)
  | free_expcol (p : Ptr)
  | free_replarr (p : Ptr)
  | submit_update (slot : Nat) (new_repl repl : Ptr)
  | submit_rcc_expand (slot : Nat) (new_expcol exp : Ptr)
  | submit_rcc_expand_repl (exp repl : Ptr)
  | page_out (page : Ptr) (flags : Nat)
deriving DecidableEq, Repr

/-- The argument block handed to the work queue by one of the three
`*_serial` calls. -/
inductive Submission where
  | update (slot : Nat) (new_repl repl : Ptr)
  | rcc_expand (slot : Nat) (new_expcol exp : Ptr)
  | rcc_expand_repl (exp repl : Ptr)
deriving DecidableEq, Repr

/-! ## Heap primitives -/

/-- Store to a `WT_REPL` cell, `*p = v`; `none` deallocates the cell. -/
def Mem.setRepl (m : Mem) (p : Ptr) (v : Option WT_REPL) : Mem :=
  { m with repls := Function.update m.repls p v }

/-- Store to a `WT_COL_EXPAND` cell, `*p = v`; `none` deallocates the cell. -/
def Mem.setExp (m : Mem) (p : Ptr) (v : Option WT_COL_EXPAND) : Mem :=
  { m with exps := Function.update m.exps p v }

/-- Replace a whole `WT_REPL *[]` block; `none` deallocates it. -/
def Mem.setReplArr (m : Mem) (p : Ptr) (v : Option (List Ptr)) : Mem :=
  { m with replArr := Function.update m.replArr p v }

/-- Replace a whole `WT_COL_EXPAND *[]` block; `none` deallocates it. -/
def Mem.setExpArr (m : Mem) (p : Ptr) (v : Option (List Ptr)) : Mem :=
  { m with expArr := Function.update m.expArr p v }

/-- The rvalue `page->expcol[slot]`. -/
def Mem.expcolAt (m : Mem) (slot : Nat) : Option Ptr :=
  if m.page.expcol = 0 then none
  else match m.expArr m.page.expcol with
    | none => none
    | some a => a.get? slot

/-- The rvalue `page->repl[slot]`. -/
def Mem.replAt (m : Mem) (slot : Nat) : Option Ptr :=
  if m.page.repl = 0 then none
  else match m.replArr m.page.repl with
    | none => none
    | some a => a.get? slot

/-- Modelled from the spec: the macro `WT_PAGE_MODIFY_SET_AND_FLUSH(page)` (its
definition is in a header that is not part of the sources) marks the page
dirty. -/
def page_modify_set (m : Mem) : Mem :=
  { m with page := { m.page with modified := true } }

/-! ## `__wt_bt_rcc_expand_serial_func` (lines 127-154), store by store -/

/-- Lines 141-142: `if (page->expcol == NULL) page->expcol = new_exp;`. -/
def rcc_expand_adopt (m : Mem) (new_exp : Ptr) : Mem :=
  if m.page.expcol = 0 then { m with page := { m.page with expcol := new_exp } } else m

/-- Line 149: `exp->next = page->expcol[slot];`. -/
def rcc_expand_link (m : Mem) (slot : Nat) (exp : Ptr) : Option Mem :=
  match m.expcolAt slot with
  | none => none
  | some head =>
    if exp = 0 then none
    else match m.exps exp with
      | none => none
      | some e => some (m.setExp exp (some { e with next := head }))

/-- Line 151: `page->expcol[slot] = exp;`. -/
def rcc_expand_publish (m : Mem) (slot : Nat) (exp : Ptr) : Option Mem :=
  if m.page.expcol = 0 then none
  else match m.expArr m.page.expcol with
    | none => none
    | some a =>
      if slot < a.length then some (m.setExpArr m.page.expcol (some (a.set slot exp)))
      else none

/-- The server function that links a new `WT_COL_EXPAND` into the page's
expansion array; it returns `0`. -/
def __wt_bt_rcc_expand_serial_func (m : Mem) (slot : Nat) (new_exp exp : Ptr) :
    Option (Int × Mem) :=
  match rcc_expand_link (rcc_expand_adopt m new_exp) slot exp with
  | none => none
  | some m1 =>
    match rcc_expand_publish m1 slot exp with
    | none => none
    | some m2 => some (0, page_modify_set m2)

/-! ## `__wt_bt_rcc_expand_repl_serial_func` (lines 161-180), store by store -/

/-- Line 175: `repl->next = exp->repl;`. -/
def rcc_expand_repl_link (m : Mem) (exp repl : Ptr) : Option Mem :=
  if exp = 0 then none
  else match m.exps exp with
    | none => none
    | some e =>
      if repl = 0 then none
      else match m.repls repl with
        | none => none
        | some r => some (m.setRepl repl (some { r with next := e.repl }))

/-- Line 177: `exp->repl = repl;`. -/
def rcc_expand_repl_publish (m : Mem) (exp repl : Ptr) : Option Mem :=
  if exp = 0 then none
  else match m.exps exp with
    | none => none
    | some e => some (m.setExp exp (some { e with repl := repl }))

/-- The server function that links a new `WT_REPL` in front of an expansion
entry's replacement list; it returns `0`. -/
def __wt_bt_rcc_expand_repl_serial_func (m : Mem) (exp repl : Ptr) : Option (Int × Mem) :=
  match rcc_expand_repl_link m exp repl with
  | none => none
  | some m1 =>
    match rcc_expand_repl_publish m1 exp repl with
    | none => none
    | some m2 => some (0, page_modify_set m2)

/-- Modelled from the spec: the install-replacement server function
`__wt_bt_update_serial_func`, which lives in a file that is not part of the
sources.  Section 4.4: if the page's replacement array is absent, adopt the
candidate; install the new record into `replacement[slot]`; mark the page
dirty. -/
def __wt_bt_update_serial_func (m : Mem) (slot : Nat) (new_repl repl : Ptr) :
    Option (Int × Mem) :=
  let m1 : Mem :=
    if m.page.repl = 0 then { m with page := { m.page with repl := new_repl } } else m
  if m1.page.repl = 0 then none
  else match m1.replArr m1.page.repl with
    | none => none
    | some a =>
      if slot < a.length then
        some (0, page_modify_set (m1.setReplArr m1.page.repl (some (a.set slot repl))))
      else none

/-- Modelled from the spec: the `*_serial` calls (macros that are not part of
the sources) hand their arguments to the work queue, which runs the server
function that belongs to the submission; the server function's return value
becomes the caller's `ret`. -/
def serialize (m : Mem) : Submission → Option (Int × Mem)
  | .update slot new_repl repl => __wt_bt_update_serial_func m slot new_repl repl
  | .rcc_expand slot new_expcol exp => __wt_bt_rcc_expand_serial_func m slot new_expcol exp
  | .rcc_expand_repl exp repl => __wt_bt_rcc_expand_repl_serial_func m exp repl

/-- The trace entry of a submission. -/
def Submission.event : Submission → Event
  | .update slot new_repl repl => .submit_update slot new_repl repl
  | .rcc_expand slot new_expcol exp => .submit_rcc_expand slot new_expcol exp
  | .rcc_expand_repl exp repl => .submit_rcc_expand_repl exp repl

/-! ## `__wt_db_col_del` (lines 16-120) -/

/-- The local variables of `__wt_db_col_del` (`page` is `toc->srch_page`
throughout and `ret` is threaded separately), the heap and the trace. -/
structure Frame where
  mem : Mem
  exp : Ptr
  new_expcol : Ptr
  new_repl : Ptr
  repl : Ptr
  trace : List Event

/-- Lines 29-33: the locals start as `NULL`. -/
def Frame.init (m : Mem) : Frame :=
  { mem := m, exp := 0, new_expcol := 0, new_repl := 0, repl := 0, trace := [] }

/-- Modelled from the spec: the fallible allocator `__wt_calloc` (not part of
the sources), called as
`__wt_calloc(env, page->indx_count, sizeof(WT_REPL *), &new_repl)`: on failure
it returns the out-of-memory code, on success `0` and a zero-filled block. -/
def calloc_new_repl (o : Option Ptr) (f : Frame) : Int × Frame :=
  match o with
  | none => (WT_ENOMEM, { f with trace := f.trace ++ [Event.calloc_fail] })
  | some p =>
    (0, { f with
          mem := f.mem.setReplArr p (some (List.replicate f.mem.page.indx_count 0))
          new_repl := p
          trace := f.trace ++ [Event.calloc_new_repl p] })

/-- Modelled from the spec: the fallible allocator `__wt_calloc`, called as
`__wt_calloc(env, page->indx_count, sizeof(WT_COL_EXPAND *), &new_expcol)`. -/
def calloc_new_expcol (o : Option Ptr) (f : Frame) : Int × Frame :=
  match o with
  | none => (WT_ENOMEM, { f with trace := f.trace ++ [Event.calloc_fail] })
  | some p =>
    (0, { f with
          mem := f.mem.setExpArr p (some (List.replicate f.mem.page.indx_count 0))
          new_expcol := p
          trace := f.trace ++ [Event.calloc_new_expcol p] })

/-- Modelled from the spec: the fallible allocator `__wt_calloc`, called as
`__wt_calloc(env, 1, sizeof(WT_COL_EXPAND), &exp)`. -/
def calloc_exp (o : Option Ptr) (f : Frame) : Int × Frame :=
  match o with
  | none => (WT_ENOMEM, { f with trace := f.trace ++ [Event.calloc_fail] })
  | some p =>
    (0, { f with
          mem := f.mem.setExp p (some ⟨0, 0, 0⟩)
          exp := p
          trace := f.trace ++ [Event.calloc_exp p] })

/-- Modelled from the spec: the fallible allocator `__wt_calloc`, called as
`__wt_calloc(env, 1, sizeof(WT_REPL), &repl)`. -/
def calloc_repl (o : Option Ptr) (f : Frame) : Int × Frame :=
  match o with
  | none => (WT_ENOMEM, { f with trace := f.trace ++ [Event.calloc_fail] })
  | some p =>
    (0, { f with
          mem := f.mem.setRepl p (some ⟨0, 0⟩)
          repl := p
          trace := f.trace ++ [Event.calloc_repl p] })

/-- The store `repl->data = WT_REPL_DELETED_VALUE;`. -/
def store_repl_data (m : Mem) (repl : Ptr) : Option Mem :=
  if repl = 0 then none
  else match m.repls repl with
    | none => none
    | some r => some (m.setRepl repl (some { r with data := WT_REPL_DELETED_VALUE }))

/-- The stores `exp->rcc_offset = toc->srch_rcc_offset; exp->repl = repl;`. -/
def store_exp_fields (m : Mem) (exp : Ptr) (rcc_offset : Nat) (repl : Ptr) : Option Mem :=
  if exp = 0 then none
  else match m.exps exp with
    | none => none
    | some e => some (m.setExp exp (some { e with rcc_offset := rcc_offset, repl := repl }))

/-- The three code paths named in the comment at lines 39-59. -/
inductive Path where
  | one
  | two
  | three
deriving DecidableEq, Repr

/-- The classification made by the `if` / `else if` / `else` at lines 60, 73
and 90. -/
def col_del_path (idb : IDB) (toc : WT_TOC) : Path :=
  if idb.repeat_comp = false then Path.one
  else if toc.srch_repl = 0 then Path.two
  else Path.three

/-- Lines 60-98 up to, and not including, the `*_serial` call of the path
taken: the classification and the allocations.  The second component is
`Except.error ret` when a `WT_ERR` jumped to `err`, and otherwise the
submission about to be made. -/
def col_del_alloc (idb : IDB) (toc : WT_TOC) (al : Calloc) (m : Mem) :
    Option (Frame × Except Int Submission) :=
  let f0 := Frame.init m
  match col_del_path idb toc with
  | Path.one =>
    let r1 := if m.page.repl = 0 then calloc_new_repl al.arr f0 else (0, f0)
    if r1.1 ≠ 0 then some (r1.2, .error r1.1)
    else
      let r2 := calloc_repl al.repl r1.2
      if r2.1 ≠ 0 then some (r2.2, .error r2.1)
      else match store_repl_data r2.2.mem r2.2.repl with
        | none => none
        | some m3 =>
          some ({ r2.2 with mem := m3 },
            .ok (.update toc.srch_slot r2.2.new_repl r2.2.repl))
  | Path.two =>
    let r1 := if m.page.expcol = 0 then calloc_new_expcol al.arr f0 else (0, f0)
    if r1.1 ≠ 0 then some (r1.2, .error r1.1)
    else
      let r2 := calloc_exp al.exp r1.2
      if r2.1 ≠ 0 then some (r2.2, .error r2.1)
      else
        let r3 := calloc_repl al.repl r2.2
        if r3.1 ≠ 0 then some (r3.2, .error r3.1)
        else match store_exp_fields r3.2.mem r3.2.exp toc.srch_rcc_offset r3.2.repl with
          | none => none
          | some m4 =>
            match store_repl_data m4 r3.2.repl with
            | none => none
            | some m5 =>
              some ({ r3.2 with mem := m5 },
                .ok (.rcc_expand toc.srch_slot r3.2.new_expcol r3.2.exp))
  | Path.three =>
    let r1 := calloc_repl al.repl f0
    if r1.1 ≠ 0 then some (r1.2, .error r1.1)
    else match store_repl_data r1.2.mem r1.2.repl with
      | none => none
      | some m2 =>
        some ({ r1.2 with mem := m2 }, .ok (.rcc_expand_repl toc.srch_exp r1.2.repl))

/-- Lines 101-102: `if (exp != NULL) __wt_free(env, exp, ...)`. -/
def err_free_exp (f : Frame) : Frame :=
  if f.exp ≠ 0 then
    { f with mem := f.mem.setExp f.exp none, trace := f.trace ++ [Event.free_exp f.exp] }
  else f

/-- Lines 103-104: `if (repl != NULL) __wt_free(env, repl, ...)`. -/
def err_free_repl (f : Frame) : Frame :=
  if f.repl ≠ 0 then
    { f with mem := f.mem.setRepl f.repl none, trace := f.trace ++ [Event.free_repl f.repl] }
  else f

/-- Lines 101-104, the `err` label: free the node candidates. -/
def col_del_err (f : Frame) : Frame :=
  err_free_repl (err_free_exp f)

/-- What a call of `__wt_db_col_del` leaves behind: its return value, the
heap and the trace. -/
structure DelResult where
  ret : Int
  mem : Mem
  trace : List Event

/-- Lines 108-110: free the expansion array candidate unless the work queue
used it. -/
def done_free_expcol (f : Frame) : Frame :=
  if f.new_expcol ≠ 0 ∧ f.new_expcol ≠ f.mem.page.expcol then
    { f with mem := f.mem.setExpArr f.new_expcol none
             trace := f.trace ++ [Event.free_expcol f.new_expcol] }
  else f

/-- Lines 113-114: free the replacement array candidate unless the work queue
used it. -/
def done_free_repl (f : Frame) : Frame :=
  if f.new_repl ≠ 0 ∧ f.new_repl ≠ f.mem.page.repl then
    { f with mem := f.mem.setReplArr f.new_repl none
             trace := f.trace ++ [Event.free_replarr f.new_repl] }
  else f

/-- Lines 116-117: release the page unless it is the root page; the flag is
`WT_MODIFIED` when `ret` is `0`. -/
def done_page_out (idb : IDB) (toc : WT_TOC) (ret : Int) (f : Frame) : Frame :=
  if toc.srch_page ≠ 0 ∧ toc.srch_page ≠ idb.root_page then
    { f with trace :=
        f.trace ++ [Event.page_out toc.srch_page (if ret = 0 then WT_MODIFIED else 0)] }
  else f

/-- Lines 107-119, the `done` label: free the array candidates the work queue
did not use, release the page unless it is the root, `return (0)`. -/
def col_del_done (idb : IDB) (toc : WT_TOC) (ret : Int) (f : Frame) : DelResult :=
  let f3 := done_page_out idb toc ret (done_free_repl (done_free_expcol f))
  { ret := 0, mem := f3.mem, trace := f3.trace }

/-- The method `Db.col_del`.  `search` is the external `__wt_bt_search_col`: its
return value and the search fields it leaves in the `WT_TOC`.  The macros
`WT_RET` and `WT_ERR` are not part of the sources: `WT_RET(e)` returns the
value of `e` at once when it is not `0`, `WT_ERR(e)` stores the value of `e`
in `ret` and jumps to `err` when it is not `0`.  Dereferencing
`toc->srch_page` when it is `NULL` is undefined.  The work queue runs the
submitted server function before the `*_serial` call returns. -/
def __wt_db_col_del (idb : IDB) (search : Mem → Nat → Int × WT_TOC) (al : Calloc)
    (m : Mem) (recno : Nat) : Option DelResult :=
  let sr := search m recno
  if sr.1 ≠ 0 then some { ret := sr.1, mem := m, trace := [] }
  else
    let toc := sr.2
    if toc.srch_page = 0 then none
    else match col_del_alloc idb toc al m with
      | none => none
      | some (f, .error ret) => some (col_del_done idb toc ret (col_del_err f))
      | some (f, .ok sub) =>
        match serialize f.mem sub with
        | none => none
        | some (ret, m1) =>
          some (col_del_done idb toc ret
            { f with mem := m1, trace := f.trace ++ [sub.event] })

/-! ## Reading the overlay -/

/-- The forward-linked list that starts at `p` is exactly the cells `l`, in
`next` order, and ends in `NULL`. -/
def chain {α : Type} (next : α → Ptr) (heap : Ptr → Option α) : Ptr → List Ptr → Bool
  | p, [] => p == 0
  | p, a :: l =>
    p == a && a != 0 &&
      (match heap a with
       | some c => chain next heap (next c) l
       | none => false)

/-- The replacement list that starts at `p` is exactly the cells `l`. -/
def replChain (repls : Ptr → Option WT_REPL) (p : Ptr) (l : List Ptr) : Bool :=
  chain WT_REPL.next repls p l

/-- The expansion list that starts at `p` is exactly the cells `l`. -/
def expChain (exps : Ptr → Option WT_COL_EXPAND) (p : Ptr) (l : List Ptr) : Bool :=
  chain WT_COL_EXPAND.next exps p l

/-- The head of the expansion list of run `slot`: `page->expcol[slot]`, and
`NULL` while the page has no expansion array. -/
def Mem.expHead (m : Mem) (slot : Nat) : Ptr :=
  (m.expcolAt slot).getD 0

/-- The `rcc_offset` of an expansion cell (`0` for a cell that is not
allocated). -/
def Mem.rccOffset (m : Mem) (p : Ptr) : Nat :=
  match m.exps p with
  | some e => e.rcc_offset
  | none => 0

/-- The page's expansion array, when present, is an allocated block of
`indx_count` pointers. -/
def Mem.ExpcolOK (m : Mem) : Prop :=
  m.page.expcol ≠ 0 →
    ∃ a, m.expArr m.page.expcol = some a ∧ a.length = m.page.indx_count

/-- The page's replacement array, when present, is an allocated block of
`indx_count` pointers. -/
def Mem.ReplOK (m : Mem) : Prop :=
  m.page.repl ≠ 0 →
    ∃ a, m.replArr m.page.repl = some a ∧ a.length = m.page.indx_count

/-- What `__wt_calloc` promises for a block it returns: the address is not
`NULL` and was not allocated before. -/
def FreshIn {α : Type} (heap : Ptr → Option α) (o : Option Ptr) : Prop :=
  ∀ p, o = some p → p ≠ 0 ∧ heap p = none

/-- Every block the allocator hands out during one call is fresh. -/
def Calloc.Fresh (al : Calloc) (idb : IDB) (m : Mem) : Prop :=
  FreshIn m.repls al.repl ∧ FreshIn m.exps al.exp ∧
    (if idb.repeat_comp = false then FreshIn m.replArr al.arr else FreshIn m.expArr al.arr)

/-- Some allocation that the call attempts fails: the array allocation is
attempted when the page has no array yet, the node allocations in the order of
the path. -/
def allocFails (idb : IDB) (toc : WT_TOC) (al : Calloc) (m : Mem) : Prop :=
  match col_del_path idb toc with
  | Path.one => (m.page.repl = 0 ∧ al.arr = none) ∨ al.repl = none
  | Path.two => (m.page.expcol = 0 ∧ al.arr = none) ∨ al.exp = none ∨ al.repl = none
  | Path.three => al.repl = none

/-- The trace entry is one of the three `*_serial` calls. -/
def Event.isSubmit : Event → Bool
  | .submit_update _ _ _ => true
  | .submit_rcc_expand _ _ _ => true
  | .submit_rcc_expand_repl _ _ => true
  | _ => false

/-- The frame's heap is the heap `m` the call started from plus the blocks of
the candidates held in the locals, and each candidate block was not allocated
in `m`. -/
structure Frame.Holds (f : Frame) (m : Mem) : Prop where
  page : f.mem.page = m.page
  repls : ∀ p, (p ≠ f.repl ∨ f.repl = 0) → f.mem.repls p = m.repls p
  repl_fresh : f.repl ≠ 0 → m.repls f.repl = none
  exps : ∀ p, (p ≠ f.exp ∨ f.exp = 0) → f.mem.exps p = m.exps p
  exp_fresh : f.exp ≠ 0 → m.exps f.exp = none
  expArr : ∀ p, (p ≠ f.new_expcol ∨ f.new_expcol = 0) → f.mem.expArr p = m.expArr p
  expcol_fresh : f.new_expcol ≠ 0 → m.expArr f.new_expcol = none ∧ m.page.expcol = 0
  replArr : ∀ p, (p ≠ f.new_repl ∨ f.new_repl = 0) → f.mem.replArr p = m.replArr p
  new_repl_fresh : f.new_repl ≠ 0 → m.replArr f.new_repl = none ∧ m.page.repl = 0

/-- The trace entry is one of the outcomes of `__wt_calloc`. -/
def Event.isCalloc : Event → Bool
  | .calloc_fail => true
  | .calloc_new_repl _ => true
  | .calloc_new_expcol _ => true
  | .calloc_exp _ => true
  | .calloc_repl _ => true
  | _ => false

/-- Every expansion list of the page has pairwise distinct `rcc_offset`
values. -/
def Mem.DistinctOffsets (m : Mem) : Prop :=
  ∀ slot L, expChain m.exps (m.expHead slot) L = true → (L.map m.rccOffset).Nodup

/-- Install-expansion server functions run one after the other; each item is
`(slot, new_exp, exp)`. -/
def rcc_expand_seq : List (Nat × Ptr × Ptr) → Mem → Option Mem
  | [], m => some m
  | (slot, new_exp, exp) :: cs, m =>
    match __wt_bt_rcc_expand_serial_func m slot new_exp exp with
    | none => none
    | some (_, m1) => rcc_expand_seq cs m1

/-- The replacement record `p` is published: it is the replacement head of an
expansion entry or it sits in a slot of the page's replacement array. -/
def Mem.publishesRepl (M : Mem) (p : Ptr) : Prop :=
  (∃ q c, M.exps q = some c ∧ c.repl = p) ∨ (∃ slot, M.replAt slot = some p)

/-- Who owns what after a call of `__wt_db_col_del` that started in heap `m`
and ended in `res`: each array candidate is freed exactly when it is not the
page's array, each node candidate is either freed or published, only
candidates of this call are freed, and no block that was allocated before the
call is freed. -/
structure Ownership (m : Mem) (toc : WT_TOC) (res : DelResult) : Prop where
  expcol_freed_iff : ∀ p, Event.calloc_new_expcol p ∈ res.trace →
    (Event.free_expcol p ∈ res.trace ↔ p ≠ res.mem.page.expcol)
  expcol_freed : ∀ p, Event.free_expcol p ∈ res.trace →
    Event.calloc_new_expcol p ∈ res.trace ∧ res.mem.expArr p = none
  expcol_kept : ∀ p, Event.calloc_new_expcol p ∈ res.trace →
    Event.free_expcol p ∉ res.trace → res.mem.expArr p ≠ none
  replarr_freed_iff : ∀ p, Event.calloc_new_repl p ∈ res.trace →
    (Event.free_replarr p ∈ res.trace ↔ p ≠ res.mem.page.repl)
  replarr_freed : ∀ p, Event.free_replarr p ∈ res.trace →
    Event.calloc_new_repl p ∈ res.trace ∧ res.mem.replArr p = none
  replarr_kept : ∀ p, Event.calloc_new_repl p ∈ res.trace →
    Event.free_replarr p ∉ res.trace → res.mem.replArr p ≠ none
  fail_frees_exp : Event.calloc_fail ∈ res.trace →
    ∀ p, Event.calloc_exp p ∈ res.trace → Event.free_exp p ∈ res.trace
  fail_frees_repl : Event.calloc_fail ∈ res.trace →
    ∀ p, Event.calloc_repl p ∈ res.trace → Event.free_repl p ∈ res.trace
  exp_freed : ∀ p, Event.free_exp p ∈ res.trace →
    Event.calloc_exp p ∈ res.trace ∧ res.mem.exps p = none
  exp_kept : ∀ p, Event.calloc_exp p ∈ res.trace → Event.free_exp p ∉ res.trace →
    res.mem.exps p ≠ none ∧ res.mem.expHead toc.srch_slot = p
  repl_freed : ∀ p, Event.free_repl p ∈ res.trace →
    Event.calloc_repl p ∈ res.trace ∧ res.mem.repls p = none
  repl_kept : ∀ p, Event.calloc_repl p ∈ res.trace → Event.free_repl p ∉ res.trace →
    res.mem.repls p ≠ none ∧ res.mem.publishesRepl p
  old_exps : ∀ p, m.exps p ≠ none → res.mem.exps p ≠ none
  old_repls : ∀ p, m.repls p ≠ none → res.mem.repls p ≠ none
  old_expArr : ∀ p, m.expArr p ≠ none → res.mem.expArr p ≠ none
  old_replArr : ∀ p, m.replArr p ≠ none → res.mem.replArr p ≠ none

/-- Sequential calls of `__wt_db_col_del` for one record number; the i-th call
gets the i-th allocator outcome. -/
def col_del_seq (idb : IDB) (search : Mem → Nat → Int × WT_TOC) :
    List Calloc → Mem → Nat → Option Mem
  | [], m, _ => some m
  | al :: als, m, recno =>
    match __wt_db_col_del idb search al m recno with
    | none => none
    | some res => col_del_seq idb search als res.mem recno

/-! ## Example inputs: the scenario of section 8

Run index 3 of a compressed page with four slots spans records 100-109;
record 105 is at offset 5 of the run. -/

/-- A compressed store whose root page is page 1. -/
def exIdb : IDB := ⟨true, 1⟩

/-- A store without repeat-count compression, root page 1. -/
def exIdbPlain : IDB := ⟨false, 1⟩

/-- A page with four slots and no overlay, in an empty heap. -/
def exMem : Mem :=
  { page := ⟨4, 0, 0, false⟩
    repls := fun _ => none
    exps := fun _ => none
    replArr := fun _ => none
    expArr := fun _ => none }

/-- The page after record 105 was deleted once: the expansion array is block
10, its slot 3 holds the cell 20 (offset 5), whose replacement list is the
tombstone 30. -/
def exMem1 : Mem :=
  { page := ⟨4, 0, 10, true⟩
    repls := fun p => if p = 30 then some ⟨WT_REPL_DELETED_VALUE, 0⟩ else none
    exps := fun p => if p = 20 then some ⟨5, 30, 0⟩ else none
    replArr := fun _ => none
    expArr := fun p => if p = 10 then some [0, 0, 0, 20] else none }

/-- A search for record 105 on page 2: it looks at the head of run 3 and
reports it when it stands for offset 5. -/
def exSearch (m : Mem) (_ : Nat) : Int × WT_TOC :=
  match m.exps (m.expHead 3) with
  | some c =>
    if c.rcc_offset = 5 then (0, ⟨2, 3, c.repl, m.expHead 3, 5⟩) else (0, ⟨2, 3, 0, 0, 5⟩)
  | none => (0, ⟨2, 3, 0, 0, 5⟩)

/-- A search for record 105 that always reports the expansion cell 20 and the
replacement reference 30. -/
def exSearchOld (_ : Mem) (_ : Nat) : Int × WT_TOC := (0, ⟨2, 3, 30, 20, 5⟩)

/-- The page after record 105 was deleted once, with the candidates of a second
delete of record 105 that was classified before the first one was serialized:
an expansion array (block 11), an expansion cell (21, offset 5) and its
tombstone (31). -/
def exMemStale : Mem :=
  { page := ⟨4, 0, 10, true⟩
    repls := fun p =>
      if p = 30 then some ⟨WT_REPL_DELETED_VALUE, 0⟩
      else if p = 31 then some ⟨WT_REPL_DELETED_VALUE, 0⟩ else none
    exps := fun p =>
      if p = 20 then some ⟨5, 30, 0⟩ else if p = 21 then some ⟨5, 31, 0⟩ else none
    replArr := fun _ => none
    expArr := fun p =>
      if p = 10 then some [0, 0, 0, 20] else if p = 11 then some [0, 0, 0, 0] else none }

/-- The page after record 105 was deleted once, with the candidates of a delete
of record 107 (offset 7 of the same run): an expansion cell (22) and its
tombstone (32). -/
def exMemOther : Mem :=
  { page := ⟨4, 0, 10, true⟩
    repls := fun p =>
      if p = 30 then some ⟨WT_REPL_DELETED_VALUE, 0⟩
      else if p = 32 then some ⟨WT_REPL_DELETED_VALUE, 0⟩ else none
    exps := fun p =>
      if p = 20 then some ⟨5, 30, 0⟩ else if p = 22 then some ⟨7, 32, 0⟩ else none
    replArr := fun _ => none
    expArr := fun p => if p = 10 then some [0, 0, 0, 20] else none }

/-- The page without overlay, with the candidates of the first delete of record
105 allocated and filled in: an expansion array (block 10), an expansion cell
(20, offset 5) and its tombstone (30). -/
def exMemFirst : Mem :=
  { page := ⟨4, 0, 0, false⟩
    repls := fun p => if p = 30 then some ⟨WT_REPL_DELETED_VALUE, 0⟩ else none
    exps := fun p => if p = 20 then some ⟨5, 30, 0⟩ else none
    replArr := fun _ => none
    expArr := fun p => if p = 10 then some [0, 0, 0, 0] else none }

/-- A search that does not find the record: it fails with code `-7`. -/
def exSearchFail (_ : Mem) (_ : Nat) : Int × WT_TOC := (-7, ⟨0, 0, 0, 0, 0⟩)

/-- A search in the store without compression: record 3 is in slot 3 of page
2. -/
def exSearchPlain (_ : Mem) (_ : Nat) : Int × WT_TOC := (0, ⟨2, 3, 0, 0, 0⟩)

/-- The trace entry is a page release. -/
def Event.isPageOut : Event → Bool
  | .page_out _ _ => true
  | _ => false

/-- The states a reader can observe while `__wt_bt_rcc_expand_serial_func`
runs: the state before the first store and the state after each store, in
program order (lines 142, 149, 151, 152). -/
def rcc_expand_states (m : Mem) (slot : Nat) (new_exp exp : Ptr) : Option (List Mem) :=
  match rcc_expand_link (rcc_expand_adopt m new_exp) slot exp with
  | none => none
  | some s2 =>
    match rcc_expand_publish s2 slot exp with
    | none => none
    | some s3 => some [m, rcc_expand_adopt m new_exp, s2, s3, page_modify_set s3]

/-- The states a reader can observe while
`__wt_bt_rcc_expand_repl_serial_func` runs: the state before the first store
and the state after each store, in program order (lines 175, 177, 178). -/
def rcc_expand_repl_states (m : Mem) (exp repl : Ptr) : Option (List Mem) :=
  match rcc_expand_repl_link m exp repl with
  | none => none
  | some s1 =>
    match rcc_expand_repl_publish s1 exp repl with
    | none => none
    | some s2 => some [m, s1, s2, page_modify_set s2]

/-- What `__wt_calloc` promises for the array candidate: while the page has no
expansion array, the candidate block holds only `NULL`. -/
def Mem.ZeroCandidate (m : Mem) (new_exp : Ptr) : Prop :=
  m.page.expcol = 0 → ∀ arr, m.expArr new_exp = some arr → ∀ x ∈ arr, x = 0

/-- The expansion cell `e` is on no expansion list of the page: it is a
candidate that has not been published. -/
def Mem.expUnpublished (m : Mem) (e : Ptr) : Prop :=
  ∀ slot L, expChain m.exps (m.expHead slot) L = true → e ∉ L

/-- The replacement record `r` is on no replacement list of an expansion cell:
it is a candidate that has not been published. -/
def Mem.replUnpublished (m : Mem) (r : Ptr) : Prop :=
  ∀ q c L, m.exps q = some c → replChain m.repls c.repl L = true → r ∉ L

/-- Two calls of `__wt_db_col_del` by two threads on one page, after both have
searched and allocated their candidates (lines 16-84, frames `f1` and `f2`; the
heap of `f2` holds the candidates of both calls) and before the work queue has
run either submission.  The work queue runs the two server functions one after
the other, the submission of the first call first unless `swap`; then each call
continues at its `done` label (lines 107-119) in the shared heap. -/
def col_del_race (idb : IDB) (toc1 toc2 : WT_TOC) (f1 f2 : Frame) (sub1 sub2 : Submission)
    (swap : Bool) : Option (DelResult × DelResult) :=
  match serialize f2.mem (if swap then sub2 else sub1) with
  | none => none
  | some (retA, mA) =>
    match serialize mA (if swap then sub1 else sub2) with
    | none => none
    | some (retB, mB) =>
      let res1 := col_del_done idb toc1 (if swap then retB else retA)
        { f1 with mem := mB, trace := f1.trace ++ [sub1.event] }
      let res2 := col_del_done idb toc2 (if swap then retA else retB)
        { f2 with mem := res1.mem, trace := f2.trace ++ [sub2.event] }
      some (res1, res2)

/-- Calls of `__wt_db_col_del` one after the other on one page, each with its
own search, allocator outcome and record number. -/
def col_del_calls (idb : IDB) :
    List ((Mem → Nat → Int × WT_TOC) × Calloc × Nat) → Mem → Option Mem
  | [], m => some m
  | (search, al, recno) :: cs, m =>
    match __wt_db_col_del idb search al m recno with
    | none => none
    | some res => col_del_calls idb cs res.mem

/-- In a sequence of calls every allocator outcome is fresh in the heap its
call starts from. -/
def CallsFresh (idb : IDB) :
    List ((Mem → Nat → Int × WT_TOC) × Calloc × Nat) → Mem → Prop
  | [], _ => True
  | (search, al, recno) :: cs, m =>
    al.Fresh idb m ∧
      ∀ res, __wt_db_col_del idb search al m recno = some res → CallsFresh idb cs res.mem

/-- A search for record 107 on page 2: offset 7 of run 3, not yet expanded. -/
def exSearch107 (_ : Mem) (_ : Nat) : Int × WT_TOC := (0, ⟨2, 3, 0, 0, 7⟩)

/-- A call of `__wt_db_col_del` during which other calls run: the calls
`between` complete after this call has allocated its candidates (lines 60-88)
and before the work queue runs this call's submission; the call then continues
at `done` in the heap the server function leaves.  On a failed allocation the
call goes through `err` and `done` at once. -/
def col_del_among (idb : IDB) (search : Mem → Nat → Int × WT_TOC) (al : Calloc)
    (between : List ((Mem → Nat → Int × WT_TOC) × Calloc × Nat))
    (m : Mem) (recno : Nat) : Option DelResult :=
  let sr := search m recno
  if sr.1 ≠ 0 then some { ret := sr.1, mem := m, trace := [] }
  else
    let toc := sr.2
    if toc.srch_page = 0 then none
    else match col_del_alloc idb toc al m with
      | none => none
      | some (f, .error ret) => some (col_del_done idb toc ret (col_del_err f))
      | some (f, .ok sub) =>
        match col_del_calls idb between f.mem with
        | none => none
        | some M =>
          match serialize M sub with
          | none => none
          | some (ret, m1) =>
            some (col_del_done idb toc ret
              { f with mem := m1, trace := f.trace ++ [sub.event] })

/-- The replacement record `p` is held by the overlay: it is the replacement
head of an expansion cell, or it is on the replacement list of an expansion
cell, or it sits in a slot of the page's replacement array. -/
def Mem.holdsRepl (M : Mem) (p : Ptr) : Prop :=
  (∃ q c, M.exps q = some c ∧ c.repl = p) ∨
    (∃ q c L, M.exps q = some c ∧ replChain M.repls c.repl L = true ∧ p ∈ L) ∨
    (∃ slot, M.replAt slot = some p)

/-- The record `r` is on the replacement list of the expansion cell `e`. -/
def Mem.replOn (M : Mem) (e r : Ptr) : Prop :=
  ∃ c L, M.exps e = some c ∧ replChain M.repls c.repl L = true ∧ r ∈ L

/-- Every block of `S` is still allocated in `M`. -/
def Mem.keptIn (S M : Mem) : Prop :=
  ∀ p, (S.repls p ≠ none → M.repls p ≠ none) ∧ (S.exps p ≠ none → M.exps p ≠ none) ∧
    (S.expArr p ≠ none → M.expArr p ≠ none) ∧ (S.replArr p ≠ none → M.replArr p ≠ none)

/-- Who owns what after a call of `__wt_db_col_del` that started in heap `m`,
ran among other calls and ended in `res`: each array candidate is freed exactly
when it is not the page's array, each node candidate is either freed or held by
the overlay, only candidates of this call are freed, and no block that was
allocated before the call is freed. -/
structure Owned (m : Mem) (toc : WT_TOC) (res : DelResult) : Prop where
  expcol_freed_iff : ∀ p, Event.calloc_new_expcol p ∈ res.trace →
    (Event.free_expcol p ∈ res.trace ↔ p ≠ res.mem.page.expcol)
  expcol_freed : ∀ p, Event.free_expcol p ∈ res.trace →
    Event.calloc_new_expcol p ∈ res.trace ∧ res.mem.expArr p = none
  expcol_kept : ∀ p, Event.calloc_new_expcol p ∈ res.trace →
    Event.free_expcol p ∉ res.trace → res.mem.expArr p ≠ none
  replarr_freed_iff : ∀ p, Event.calloc_new_repl p ∈ res.trace →
    (Event.free_replarr p ∈ res.trace ↔ p ≠ res.mem.page.repl)
  replarr_freed : ∀ p, Event.free_replarr p ∈ res.trace →
    Event.calloc_new_repl p ∈ res.trace ∧ res.mem.replArr p = none
  replarr_kept : ∀ p, Event.calloc_new_repl p ∈ res.trace →
    Event.free_replarr p ∉ res.trace → res.mem.replArr p ≠ none
  fail_frees_exp : Event.calloc_fail ∈ res.trace →
    ∀ p, Event.calloc_exp p ∈ res.trace → Event.free_exp p ∈ res.trace
  fail_frees_repl : Event.calloc_fail ∈ res.trace →
    ∀ p, Event.calloc_repl p ∈ res.trace → Event.free_repl p ∈ res.trace
  exp_freed : ∀ p, Event.free_exp p ∈ res.trace →
    Event.calloc_exp p ∈ res.trace ∧ res.mem.exps p = none
  exp_kept : ∀ p, Event.calloc_exp p ∈ res.trace → Event.free_exp p ∉ res.trace →
    res.mem.exps p ≠ none ∧ res.mem.expHead toc.srch_slot = p
  repl_freed : ∀ p, Event.free_repl p ∈ res.trace →
    Event.calloc_repl p ∈ res.trace ∧ res.mem.repls p = none
  repl_kept : ∀ p, Event.calloc_repl p ∈ res.trace → Event.free_repl p ∉ res.trace →
    res.mem.repls p ≠ none ∧ res.mem.holdsRepl p
  old_exps : ∀ p, m.exps p ≠ none → res.mem.exps p ≠ none
  old_repls : ∀ p, m.repls p ≠ none → res.mem.repls p ≠ none
  old_expArr : ∀ p, m.expArr p ≠ none → res.mem.expArr p ≠ none
  old_replArr : ∀ p, m.replArr p ≠ none → res.mem.replArr p ≠ none

/-! ## Lemmas on lists in the heap -/

theorem chain_nil {α : Type} (next : α → Ptr) (heap : Ptr → Option α) (p : Ptr) :
    chain next heap p [] = true ↔ p = 0 := by
  simp [chain]

theorem chain_cons {α : Type} (next : α → Ptr) (heap : Ptr → Option α) (p a : Ptr)
    (l : List Ptr) :
    chain next heap p (a :: l) = true ↔
      p = a ∧ a ≠ 0 ∧ ∃ c, heap a = some c ∧ chain next heap (next c) l = true := by
  cases h : heap a with
  | none => simp [chain, h]
  | some c => simp [chain, h, and_assoc]

/-- Every cell of a list is allocated. -/
theorem chain_allocated {α : Type} (next : α → Ptr) (heap : Ptr → Option α) :
    ∀ (l : List Ptr) (p : Ptr), chain next heap p l = true → ∀ a ∈ l, heap a ≠ none := by
  intro l
  induction l with
  | nil => intro p _ a ha; simp at ha
  | cons b l ih =>
    intro p h a ha
    rw [chain_cons] at h
    obtain ⟨_, _, c, hc, hl⟩ := h
    rcases List.mem_cons.1 ha with rfl | ha
    · simp [hc]
    · exact ih _ hl a ha

/-- A list only depends on its own cells. -/
theorem chain_congr {α : Type} (next : α → Ptr) (heap heap2 : Ptr → Option α) :
    ∀ (l : List Ptr) (p : Ptr), (∀ a ∈ l, heap2 a = heap a) →
      chain next heap p l = true → chain next heap2 p l = true := by
  intro l
  induction l with
  | nil => intro p _ h; simpa [chain] using h
  | cons b l ih =>
    intro p hag h
    rw [chain_cons] at h ⊢
    obtain ⟨h1, h2, c, hc, hl⟩ := h
    refine ⟨h1, h2, c, ?_, ?_⟩
    · rw [hag b (List.mem_cons_self _ _)]; exact hc
    · exact ih _ (fun a ha => hag a (List.mem_cons_of_mem _ ha)) hl

/-- Writing a cell that was not allocated leaves every list as it was. -/
theorem chain_update_fresh {α : Type} (next : α → Ptr) (heap : Ptr → Option α)
    (q : Ptr) (v : Option α) (hq : heap q = none) (l : List Ptr) (p : Ptr)
    (h : chain next heap p l = true) :
    chain next (Function.update heap q v) p l = true := by
  refine chain_congr next heap _ l p ?_ h
  intro a ha
  have hne : a ≠ q := by
    rintro rfl
    exact chain_allocated next heap l p h a ha hq
  simp [Function.update, hne]

/-- A list starts at its first cell. -/
theorem chain_headD {α : Type} (next : α → Ptr) (heap : Ptr → Option α) (l : List Ptr)
    (p : Ptr) (h : chain next heap p l = true) : l.headD p = p := by
  cases l with
  | nil => rfl
  | cons a l => exact ((chain_cons next heap p a l).1 h).1.symm

/-- The heap determines the list that starts at a pointer. -/
theorem chain_unique {α : Type} (next : α → Ptr) (heap : Ptr → Option α) :
    ∀ (l l2 : List Ptr) (p : Ptr), chain next heap p l = true →
      chain next heap p l2 = true → l = l2 := by
  intro l
  induction l with
  | nil =>
    intro l2 p h h2
    cases l2 with
    | nil => rfl
    | cons b l2 =>
      rw [chain_nil] at h
      rw [chain_cons] at h2
      exact absurd (h2.1.symm.trans h) h2.2.1
  | cons a l ih =>
    intro l2 p h h2
    cases l2 with
    | nil =>
      rw [chain_nil] at h2
      rw [chain_cons] at h
      exact absurd (h.1.symm.trans h2) h.2.1
    | cons b l2 =>
      rw [chain_cons] at h h2
      obtain ⟨h1, _, c, hc, hl⟩ := h
      obtain ⟨g1, _, d, hd, gl⟩ := h2
      have hab : a = b := h1.symm.trans g1
      subst hab
      rw [hc] at hd
      cases hd
      rw [ih l2 _ hl gl]

/-! ## Lemmas on the heap primitives -/

@[simp] theorem setRepl_page (m : Mem) (p : Ptr) (v : Option WT_REPL) :
    (m.setRepl p v).page = m.page := rfl
@[simp] theorem setRepl_exps (m : Mem) (p : Ptr) (v : Option WT_REPL) :
    (m.setRepl p v).exps = m.exps := rfl
@[simp] theorem setRepl_replArr (m : Mem) (p : Ptr) (v : Option WT_REPL) :
    (m.setRepl p v).replArr = m.replArr := rfl
@[simp] theorem setRepl_expArr (m : Mem) (p : Ptr) (v : Option WT_REPL) :
    (m.setRepl p v).expArr = m.expArr := rfl
@[simp] theorem setRepl_repls (m : Mem) (p : Ptr) (v : Option WT_REPL) :
    (m.setRepl p v).repls = Function.update m.repls p v := rfl

@[simp] theorem setExp_page (m : Mem) (p : Ptr) (v : Option WT_COL_EXPAND) :
    (m.setExp p v).page = m.page := rfl
@[simp] theorem setExp_repls (m : Mem) (p : Ptr) (v : Option WT_COL_EXPAND) :
    (m.setExp p v).repls = m.repls := rfl
@[simp] theorem setExp_replArr (m : Mem) (p : Ptr) (v : Option WT_COL_EXPAND) :
    (m.setExp p v).replArr = m.replArr := rfl
@[simp] theorem setExp_expArr (m : Mem) (p : Ptr) (v : Option WT_COL_EXPAND) :
    (m.setExp p v).expArr = m.expArr := rfl
@[simp] theorem setExp_exps (m : Mem) (p : Ptr) (v : Option WT_COL_EXPAND) :
    (m.setExp p v).exps = Function.update m.exps p v := rfl

@[simp] theorem setReplArr_page (m : Mem) (p : Ptr) (v : Option (List Ptr)) :
    (m.setReplArr p v).page = m.page := rfl
@[simp] theorem setReplArr_repls (m : Mem) (p : Ptr) (v : Option (List Ptr)) :
    (m.setReplArr p v).repls = m.repls := rfl
@[simp] theorem setReplArr_exps (m : Mem) (p : Ptr) (v : Option (List Ptr)) :
    (m.setReplArr p v).exps = m.exps := rfl
@[simp] theorem setReplArr_expArr (m : Mem) (p : Ptr) (v : Option (List Ptr)) :
    (m.setReplArr p v).expArr = m.expArr := rfl
@[simp] theorem setReplArr_replArr (m : Mem) (p : Ptr) (v : Option (List Ptr)) :
    (m.setReplArr p v).replArr = Function.update m.replArr p v := rfl

@[simp] theorem setExpArr_page (m : Mem) (p : Ptr) (v : Option (List Ptr)) :
    (m.setExpArr p v).page = m.page := rfl
@[simp] theorem setExpArr_repls (m : Mem) (p : Ptr) (v : Option (List Ptr)) :
    (m.setExpArr p v).repls = m.repls := rfl
@[simp] theorem setExpArr_exps (m : Mem) (p : Ptr) (v : Option (List Ptr)) :
    (m.setExpArr p v).exps = m.exps := rfl
@[simp] theorem setExpArr_replArr (m : Mem) (p : Ptr) (v : Option (List Ptr)) :
    (m.setExpArr p v).replArr = m.replArr := rfl
@[simp] theorem setExpArr_expArr (m : Mem) (p : Ptr) (v : Option (List Ptr)) :
    (m.setExpArr p v).expArr = Function.update m.expArr p v := rfl

@[simp] theorem page_modify_set_repls (m : Mem) : (page_modify_set m).repls = m.repls := rfl
@[simp] theorem page_modify_set_exps (m : Mem) : (page_modify_set m).exps = m.exps := rfl
@[simp] theorem page_modify_set_replArr (m : Mem) :
    (page_modify_set m).replArr = m.replArr := rfl
@[simp] theorem page_modify_set_expArr (m : Mem) :
    (page_modify_set m).expArr = m.expArr := rfl
@[simp] theorem page_modify_set_expcol (m : Mem) :
    (page_modify_set m).page.expcol = m.page.expcol := rfl
@[simp] theorem page_modify_set_repl (m : Mem) :
    (page_modify_set m).page.repl = m.page.repl := rfl
@[simp] theorem page_modify_set_indx_count (m : Mem) :
    (page_modify_set m).page.indx_count = m.page.indx_count := rfl
@[simp] theorem page_modify_set_modified (m : Mem) :
    (page_modify_set m).page.modified = true := rfl

/-- Two heaps with the same page and the same cells are the same heap. -/
theorem Mem.ext_fields (m n : Mem) (h1 : m.page = n.page) (h2 : m.repls = n.repls)
    (h3 : m.exps = n.exps) (h4 : m.replArr = n.replArr) (h5 : m.expArr = n.expArr) :
    m = n := by
  cases m; cases n; simp_all

/-- Allocating a cell and freeing it again restores the map. -/
theorem update_fresh_none {α : Type} (heap : Ptr → Option α) (p : Ptr) (v : Option α)
    (h : heap p = none) : Function.update (Function.update heap p v) p none = heap := by
  funext q
  by_cases hq : q = p
  · subst hq; simp [h]
  · simp [Function.update, hq]

/-! ## The phases of `__wt_db_col_del` -/

theorem col_del_search_fail (idb : IDB) (search : Mem → Nat → Int × WT_TOC) (al : Calloc)
    (m : Mem) (recno : Nat) (h : (search m recno).1 ≠ 0) :
    __wt_db_col_del idb search al m recno =
      some { ret := (search m recno).1, mem := m, trace := [] } := by
  simp [__wt_db_col_del, h]

theorem col_del_run_ok (idb : IDB) (search : Mem → Nat → Int × WT_TOC) (al : Calloc)
    (m : Mem) (recno : Nat) (toc : WT_TOC) (f : Frame) (sub : Submission) (ret : Int)
    (m1 : Mem) (hs : search m recno = (0, toc)) (hp : toc.srch_page ≠ 0)
    (ha : col_del_alloc idb toc al m = some (f, .ok sub))
    (hc : serialize f.mem sub = some (ret, m1)) :
    __wt_db_col_del idb search al m recno =
      some (col_del_done idb toc ret { f with mem := m1, trace := f.trace ++ [sub.event] }) := by
  simp [__wt_db_col_del, hs, hp, ha, hc]

theorem col_del_run_err (idb : IDB) (search : Mem → Nat → Int × WT_TOC) (al : Calloc)
    (m : Mem) (recno : Nat) (toc : WT_TOC) (f : Frame) (ret : Int)
    (hs : search m recno = (0, toc)) (hp : toc.srch_page ≠ 0)
    (ha : col_del_alloc idb toc al m = some (f, .error ret)) :
    __wt_db_col_del idb search al m recno =
      some (col_del_done idb toc ret (col_del_err f)) := by
  simp [__wt_db_col_del, hs, hp, ha]

/-- Path 2 with every allocation successful, the page without an expansion
array. -/
theorem col_del_alloc_rcc_new_absent (idb : IDB) (toc : WT_TOC) (m : Mem) (a e r : Ptr)
    (hcomp : idb.repeat_comp = true) (hnew : toc.srch_repl = 0) (h0 : m.page.expcol = 0)
    (he0 : e ≠ 0) (hr0 : r ≠ 0) :
    col_del_alloc idb toc ⟨some a, some e, some r⟩ m =
      some ({ mem := ((m.setExpArr a (some (List.replicate m.page.indx_count 0))).setExp e
                        (some ⟨toc.srch_rcc_offset, r, 0⟩)).setRepl r
                        (some ⟨WT_REPL_DELETED_VALUE, 0⟩)
              exp := e, new_expcol := a, new_repl := 0, repl := r
              trace := [Event.calloc_new_expcol a, Event.calloc_exp e, Event.calloc_repl r] },
            .ok (.rcc_expand toc.srch_slot a e)) := by
  simp [col_del_alloc, col_del_path, hcomp, hnew, h0, calloc_new_expcol, calloc_exp, calloc_repl, Frame.init,
    store_exp_fields, store_repl_data, he0, hr0, Mem.setExp, Mem.setRepl, Mem.setExpArr]

/-- Path 2 with every allocation successful, the page with an expansion
array. -/
theorem col_del_alloc_rcc_new_present (idb : IDB) (toc : WT_TOC) (m : Mem) (oa : Option Ptr)
    (e r : Ptr)
    (hcomp : idb.repeat_comp = true) (hnew : toc.srch_repl = 0) (h0 : m.page.expcol ≠ 0)
    (he0 : e ≠ 0) (hr0 : r ≠ 0) :
    col_del_alloc idb toc ⟨oa, some e, some r⟩ m =
      some ({ mem := (m.setExp e (some ⟨toc.srch_rcc_offset, r, 0⟩)).setRepl r
                        (some ⟨WT_REPL_DELETED_VALUE, 0⟩)
              exp := e, new_expcol := 0, new_repl := 0, repl := r
              trace := [Event.calloc_exp e, Event.calloc_repl r] },
            .ok (.rcc_expand toc.srch_slot 0 e)) := by
  simp [col_del_alloc, col_del_path, hcomp, hnew, h0, calloc_exp, calloc_repl, Frame.init,
    store_exp_fields, store_repl_data, he0, hr0, Mem.setExp, Mem.setRepl]

/-- Path 3 with the allocation successful. -/
theorem col_del_alloc_rcc_old (idb : IDB) (toc : WT_TOC) (m : Mem) (oa oe : Option Ptr)
    (r : Ptr)
    (hcomp : idb.repeat_comp = true) (hold : toc.srch_repl ≠ 0) (hr0 : r ≠ 0) :
    col_del_alloc idb toc ⟨oa, oe, some r⟩ m =
      some ({ mem := m.setRepl r (some ⟨WT_REPL_DELETED_VALUE, 0⟩)
              exp := 0, new_expcol := 0, new_repl := 0, repl := r
              trace := [Event.calloc_repl r] },
            .ok (.rcc_expand_repl toc.srch_exp r)) := by
  simp [col_del_alloc, col_del_path, hcomp, hold, calloc_repl, Frame.init, store_repl_data, hr0, Mem.setRepl]

/-- Path 1 with every allocation successful, the page without a replacement
array. -/
theorem col_del_alloc_plain_absent (idb : IDB) (toc : WT_TOC) (m : Mem) (oe : Option Ptr)
    (a r : Ptr)
    (hcomp : idb.repeat_comp = false) (h0 : m.page.repl = 0) (hr0 : r ≠ 0) :
    col_del_alloc idb toc ⟨some a, oe, some r⟩ m =
      some ({ mem := (m.setReplArr a (some (List.replicate m.page.indx_count 0))).setRepl r
                        (some ⟨WT_REPL_DELETED_VALUE, 0⟩)
              exp := 0, new_expcol := 0, new_repl := a, repl := r
              trace := [Event.calloc_new_repl a, Event.calloc_repl r] },
            .ok (.update toc.srch_slot a r)) := by
  simp [col_del_alloc, col_del_path, hcomp, h0, calloc_new_repl, calloc_repl, Frame.init, store_repl_data,
    hr0, Mem.setRepl, Mem.setReplArr]

/-- Path 1 with the allocation successful, the page with a replacement
array. -/
theorem col_del_alloc_plain_present (idb : IDB) (toc : WT_TOC) (m : Mem) (oa oe : Option Ptr)
    (r : Ptr)
    (hcomp : idb.repeat_comp = false) (h0 : m.page.repl ≠ 0) (hr0 : r ≠ 0) :
    col_del_alloc idb toc ⟨oa, oe, some r⟩ m =
      some ({ mem := m.setRepl r (some ⟨WT_REPL_DELETED_VALUE, 0⟩)
              exp := 0, new_expcol := 0, new_repl := 0, repl := r
              trace := [Event.calloc_repl r] },
            .ok (.update toc.srch_slot 0 r)) := by
  simp [col_del_alloc, col_del_path, hcomp, h0, calloc_repl, Frame.init, store_repl_data, hr0, Mem.setRepl]

/-! ## The server functions in closed form -/

@[simp] theorem rcc_expand_adopt_repls (m : Mem) (a : Ptr) :
    (rcc_expand_adopt m a).repls = m.repls := by
  unfold rcc_expand_adopt; split <;> rfl
@[simp] theorem rcc_expand_adopt_exps (m : Mem) (a : Ptr) :
    (rcc_expand_adopt m a).exps = m.exps := by
  unfold rcc_expand_adopt; split <;> rfl
@[simp] theorem rcc_expand_adopt_replArr (m : Mem) (a : Ptr) :
    (rcc_expand_adopt m a).replArr = m.replArr := by
  unfold rcc_expand_adopt; split <;> rfl
@[simp] theorem rcc_expand_adopt_expArr (m : Mem) (a : Ptr) :
    (rcc_expand_adopt m a).expArr = m.expArr := by
  unfold rcc_expand_adopt; split <;> rfl
@[simp] theorem rcc_expand_adopt_repl (m : Mem) (a : Ptr) :
    (rcc_expand_adopt m a).page.repl = m.page.repl := by
  unfold rcc_expand_adopt; split <;> rfl
@[simp] theorem rcc_expand_adopt_indx_count (m : Mem) (a : Ptr) :
    (rcc_expand_adopt m a).page.indx_count = m.page.indx_count := by
  unfold rcc_expand_adopt; split <;> rfl
theorem rcc_expand_adopt_absent (m : Mem) (a : Ptr) (h : m.page.expcol = 0) :
    (rcc_expand_adopt m a).page.expcol = a := by
  simp [rcc_expand_adopt, h]
theorem rcc_expand_adopt_present (m : Mem) (a : Ptr) (h : m.page.expcol ≠ 0) :
    rcc_expand_adopt m a = m := by
  simp [rcc_expand_adopt, h]

/-- The install-expansion server function on a page whose array (after the
adoption step) is the allocated block `arr`. -/
theorem rcc_expand_func_eq (m : Mem) (slot : Nat) (new_exp exp : Ptr) (arr : List Ptr)
    (c : WT_COL_EXPAND)
    (hp : (rcc_expand_adopt m new_exp).page.expcol ≠ 0)
    (harr : m.expArr (rcc_expand_adopt m new_exp).page.expcol = some arr)
    (hslot : slot < arr.length) (he0 : exp ≠ 0) (hc : m.exps exp = some c) :
    __wt_bt_rcc_expand_serial_func m slot new_exp exp =
      some (0, page_modify_set
        (((rcc_expand_adopt m new_exp).setExp exp
            (some { c with next := arr.getD slot 0 })).setExpArr
          (rcc_expand_adopt m new_exp).page.expcol (some (arr.set slot exp)))) := by
  have hget : arr.get? slot = some (arr.getD slot 0) := by
    rw [List.getD_eq_getElem?_getD, List.get?_eq_getElem?, List.getElem?_eq_getElem hslot]
    simp
  simp [__wt_bt_rcc_expand_serial_func, rcc_expand_link, rcc_expand_publish, Mem.expcolAt, hp,
    harr, hget, he0, hc, hslot]

/-- The append-replacement server function. -/
theorem rcc_expand_repl_func_eq (m : Mem) (exp repl : Ptr) (c : WT_COL_EXPAND) (r : WT_REPL)
    (he0 : exp ≠ 0) (hc : m.exps exp = some c) (hr0 : repl ≠ 0) (hr : m.repls repl = some r) :
    __wt_bt_rcc_expand_repl_serial_func m exp repl =
      some (0, page_modify_set
        ((m.setRepl repl (some { r with next := c.repl })).setExp exp
          (some { c with repl := repl }))) := by
  simp [__wt_bt_rcc_expand_repl_serial_func, rcc_expand_repl_link, rcc_expand_repl_publish,
    he0, hc, hr0, hr]

/-! ## The `done` label -/

theorem done_page_out_mem (idb : IDB) (toc : WT_TOC) (ret : Int) (f : Frame) :
    (done_page_out idb toc ret f).mem = f.mem := by
  unfold done_page_out; split <;> rfl

theorem col_del_done_ret (idb : IDB) (toc : WT_TOC) (ret : Int) (f : Frame) :
    (col_del_done idb toc ret f).ret = 0 := rfl

/-- When no array candidate is left over, `done` does not touch the heap. -/
theorem col_del_done_mem_keep (idb : IDB) (toc : WT_TOC) (ret : Int) (f : Frame)
    (h1 : f.new_expcol = 0 ∨ f.new_expcol = f.mem.page.expcol)
    (h2 : f.new_repl = 0 ∨ f.new_repl = f.mem.page.repl) :
    (col_del_done idb toc ret f).mem = f.mem := by
  have e1 : done_free_expcol f = f := by
    unfold done_free_expcol
    rw [if_neg]
    rintro ⟨ha, hb⟩
    rcases h1 with h | h
    · exact ha h
    · exact hb h
  have e2 : done_free_repl f = f := by
    unfold done_free_repl
    rw [if_neg]
    rintro ⟨ha, hb⟩
    rcases h2 with h | h
    · exact ha h
    · exact hb h
  simp [col_del_done, done_page_out_mem, e1, e2]


theorem expHead_absent (m : Mem) (slot : Nat) (h : m.page.expcol = 0) : m.expHead slot = 0 := by
  simp [Mem.expHead, Mem.expcolAt, h]

theorem expHead_present (m : Mem) (slot : Nat) (arr : List Ptr) (h : m.page.expcol ≠ 0)
    (ha : m.expArr m.page.expcol = some arr) : m.expHead slot = arr.getD slot 0 := by
  simp [Mem.expHead, Mem.expcolAt, h, ha, List.getD_eq_getElem?_getD]

/-! ## Successful calls in closed form -/

/-- When no array candidate is left over, `done` adds at most the page release
to the trace. -/
theorem col_del_done_trace_keep (idb : IDB) (toc : WT_TOC) (ret : Int) (f : Frame)
    (h1 : f.new_expcol = 0 ∨ f.new_expcol = f.mem.page.expcol)
    (h2 : f.new_repl = 0 ∨ f.new_repl = f.mem.page.repl) :
    (col_del_done idb toc ret f).trace =
      f.trace ++
        (if toc.srch_page ≠ 0 ∧ toc.srch_page ≠ idb.root_page then
          [Event.page_out toc.srch_page (if ret = 0 then WT_MODIFIED else 0)]
        else []) := by
  have e1 : done_free_expcol f = f := by
    unfold done_free_expcol
    rw [if_neg]
    rintro ⟨ha, hb⟩
    rcases h1 with h | h
    · exact ha h
    · exact hb h
  have e2 : done_free_repl f = f := by
    unfold done_free_repl
    rw [if_neg]
    rintro ⟨ha, hb⟩
    rcases h2 with h | h
    · exact ha h
    · exact hb h
  simp only [col_del_done, e1, e2, done_page_out]
  split <;> simp

/-- The expansion list read through slot `slot` once the fresh cell `e` has
been linked in front of the old list and the array slot points to it. -/
theorem linked_chain_view (m M : Mem) (slot : Nat) (e : Ptr) (c : WT_COL_EXPAND)
    (L arr : List Ptr)
    (hp : M.page.expcol ≠ 0) (ha : M.expArr M.page.expcol = some arr)
    (hget : arr.getD slot 0 = e)
    (hx : M.exps = Function.update m.exps e (some c)) (hc : c.next = m.expHead slot)
    (he0 : e ≠ 0) (hef : m.exps e = none)
    (hL : expChain m.exps (m.expHead slot) L = true) :
    M.expHead slot = e ∧
      expChain M.exps (M.expHead slot) (e :: L) = true ∧
      (∀ p, p ≠ e → M.exps p = m.exps p) := by
  have hH : M.expHead slot = e := by rw [expHead_present M slot arr hp ha, hget]
  have hfr : ∀ p, p ≠ e → M.exps p = m.exps p := by
    intro p hpe; simp [hx, Function.update, hpe]
  refine ⟨hH, ?_, hfr⟩
  rw [hH]
  unfold expChain
  rw [chain_cons]
  refine ⟨rfl, he0, c, by simp [hx], ?_⟩
  rw [hc]
  refine chain_congr _ m.exps M.exps L _ ?_ hL
  intro a ha
  apply hfr
  rintro rfl
  exact chain_allocated _ _ _ _ hL a ha hef

/-- Path 2 of `__wt_db_col_del` followed by the install-expansion server
function, all allocations successful: the heap afterwards, cell by cell. -/
theorem col_del_rcc_new_run
    (idb : IDB) (search : Mem → Nat → Int × WT_TOC) (al : Calloc) (m : Mem) (recno : Nat)
    (toc : WT_TOC) (e r : Ptr)
    (hcomp : idb.repeat_comp = true)
    (hsearch : search m recno = (0, toc))
    (hpage : toc.srch_page ≠ 0)
    (hnew : toc.srch_repl = 0)
    (hslot : toc.srch_slot < m.page.indx_count)
    (hok : m.ExpcolOK)
    (harr : m.page.expcol = 0 → ∃ a, al.arr = some a ∧ a ≠ 0 ∧ m.expArr a = none)
    (hexp : al.exp = some e) (he0 : e ≠ 0)
    (hrepl : al.repl = some r) (hr0 : r ≠ 0) :
    ∃ res arr, __wt_db_col_del idb search al m recno = some res ∧
      res.ret = 0 ∧
      res.mem.page.expcol ≠ 0 ∧
      res.mem.expArr res.mem.page.expcol = some arr ∧
      arr.getD toc.srch_slot 0 = e ∧
      arr.length = m.page.indx_count ∧
      res.mem.exps =
        Function.update m.exps e (some ⟨toc.srch_rcc_offset, r, m.expHead toc.srch_slot⟩) ∧
      res.mem.repls = Function.update m.repls r (some ⟨WT_REPL_DELETED_VALUE, 0⟩) ∧
      res.mem.replArr = m.replArr ∧
      res.mem.page.repl = m.page.repl ∧
      res.mem.page.indx_count = m.page.indx_count ∧
      (m.page.expcol ≠ 0 → res.mem.page.expcol = m.page.expcol) := by
  obtain ⟨oa, oe, orr⟩ := al
  simp only at harr hexp hrepl
  subst hexp hrepl
  by_cases h0 : m.page.expcol = 0
  · obtain ⟨a, ha, ha0, haf⟩ := harr h0
    subst ha
    have hal := col_del_alloc_rcc_new_absent idb toc m a e r hcomp hnew h0 he0 hr0
    have had : ∀ mm : Mem, mm.page.expcol = 0 → (rcc_expand_adopt mm a).page.expcol = a :=
      fun mm h => rcc_expand_adopt_absent mm a h
    have hcb := rcc_expand_func_eq
      (((m.setExpArr a (some (List.replicate m.page.indx_count 0))).setExp e
          (some ⟨toc.srch_rcc_offset, r, 0⟩)).setRepl r (some ⟨WT_REPL_DELETED_VALUE, 0⟩))
      toc.srch_slot a e (List.replicate m.page.indx_count 0) ⟨toc.srch_rcc_offset, r, 0⟩
      (by rw [had _ (by simpa using h0)]; exact ha0)
      (by rw [had _ (by simpa using h0)]; simp)
      (by simpa using hslot) he0 (by simp)
    rw [had _ (by simpa using h0)] at hcb
    have hrun := col_del_run_ok idb search _ m recno toc _ _ _ _ hsearch hpage hal hcb
    refine ⟨_, (List.replicate m.page.indx_count 0).set toc.srch_slot e, hrun, rfl, ?_⟩
    rw [col_del_done_mem_keep _ _ _ _ (Or.inr (by simp [rcc_expand_adopt, h0])) (Or.inl rfl)]
    have hh : m.expHead toc.srch_slot = 0 := expHead_absent m _ h0
    refine ⟨?_, ?_, ?_, ?_, ?_, ?_, ?_, ?_, ?_, ?_⟩
    · simp [rcc_expand_adopt, h0, ha0]
    · simp [rcc_expand_adopt, h0]
    · simp [List.getD_eq_getElem?_getD, hslot]
    · simp
    · simp [hh]
    · simp
    · simp
    · simp
    · simp
    · intro h; exact absurd h0 h
  · obtain ⟨arr, harr2, hlen⟩ := hok h0
    have hal := col_del_alloc_rcc_new_present idb toc m oa e r hcomp hnew h0 he0 hr0
    have had : ∀ mm : Mem, mm.page.expcol = m.page.expcol →
        (rcc_expand_adopt mm 0).page.expcol = m.page.expcol := by
      intro mm h; simp [rcc_expand_adopt, h, h0]
    have hcb := rcc_expand_func_eq
      ((m.setExp e (some ⟨toc.srch_rcc_offset, r, 0⟩)).setRepl r
        (some ⟨WT_REPL_DELETED_VALUE, 0⟩))
      toc.srch_slot 0 e arr ⟨toc.srch_rcc_offset, r, 0⟩
      (by rw [had _ (by simp)]; exact h0)
      (by rw [had _ (by simp)]; simpa using harr2)
      (by rw [hlen]; exact hslot) he0 (by simp)
    rw [had _ (by simp)] at hcb
    have hrun := col_del_run_ok idb search _ m recno toc _ _ _ _ hsearch hpage hal hcb
    refine ⟨_, arr.set toc.srch_slot e, hrun, rfl, ?_⟩
    rw [col_del_done_mem_keep _ _ _ _ (Or.inl rfl) (Or.inl rfl)]
    have hh : m.expHead toc.srch_slot = arr.getD toc.srch_slot 0 :=
      expHead_present m _ arr h0 harr2
    refine ⟨?_, ?_, ?_, ?_, ?_, ?_, ?_, ?_, ?_, ?_⟩
    · simp [rcc_expand_adopt, h0]
    · simp [rcc_expand_adopt, h0]
    · simp [List.getD_eq_getElem?_getD, hlen, hslot]
    · simp [hlen]
    · simp [hh]
    · simp
    · simp
    · simp
    · simp
    · intro _; simp [rcc_expand_adopt, h0]

/-- Path 3 of `__wt_db_col_del` followed by the append-replacement server
function, the allocation successful: the heap afterwards, cell by cell. -/
theorem col_del_rcc_old_run
    (idb : IDB) (search : Mem → Nat → Int × WT_TOC) (al : Calloc) (m : Mem) (recno : Nat)
    (toc : WT_TOC) (r : Ptr) (c : WT_COL_EXPAND)
    (hcomp : idb.repeat_comp = true)
    (hsearch : search m recno = (0, toc))
    (hpage : toc.srch_page ≠ 0)
    (hold : toc.srch_repl ≠ 0)
    (he0 : toc.srch_exp ≠ 0) (hc : m.exps toc.srch_exp = some c)
    (hrepl : al.repl = some r) (hr0 : r ≠ 0) :
    ∃ res, __wt_db_col_del idb search al m recno = some res ∧
      res.ret = 0 ∧
      res.mem.exps = Function.update m.exps toc.srch_exp (some { c with repl := r }) ∧
      res.mem.repls = Function.update m.repls r (some ⟨WT_REPL_DELETED_VALUE, c.repl⟩) ∧
      res.mem.expArr = m.expArr ∧
      res.mem.replArr = m.replArr ∧
      res.mem.page.expcol = m.page.expcol ∧
      res.mem.page.repl = m.page.repl ∧
      res.mem.page.indx_count = m.page.indx_count ∧
      res.trace =
        [Event.calloc_repl r, Event.submit_rcc_expand_repl toc.srch_exp r] ++
          (if toc.srch_page ≠ 0 ∧ toc.srch_page ≠ idb.root_page then
            [Event.page_out toc.srch_page WT_MODIFIED]
          else []) := by
  obtain ⟨oa, oe, orr⟩ := al
  simp only at hrepl
  subst hrepl
  have hal := col_del_alloc_rcc_old idb toc m oa oe r hcomp hold hr0
  have hcb := rcc_expand_repl_func_eq (m.setRepl r (some ⟨WT_REPL_DELETED_VALUE, 0⟩))
    toc.srch_exp r c ⟨WT_REPL_DELETED_VALUE, 0⟩ he0 (by simpa using hc) hr0 (by simp)
  have hrun := col_del_run_ok idb search _ m recno toc _ _ _ _ hsearch hpage hal hcb
  refine ⟨_, hrun, rfl, ?_⟩
  rw [col_del_done_mem_keep _ _ _ _ (Or.inl rfl) (Or.inl rfl),
    col_del_done_trace_keep _ _ _ _ (Or.inl rfl) (Or.inl rfl)]
  refine ⟨?_, ?_, ?_, ?_, ?_, ?_, ?_, ?_⟩ <;> simp [Submission.event]

/-- Any number of sequential path-3 deletes of one expanded record: the
replacement list of the entry grows at its head, newest first. -/
theorem col_del_seq_run (idb : IDB) (search : Mem → Nat → Int × WT_TOC) (recno : Nat)
    (e : Ptr) (hcomp : idb.repeat_comp = true) (he0 : e ≠ 0)
    (hsearch : ∀ m2 : Mem, m2.exps e ≠ none →
      ∃ toc, search m2 recno = (0, toc) ∧ toc.srch_page ≠ 0 ∧ toc.srch_repl ≠ 0 ∧
        toc.srch_exp = e) :
    ∀ (rs : List Ptr) (als : List Calloc) (m : Mem) (c : WT_COL_EXPAND) (L0 : List Ptr),
      m.exps e = some c → replChain m.repls c.repl L0 = true →
      als.map Calloc.repl = rs.map some →
      (∀ r ∈ rs, r ≠ 0) → (∀ r ∈ rs, m.repls r = none) → rs.Nodup →
      ∃ M, col_del_seq idb search als m recno = some M ∧
        M.exps e = some { c with repl := (rs.reverse ++ L0).headD c.repl } ∧
        replChain M.repls ((rs.reverse ++ L0).headD c.repl) (rs.reverse ++ L0) = true ∧
        (∀ r ∈ rs, ∃ n, M.repls r = some ⟨WT_REPL_DELETED_VALUE, n⟩) ∧
        (∀ p, p ∉ rs → M.repls p = m.repls p) ∧
        (∀ p, p ≠ e → M.exps p = m.exps p) := by
  intro rs
  induction rs with
  | nil =>
    intro als m c L0 hc hL0 hals _ _ _
    have hals2 : als = [] := by simpa using hals
    subst hals2
    have hhd : ([].reverse ++ L0).headD c.repl = c.repl := by
      simpa using chain_headD _ _ _ _ hL0
    refine ⟨m, rfl, ?_, ?_, ?_, ?_, ?_⟩
    · rw [hhd]; exact hc
    · rw [hhd]; simpa using hL0
    · intro r hr; simp at hr
    · intro p _; rfl
    · intro p _; rfl
  | cons r rs ih =>
    intro als m c L0 hc hL0 hals hnz hfr hnd
    cases als with
    | nil => simp at hals
    | cons al als =>
      simp only [List.map_cons, List.cons.injEq] at hals
      obtain ⟨hal, hals⟩ := hals
      obtain ⟨toc, hs, hpage, hold, hexp⟩ := hsearch m (by simp [hc])
      have hr0 : r ≠ 0 := hnz r (List.mem_cons_self _ _)
      have hrf : m.repls r = none := hfr r (List.mem_cons_self _ _)
      obtain ⟨res, hrun, _, hx, hrp, _⟩ :=
        col_del_rcc_old_run idb search al m recno toc r c hcomp hs hpage hold
          (by rw [hexp]; exact he0) (by rw [hexp]; exact hc) hal hr0
      rw [hexp] at hx
      have hc1 : res.mem.exps e = some { c with repl := r } := by simp [hx]
      have hL1 : replChain res.mem.repls r (r :: L0) = true := by
        unfold replChain
        rw [chain_cons]
        refine ⟨rfl, hr0, ⟨WT_REPL_DELETED_VALUE, c.repl⟩, by simp [hrp], ?_⟩
        rw [hrp]
        exact chain_update_fresh _ _ _ _ hrf L0 _ hL0
      have hnd2 := List.nodup_cons.1 hnd
      obtain ⟨M, hM, hcM, hchM, hnew, hold2, hxM⟩ :=
        ih als res.mem { c with repl := r } (r :: L0) hc1 hL1 hals
          (fun q hq => hnz q (List.mem_cons_of_mem _ hq))
          (fun q hq => by
            have hqr : q ≠ r := by rintro rfl; exact hnd2.1 hq
            rw [hrp]
            simp [Function.update, hqr, hfr q (List.mem_cons_of_mem _ hq)])
          hnd2.2
      have happ : (r :: rs).reverse ++ L0 = rs.reverse ++ r :: L0 := by simp
      have hhd : (rs.reverse ++ r :: L0).headD c.repl = (rs.reverse ++ r :: L0).headD r := by
        cases rs.reverse <;> rfl
      refine ⟨M, ?_, ?_, ?_, ?_, ?_, ?_⟩
      · simp [col_del_seq, hrun, hM]
      · rw [happ, hhd]; exact hcM
      · rw [happ, hhd]; exact hchM
      · intro q hq
        rcases List.mem_cons.1 hq with rfl | hq
        · refine ⟨c.repl, ?_⟩
          rw [hold2 q hnd2.1, hrp]
          simp
        · exact hnew q hq
      · intro p hp
        have hp1 : p ∉ rs := fun h => hp (List.mem_cons_of_mem _ h)
        have hp2 : p ≠ r := fun h => hp (h ▸ List.mem_cons_self _ _)
        rw [hold2 p hp1, hrp]
        simp [Function.update, hp2]
      · intro p hp
        rw [hxM p hp, hx]
        simp [Function.update, hp]

/-! ## The allocation phase -/

theorem col_del_path_one (idb : IDB) (toc : WT_TOC) :
    col_del_path idb toc = Path.one ↔ idb.repeat_comp = false := by
  unfold col_del_path
  by_cases h : idb.repeat_comp = false
  · simp [h]
  · by_cases h2 : toc.srch_repl = 0 <;> simp [h, h2]

theorem col_del_path_two (idb : IDB) (toc : WT_TOC) :
    col_del_path idb toc = Path.two ↔ idb.repeat_comp = true ∧ toc.srch_repl = 0 := by
  unfold col_del_path
  by_cases h : idb.repeat_comp = false
  · simp [h]
  · by_cases h2 : toc.srch_repl = 0 <;> simp [h, h2]

theorem col_del_path_three (idb : IDB) (toc : WT_TOC) :
    col_del_path idb toc = Path.three ↔ idb.repeat_comp = true ∧ toc.srch_repl ≠ 0 := by
  unfold col_del_path
  by_cases h : idb.repeat_comp = false
  · simp [h]
  · by_cases h2 : toc.srch_repl = 0 <;> simp [h, h2]

/-- A failing allocation sends `col_del_alloc` to `err` with the allocator's
failure code. -/
theorem col_del_alloc_fails (idb : IDB) (toc : WT_TOC) (al : Calloc) (m : Mem)
    (hfail : allocFails idb toc al m) :
    ∃ f, col_del_alloc idb toc al m = some (f, .error WT_ENOMEM) := by
  obtain ⟨oa, oe, orr⟩ := al
  unfold allocFails at hfail
  unfold col_del_alloc
  cases hpath : col_del_path idb toc <;> simp only [hpath] at hfail ⊢
  · by_cases h0 : m.page.repl = 0 <;> cases oa <;> cases orr <;>
      simp_all [calloc_new_repl, calloc_repl, Frame.init, WT_ENOMEM]
  · by_cases h0 : m.page.expcol = 0 <;> cases oa <;> cases oe <;> cases orr <;>
      simp_all [calloc_new_expcol, calloc_exp, calloc_repl, Frame.init, WT_ENOMEM]
  · cases orr <;> simp_all [calloc_repl, Frame.init, WT_ENOMEM]

set_option maxHeartbeats 2000000 in
/-- Whatever `col_del_alloc` returns, the frame holds only fresh candidates. -/
theorem col_del_alloc_holds (idb : IDB) (toc : WT_TOC) (al : Calloc) (m : Mem) (f : Frame)
    (x : Except Int Submission) (hfresh : al.Fresh idb m)
    (h : col_del_alloc idb toc al m = some (f, x)) : f.Holds m := by
  obtain ⟨oa, oe, orr⟩ := al
  obtain ⟨hfr, hfe, hfa⟩ := hfresh
  simp only [FreshIn] at hfr hfe hfa
  have hr : ∀ r, orr = some r → r ≠ 0 ∧ m.repls r = none := hfr
  have he : ∀ e, oe = some e → e ≠ 0 ∧ m.exps e = none := hfe
  clear hfr hfe
  revert f x
  unfold col_del_alloc
  cases hpath : col_del_path idb toc <;> simp only [hpath]
  · have hcomp := (col_del_path_one idb toc).1 hpath
    simp only [hcomp, if_true] at hfa
    by_cases h0 : m.page.repl = 0 <;> rcases oa with _ | a <;> rcases orr with _ | r <;>
      intro f x h <;>
      simp [h0, calloc_new_repl, calloc_repl, Frame.init, WT_ENOMEM, store_repl_data,
        hr, hfa] at h <;>
      obtain ⟨rfl, _⟩ := h <;>
      constructor <;> simp_all [Function.update]
  · have hcomp := (col_del_path_two idb toc).1 hpath
    simp [hcomp.1] at hfa
    by_cases h0 : m.page.expcol = 0 <;> rcases oa with _ | a <;> rcases oe with _ | e <;>
        rcases orr with _ | r <;>
      intro f x h <;>
      simp [h0, calloc_new_expcol, calloc_exp, calloc_repl, Frame.init, WT_ENOMEM,
        store_repl_data, store_exp_fields, hr, he, hfa] at h <;>
      obtain ⟨rfl, _⟩ := h <;>
      constructor <;> simp_all [Function.update]
  · rcases orr with _ | r <;>
      intro f x h <;>
      simp [calloc_repl, Frame.init, WT_ENOMEM, store_repl_data, hr] at h <;>
      obtain ⟨rfl, _⟩ := h <;>
      constructor <;> simp_all [Function.update]

set_option maxHeartbeats 2000000 in
/-- The trace of the allocation phase lists exactly the allocations made: the
candidates held in the locals, and the failure when there was one. -/
theorem col_del_alloc_trace (idb : IDB) (toc : WT_TOC) (al : Calloc) (m : Mem) (f : Frame)
    (x : Except Int Submission) (hfresh : al.Fresh idb m)
    (h : col_del_alloc idb toc al m = some (f, x)) :
    (∀ ev ∈ f.trace, ev.isCalloc = true) ∧
      (Event.calloc_fail ∈ f.trace ↔ ∃ ret, x = .error ret) ∧
      (∀ p, Event.calloc_exp p ∈ f.trace ↔ (p = f.exp ∧ p ≠ 0)) ∧
      (∀ p, Event.calloc_repl p ∈ f.trace ↔ (p = f.repl ∧ p ≠ 0)) ∧
      (∀ p, Event.calloc_new_expcol p ∈ f.trace ↔ (p = f.new_expcol ∧ p ≠ 0)) ∧
      (∀ p, Event.calloc_new_repl p ∈ f.trace ↔ (p = f.new_repl ∧ p ≠ 0)) := by
  obtain ⟨oa, oe, orr⟩ := al
  obtain ⟨hfr, hfe, hfa⟩ := hfresh
  simp only [FreshIn] at hfr hfe hfa
  have hr : ∀ r, orr = some r → r ≠ 0 ∧ m.repls r = none := hfr
  have he : ∀ e, oe = some e → e ≠ 0 ∧ m.exps e = none := hfe
  clear hfr hfe
  revert f x
  unfold col_del_alloc
  cases hpath : col_del_path idb toc <;> simp only [hpath]
  · have hcomp := (col_del_path_one idb toc).1 hpath
    simp only [hcomp, if_true] at hfa
    by_cases h0 : m.page.repl = 0 <;> rcases oa with _ | a <;> rcases orr with _ | r <;>
      intro f x h <;>
      simp [h0, calloc_new_repl, calloc_repl, Frame.init, WT_ENOMEM, store_repl_data,
        hr, hfa] at h <;>
      obtain ⟨rfl, rfl⟩ := h <;>
      simp_all [Event.isCalloc]
  · have hcomp := (col_del_path_two idb toc).1 hpath
    simp [hcomp.1] at hfa
    by_cases h0 : m.page.expcol = 0 <;> rcases oa with _ | a <;> rcases oe with _ | e <;>
        rcases orr with _ | r <;>
      intro f x h <;>
      simp [h0, calloc_new_expcol, calloc_exp, calloc_repl, Frame.init, WT_ENOMEM,
        store_repl_data, store_exp_fields, hr, he, hfa] at h <;>
      obtain ⟨rfl, rfl⟩ := h <;>
      simp_all [Event.isCalloc]
  · rcases orr with _ | r <;>
      intro f x h <;>
      simp [calloc_repl, Frame.init, WT_ENOMEM, store_repl_data, hr] at h <;>
      obtain ⟨rfl, rfl⟩ := h <;>
      simp_all [Event.isCalloc]

/-! ## The `err` label and the unwinding of a failed call -/

theorem col_del_err_new_expcol (f : Frame) : (col_del_err f).new_expcol = f.new_expcol := by
  unfold col_del_err err_free_repl err_free_exp; split <;> split <;> rfl

theorem col_del_err_new_repl (f : Frame) : (col_del_err f).new_repl = f.new_repl := by
  unfold col_del_err err_free_repl err_free_exp; split <;> split <;> rfl

theorem col_del_err_page (f : Frame) : (col_del_err f).mem.page = f.mem.page := by
  unfold col_del_err err_free_repl err_free_exp; split <;> split <;> rfl

theorem col_del_err_expArr (f : Frame) : (col_del_err f).mem.expArr = f.mem.expArr := by
  unfold col_del_err err_free_repl err_free_exp; split <;> split <;> rfl

theorem col_del_err_replArr (f : Frame) : (col_del_err f).mem.replArr = f.mem.replArr := by
  unfold col_del_err err_free_repl err_free_exp; split <;> split <;> rfl

theorem col_del_err_exps (f : Frame) :
    (col_del_err f).mem.exps =
      if f.exp ≠ 0 then Function.update f.mem.exps f.exp none else f.mem.exps := by
  unfold col_del_err err_free_repl err_free_exp; split <;> split <;> simp_all

theorem col_del_err_repls (f : Frame) :
    (col_del_err f).mem.repls =
      if f.repl ≠ 0 then Function.update f.mem.repls f.repl none else f.mem.repls := by
  unfold col_del_err err_free_repl err_free_exp; split <;> split <;> simp_all

theorem col_del_err_trace (f : Frame) :
    (col_del_err f).trace =
      f.trace ++ (if f.exp ≠ 0 then [Event.free_exp f.exp] else []) ++
        (if f.repl ≠ 0 then [Event.free_repl f.repl] else []) := by
  unfold col_del_err err_free_repl err_free_exp; split <;> split <;> simp_all

theorem col_del_done_page (idb : IDB) (toc : WT_TOC) (ret : Int) (f : Frame) :
    (col_del_done idb toc ret f).mem.page = f.mem.page := by
  simp only [col_del_done, done_page_out_mem]
  unfold done_free_repl done_free_expcol
  split <;> split <;> rfl

theorem col_del_done_repls (idb : IDB) (toc : WT_TOC) (ret : Int) (f : Frame) :
    (col_del_done idb toc ret f).mem.repls = f.mem.repls := by
  simp only [col_del_done, done_page_out_mem]
  unfold done_free_repl done_free_expcol
  split <;> split <;> rfl

theorem col_del_done_exps (idb : IDB) (toc : WT_TOC) (ret : Int) (f : Frame) :
    (col_del_done idb toc ret f).mem.exps = f.mem.exps := by
  simp only [col_del_done, done_page_out_mem]
  unfold done_free_repl done_free_expcol
  split <;> split <;> rfl

theorem col_del_done_expArr (idb : IDB) (toc : WT_TOC) (ret : Int) (f : Frame) :
    (col_del_done idb toc ret f).mem.expArr =
      if f.new_expcol ≠ 0 ∧ f.new_expcol ≠ f.mem.page.expcol then
        Function.update f.mem.expArr f.new_expcol none
      else f.mem.expArr := by
  simp only [col_del_done, done_page_out_mem]
  unfold done_free_repl done_free_expcol
  split <;> split <;> simp_all

theorem col_del_done_replArr (idb : IDB) (toc : WT_TOC) (ret : Int) (f : Frame) :
    (col_del_done idb toc ret f).mem.replArr =
      if f.new_repl ≠ 0 ∧ f.new_repl ≠ f.mem.page.repl then
        Function.update f.mem.replArr f.new_repl none
      else f.mem.replArr := by
  by_cases h1 : f.new_expcol ≠ 0 ∧ f.new_expcol ≠ f.mem.page.expcol <;>
    by_cases h2 : f.new_repl ≠ 0 ∧ f.new_repl ≠ f.mem.page.repl <;>
    simp [col_del_done, done_page_out_mem, done_free_repl, done_free_expcol, h1, h2]

theorem col_del_done_trace (idb : IDB) (toc : WT_TOC) (ret : Int) (f : Frame) :
    (col_del_done idb toc ret f).trace =
      f.trace ++
        (if f.new_expcol ≠ 0 ∧ f.new_expcol ≠ f.mem.page.expcol then
          [Event.free_expcol f.new_expcol] else []) ++
        (if f.new_repl ≠ 0 ∧ f.new_repl ≠ f.mem.page.repl then
          [Event.free_replarr f.new_repl] else []) ++
        (if toc.srch_page ≠ 0 ∧ toc.srch_page ≠ idb.root_page then
          [Event.page_out toc.srch_page (if ret = 0 then WT_MODIFIED else 0)] else []) := by
  by_cases h1 : f.new_expcol ≠ 0 ∧ f.new_expcol ≠ f.mem.page.expcol <;>
    by_cases h2 : f.new_repl ≠ 0 ∧ f.new_repl ≠ f.mem.page.repl <;>
    by_cases h3 : toc.srch_page ≠ 0 ∧ toc.srch_page ≠ idb.root_page <;>
    simp [col_del_done, done_page_out, done_free_repl, done_free_expcol, h1, h2, h3]

theorem mem_ite_singleton {α : Type} (c : Prop) [Decidable c] (ev a : α) :
    ev ∈ (if c then [a] else []) ↔ c ∧ ev = a := by
  by_cases h : c <;> simp [h]

/-- The trace of a call that reached `done` through `err`. -/
theorem unwind_trace_mem (idb : IDB) (toc : WT_TOC) (ret : Int) (f : Frame) (ev : Event) :
    ev ∈ (col_del_done idb toc ret (col_del_err f)).trace ↔
      ev ∈ f.trace ∨ (f.exp ≠ 0 ∧ ev = Event.free_exp f.exp) ∨
        (f.repl ≠ 0 ∧ ev = Event.free_repl f.repl) ∨
        ((f.new_expcol ≠ 0 ∧ f.new_expcol ≠ f.mem.page.expcol) ∧
          ev = Event.free_expcol f.new_expcol) ∨
        ((f.new_repl ≠ 0 ∧ f.new_repl ≠ f.mem.page.repl) ∧
          ev = Event.free_replarr f.new_repl) ∨
        ((toc.srch_page ≠ 0 ∧ toc.srch_page ≠ idb.root_page) ∧
          ev = Event.page_out toc.srch_page (if ret = 0 then WT_MODIFIED else 0)) := by
  rw [col_del_done_trace, col_del_err_trace, col_del_err_new_expcol, col_del_err_new_repl,
    col_del_err_page]
  simp only [List.mem_append, mem_ite_singleton, or_assoc]

/-- The trace of a call that reached `done` after its submission. -/
theorem done_trace_mem (idb : IDB) (toc : WT_TOC) (ret : Int) (f : Frame) (ev : Event) :
    ev ∈ (col_del_done idb toc ret f).trace ↔
      ev ∈ f.trace ∨
        ((f.new_expcol ≠ 0 ∧ f.new_expcol ≠ f.mem.page.expcol) ∧
          ev = Event.free_expcol f.new_expcol) ∨
        ((f.new_repl ≠ 0 ∧ f.new_repl ≠ f.mem.page.repl) ∧
          ev = Event.free_replarr f.new_repl) ∨
        ((toc.srch_page ≠ 0 ∧ toc.srch_page ≠ idb.root_page) ∧
          ev = Event.page_out toc.srch_page (if ret = 0 then WT_MODIFIED else 0)) := by
  rw [col_del_done_trace]
  simp only [List.mem_append, mem_ite_singleton, or_assoc]

/-- A pointwise description of a map that was changed at one fresh address. -/
theorem update_none_of_holds {α : Type} (heap heap2 : Ptr → Option α) (q : Ptr)
    (h : ∀ p, (p ≠ q ∨ q = 0) → heap2 p = heap p) (hq : q ≠ 0 → heap q = none) :
    (if q ≠ 0 then Function.update heap2 q none else heap2) = heap := by
  funext p
  by_cases hq0 : q = 0
  · simp [hq0]
    exact h p (Or.inr hq0)
  · simp only [ne_eq, hq0, not_false_eq_true, if_true]
    by_cases hp : p = q
    · subst hp; simp [hq hq0]
    · simp [Function.update, hp, h p (Or.inl hp)]

/-- After `err` and `done` the heap of a failed call is the heap it started
from. -/
theorem col_del_unwind_mem (idb : IDB) (toc : WT_TOC) (ret : Int) (f : Frame) (m : Mem)
    (h : f.Holds m) : (col_del_done idb toc ret (col_del_err f)).mem = m := by
  apply Mem.ext_fields
  · rw [col_del_done_page, col_del_err_page, h.page]
  · rw [col_del_done_repls, col_del_err_repls]
    exact update_none_of_holds _ _ _ h.repls h.repl_fresh
  · rw [col_del_done_exps, col_del_err_exps]
    exact update_none_of_holds _ _ _ h.exps h.exp_fresh
  · rw [col_del_done_replArr, col_del_err_new_repl, col_del_err_replArr, col_del_err_page,
      h.page]
    by_cases h0 : f.new_repl = 0
    · simp only [h0, ne_eq, not_true_eq_false, false_and, if_false]
      funext p
      exact h.replArr p (Or.inr h0)
    · have hf := h.new_repl_fresh h0
      have hne : f.new_repl ≠ m.page.repl := by rw [hf.2]; exact h0
      simp only [ne_eq, h0, not_false_eq_true, hne, and_self, if_true]
      have := update_none_of_holds m.replArr f.mem.replArr f.new_repl h.replArr
        (fun _ => hf.1)
      simpa [h0] using this
  · rw [col_del_done_expArr, col_del_err_new_expcol, col_del_err_expArr, col_del_err_page,
      h.page]
    by_cases h0 : f.new_expcol = 0
    · simp only [h0, ne_eq, not_true_eq_false, false_and, if_false]
      funext p
      exact h.expArr p (Or.inr h0)
    · have hf := h.expcol_fresh h0
      have hne : f.new_expcol ≠ m.page.expcol := by rw [hf.2]; exact h0
      simp only [ne_eq, h0, not_false_eq_true, hne, and_self, if_true]
      have := update_none_of_holds m.expArr f.mem.expArr f.new_expcol h.expArr
        (fun _ => hf.1)
      simpa [h0] using this

/-! ## Distinct offsets, array adoption and classification -/

/-- The only list that starts at `NULL` is the empty one. -/
theorem chain_null {α : Type} (next : α → Ptr) (heap : Ptr → Option α) (l : List Ptr)
    (h : chain next heap 0 l = true) : l = [] := by
  cases l with
  | nil => rfl
  | cons a l =>
    rw [chain_cons] at h
    exact absurd h.1.symm h.2.1

theorem rccOffset_of (m : Mem) (p : Ptr) (c : WT_COL_EXPAND) (h : m.exps p = some c) :
    m.rccOffset p = c.rcc_offset := by
  simp [Mem.rccOffset, h]

/-- In the example with the stale candidates every published list has distinct
offsets: run 3 holds the single cell 20, the other runs are empty. -/
theorem exMemStale_distinct : exMemStale.DistinctOffsets := by
  intro slot L hL
  have hx : exMemStale.expHead slot = 0 ∨ exMemStale.expHead slot = 20 := by
    rcases slot with _ | _ | _ | _ | slot <;> simp [Mem.expHead, Mem.expcolAt, exMemStale]
  rcases hx with h | h
  · rw [h] at hL
    have := chain_null _ _ _ hL
    subst this
    simp
  · rw [h] at hL
    have h2 : expChain exMemStale.exps 20 [20] = true := by decide
    have := chain_unique _ _ _ _ _ hL h2
    subst this
    simp

/-- The same for the example with the candidates of record 107. -/
theorem exMemOther_distinct : exMemOther.DistinctOffsets := by
  intro slot L hL
  have hx : exMemOther.expHead slot = 0 ∨ exMemOther.expHead slot = 20 := by
    rcases slot with _ | _ | _ | _ | slot <;> simp [Mem.expHead, Mem.expcolAt, exMemOther]
  rcases hx with h | h
  · rw [h] at hL
    have := chain_null _ _ _ hL
    subst this
    simp
  · rw [h] at hL
    have h2 : expChain exMemOther.exps 20 [20] = true := by decide
    have := chain_unique _ _ _ _ _ hL h2
    subst this
    simp

/-- A defined run of the install-expansion server function leaves the array
pointer of the adoption step in place, and that pointer is not `NULL`. -/
theorem rcc_expand_func_expcol (m : Mem) (slot : Nat) (new_exp exp : Ptr) (ret : Int)
    (M : Mem) (h : __wt_bt_rcc_expand_serial_func m slot new_exp exp = some (ret, M)) :
    ret = 0 ∧ M.page.expcol = (rcc_expand_adopt m new_exp).page.expcol ∧ M.page.expcol ≠ 0 := by
  unfold __wt_bt_rcc_expand_serial_func at h
  cases h1 : rcc_expand_link (rcc_expand_adopt m new_exp) slot exp with
  | none => simp [h1] at h
  | some m1 =>
    cases h2 : rcc_expand_publish m1 slot exp with
    | none => simp [h1, h2] at h
    | some m2 =>
      simp only [h1, h2, Option.some.injEq, Prod.mk.injEq] at h
      obtain ⟨hr, hM⟩ := h
      have e1 : m1.page = (rcc_expand_adopt m new_exp).page := by
        unfold rcc_expand_link at h1
        split at h1
        · cases h1
        · split at h1
          · cases h1
          · split at h1
            · cases h1
            · cases h1; rfl
      have e2 : m2.page = m1.page ∧ m1.page.expcol ≠ 0 := by
        unfold rcc_expand_publish at h2
        split at h2
        · cases h2
        · rename_i hne
          split at h2
          · cases h2
          · split at h2
            · cases h2; exact ⟨rfl, hne⟩
            · cases h2
      subst hM
      refine ⟨hr.symm, ?_, ?_⟩
      · simp [e2.1, e1]
      · simpa [e2.1] using e2.2

theorem rcc_expand_seq_expcol :
    ∀ (cs : List (Nat × Ptr × Ptr)) (m M : Mem), rcc_expand_seq cs m = some M →
      m.page.expcol ≠ 0 → M.page.expcol = m.page.expcol := by
  intro cs
  induction cs with
  | nil =>
    intro m M h _
    simp [rcc_expand_seq] at h
    rw [h]
  | cons c cs ih =>
    intro m M h hm
    obtain ⟨slot, new_exp, exp⟩ := c
    unfold rcc_expand_seq at h
    cases h1 : __wt_bt_rcc_expand_serial_func m slot new_exp exp with
    | none => simp [h1] at h
    | some r =>
      obtain ⟨ret, m1⟩ := r
      simp only [h1] at h
      obtain ⟨_, he, hne⟩ := rcc_expand_func_expcol m slot new_exp exp ret m1 h1
      rw [rcc_expand_adopt_present m new_exp hm] at he
      rw [ih m1 M h hne, he]

/-- The submission that ends the allocation phase is the one of the path
taken, made of the candidates held in the locals. -/
theorem col_del_alloc_sub (idb : IDB) (toc : WT_TOC) (al : Calloc) (m : Mem) (f : Frame)
    (sub : Submission) (h : col_del_alloc idb toc al m = some (f, .ok sub)) :
    match col_del_path idb toc with
    | Path.one => sub = .update toc.srch_slot f.new_repl f.repl
    | Path.two => sub = .rcc_expand toc.srch_slot f.new_expcol f.exp
    | Path.three => sub = .rcc_expand_repl toc.srch_exp f.repl := by
  unfold col_del_alloc at h
  cases hpath : col_del_path idb toc <;> simp only [hpath] at h ⊢
  all_goals
    repeat' split at h
  all_goals first | (cases h; rfl) | cases h


theorem calloc_repl_trace (o : Option Ptr) (f : Frame)
    (h : ∀ ev ∈ f.trace, ev.isCalloc = true) :
    ∀ ev ∈ (calloc_repl o f).2.trace, ev.isCalloc = true := by
  intro ev hev
  cases o <;> simp [calloc_repl] at hev <;> rcases hev with hev | hev <;>
    first | exact h ev hev | (subst hev; rfl)

theorem calloc_exp_trace (o : Option Ptr) (f : Frame)
    (h : ∀ ev ∈ f.trace, ev.isCalloc = true) :
    ∀ ev ∈ (calloc_exp o f).2.trace, ev.isCalloc = true := by
  intro ev hev
  cases o <;> simp [calloc_exp] at hev <;> rcases hev with hev | hev <;>
    first | exact h ev hev | (subst hev; rfl)

theorem calloc_new_expcol_trace (o : Option Ptr) (f : Frame)
    (h : ∀ ev ∈ f.trace, ev.isCalloc = true) :
    ∀ ev ∈ (calloc_new_expcol o f).2.trace, ev.isCalloc = true := by
  intro ev hev
  cases o <;> simp [calloc_new_expcol] at hev <;> rcases hev with hev | hev <;>
    first | exact h ev hev | (subst hev; rfl)

theorem calloc_new_repl_trace (o : Option Ptr) (f : Frame)
    (h : ∀ ev ∈ f.trace, ev.isCalloc = true) :
    ∀ ev ∈ (calloc_new_repl o f).2.trace, ev.isCalloc = true := by
  intro ev hev
  cases o <;> simp [calloc_new_repl] at hev <;> rcases hev with hev | hev <;>
    first | exact h ev hev | (subst hev; rfl)

/-- The allocation phase records nothing but allocations. -/
theorem col_del_alloc_only_callocs (idb : IDB) (toc : WT_TOC) (al : Calloc) (m : Mem)
    (f : Frame) (x : Except Int Submission)
    (h : col_del_alloc idb toc al m = some (f, x)) :
    ∀ ev ∈ f.trace, ev.isCalloc = true := by
  have h0 : ∀ ev, ev ∈ (Frame.init m).trace → ev.isCalloc = true := by
    intro ev hev; simp [Frame.init] at hev
  unfold col_del_alloc at h
  cases hpath : col_del_path idb toc <;> simp only [hpath] at h
  all_goals
    repeat' split at h
  all_goals
    first
      | (cases h; done)
      | (cases h
         try dsimp only
         repeat
           first
             | exact h0
             | apply calloc_repl_trace
             | apply calloc_exp_trace
             | apply calloc_new_expcol_trace
             | apply calloc_new_repl_trace)

/-- A defined run of the install-expansion server function dereferenced an
allocated array inside its bounds and an allocated candidate. -/
theorem rcc_expand_func_inv (m : Mem) (slot : Nat) (new_exp exp : Ptr) (ret : Int) (M : Mem)
    (h : __wt_bt_rcc_expand_serial_func m slot new_exp exp = some (ret, M)) :
    ∃ arr c, (rcc_expand_adopt m new_exp).page.expcol ≠ 0 ∧
      m.expArr (rcc_expand_adopt m new_exp).page.expcol = some arr ∧
      slot < arr.length ∧ exp ≠ 0 ∧ m.exps exp = some c := by
  unfold __wt_bt_rcc_expand_serial_func at h
  cases h1 : rcc_expand_link (rcc_expand_adopt m new_exp) slot exp with
  | none => simp [h1] at h
  | some m1 =>
    unfold rcc_expand_link Mem.expcolAt at h1
    by_cases hp : (rcc_expand_adopt m new_exp).page.expcol = 0
    · simp [hp] at h1
    · cases ha : m.expArr (rcc_expand_adopt m new_exp).page.expcol with
      | none => simp [hp, ha] at h1
      | some arr =>
        by_cases hs : slot < arr.length
        · by_cases he : exp = 0
          · simp [hp, ha, he] at h1
            split at h1 <;> simp at h1
          · cases hc : m.exps exp with
            | none =>
              simp [hp, ha, he, hc] at h1
              split at h1 <;> simp at h1
            | some c => exact ⟨arr, c, hp, rfl, hs, he, rfl⟩
        · have : arr[slot]? = none := by
            rw [List.getElem?_eq_none_iff]
            omega
          simp [hp, ha, this] at h1

/-- A defined run of the append-replacement server function dereferenced an
allocated entry and an allocated candidate. -/
theorem rcc_expand_repl_func_inv (m : Mem) (exp repl : Ptr) (ret : Int) (M : Mem)
    (h : __wt_bt_rcc_expand_repl_serial_func m exp repl = some (ret, M)) :
    ∃ c r, exp ≠ 0 ∧ m.exps exp = some c ∧ repl ≠ 0 ∧ m.repls repl = some r := by
  unfold __wt_bt_rcc_expand_repl_serial_func at h
  cases h1 : rcc_expand_repl_link m exp repl with
  | none => simp [h1] at h
  | some m1 =>
    unfold rcc_expand_repl_link at h1
    by_cases he : exp = 0
    · simp [he] at h1
    · cases hc : m.exps exp with
      | none => simp [he, hc] at h1
      | some c =>
        by_cases hr : repl = 0
        · simp [he, hc, hr] at h1
        · cases hrr : m.repls repl with
          | none => simp [he, hc, hr, hrr] at h1
          | some r => exact ⟨c, r, he, rfl, hr, rfl⟩

/-- A defined run of the install-replacement server function, in closed form. -/
theorem update_func_inv (m : Mem) (slot : Nat) (new_repl repl : Ptr) (ret : Int) (M : Mem)
    (h : __wt_bt_update_serial_func m slot new_repl repl = some (ret, M)) :
    ∃ arr, ret = 0 ∧
      (if m.page.repl = 0 then new_repl else m.page.repl) ≠ 0 ∧
      m.replArr (if m.page.repl = 0 then new_repl else m.page.repl) = some arr ∧
      slot < arr.length ∧
      M.page.repl = (if m.page.repl = 0 then new_repl else m.page.repl) ∧
      M.page.expcol = m.page.expcol ∧
      M.repls = m.repls ∧ M.exps = m.exps ∧ M.expArr = m.expArr ∧
      M.replArr = Function.update m.replArr (if m.page.repl = 0 then new_repl else m.page.repl)
        (some (arr.set slot repl)) := by
  unfold __wt_bt_update_serial_func at h
  by_cases h0 : m.page.repl = 0
  · simp only [h0, if_true] at h ⊢
    by_cases hn : new_repl = 0
    · simp [hn] at h
    · cases ha : m.replArr new_repl with
      | none => simp [hn, ha] at h
      | some arr =>
        by_cases hs : slot < arr.length
        · simp [hn, ha, hs] at h
          obtain ⟨rfl, rfl⟩ := h
          exact ⟨arr, rfl, hn, rfl, hs, rfl, rfl, rfl, rfl, rfl, rfl⟩
        · simp [hn, ha, hs] at h
  · simp only [h0, if_false] at h ⊢
    cases ha : m.replArr m.page.repl with
    | none => simp [ha] at h
    | some arr =>
      by_cases hs : slot < arr.length
      · simp [ha, hs] at h
        obtain ⟨rfl, rfl⟩ := h
        exact ⟨arr, rfl, h0, rfl, hs, rfl, rfl, rfl, rfl, rfl, rfl⟩
      · simp [ha, hs] at h

/-! ## Ownership of the candidates -/

theorem update_eq_none_iff {α : Type} (heap : Ptr → Option α) (q p : Ptr) (v : α)
    (hq : heap q ≠ none) : Function.update heap q (some v) p = none ↔ heap p = none := by
  by_cases h : p = q
  · subst h; simp [hq]
  · simp [Function.update, h]

/-- What a defined run of a server function does to the heap: it allocates and
frees nothing, it returns `0`, it changes an array pointer of the page only
from `NULL` to the candidate array of its submission, and it publishes the
candidate node of its submission. -/
theorem serialize_facts (m : Mem) (sub : Submission) (ret : Int) (M : Mem)
    (h : serialize m sub = some (ret, M)) :
    ret = 0 ∧
      (∀ p, M.repls p = none ↔ m.repls p = none) ∧
      (∀ p, M.exps p = none ↔ m.exps p = none) ∧
      (∀ p, M.expArr p = none ↔ m.expArr p = none) ∧
      (∀ p, M.replArr p = none ↔ m.replArr p = none) ∧
      (match sub with
       | .update slot a r =>
         M.page.expcol = m.page.expcol ∧
           M.page.repl = (if m.page.repl = 0 then a else m.page.repl) ∧
           M.replAt slot = some r
       | .rcc_expand slot a e =>
         M.page.repl = m.page.repl ∧
           M.page.expcol = (if m.page.expcol = 0 then a else m.page.expcol) ∧
           M.expHead slot = e ∧
           ∀ c, m.exps e = some c → ∃ c2, M.exps e = some c2 ∧ c2.repl = c.repl
       | .rcc_expand_repl e r =>
         M.page.repl = m.page.repl ∧ M.page.expcol = m.page.expcol ∧
           ∃ c, M.exps e = some c ∧ c.repl = r) := by
  cases sub with
  | update slot a r =>
    obtain ⟨arr, hret, hp, harr, hs, h1, h2, h3, h4, h5, h6⟩ :=
      update_func_inv m slot a r ret M h
    refine ⟨hret, ?_, ?_, ?_, ?_, h2, h1, ?_⟩
    · intro p; rw [h3]
    · intro p; rw [h4]
    · intro p; rw [h5]
    · intro p; rw [h6]; exact update_eq_none_iff _ _ _ _ (by simp [harr])
    · simp [Mem.replAt, h1, hp, h6, hs]
  | rcc_expand slot a e =>
    obtain ⟨arr, c, hp, harr, hs, he0, hc⟩ := rcc_expand_func_inv m slot a e ret M h
    have heq := rcc_expand_func_eq m slot a e arr c hp harr hs he0 hc
    simp only [serialize] at h
    rw [heq] at h
    simp only [Option.some.injEq, Prod.mk.injEq] at h
    obtain ⟨hret, hM⟩ := h
    subst hM
    have hadopt : (rcc_expand_adopt m a).page.expcol
        = if m.page.expcol = 0 then a else m.page.expcol := by
      unfold rcc_expand_adopt; split <;> simp_all
    refine ⟨hret.symm, ?_, ?_, ?_, ?_, ?_, ?_, ?_, ?_⟩
    · intro p; simp
    · intro p; simp; exact update_eq_none_iff _ _ _ _ (by simp [hc])
    · intro p; simp; exact update_eq_none_iff _ _ _ _ (by simp [harr])
    · intro p; simp
    · simp
    · simp [hadopt]
    · rw [expHead_present _ slot (arr.set slot e) (by simpa using hp) (by simp)]
      simp [List.getD_eq_getElem?_getD, hs]
    · intro c2 hc2
      rw [hc] at hc2
      cases hc2
      exact ⟨{ c with next := arr.getD slot 0 }, by simp, rfl⟩
  | rcc_expand_repl e r =>
    obtain ⟨c, rr, he0, hc, hr0, hr⟩ := rcc_expand_repl_func_inv m e r ret M h
    have heq := rcc_expand_repl_func_eq m e r c rr he0 hc hr0 hr
    simp only [serialize] at h
    rw [heq] at h
    simp only [Option.some.injEq, Prod.mk.injEq] at h
    obtain ⟨hret, hM⟩ := h
    subst hM
    refine ⟨hret.symm, ?_, ?_, ?_, ?_, rfl, rfl, ?_⟩
    · intro p; simp; exact update_eq_none_iff _ _ _ _ (by simp [hr])
    · intro p; simp; exact update_eq_none_iff _ _ _ _ (by simp [hc])
    · intro p; simp
    · intro p; simp
    · exact ⟨{ c with repl := r }, by simp, rfl⟩

set_option maxHeartbeats 2000000 in
/-- The candidates held in the locals after the allocation phase are allocated;
when the phase ends in a submission, the locals are those of the path taken. -/
theorem col_del_alloc_locals (idb : IDB) (toc : WT_TOC) (al : Calloc) (m : Mem) (f : Frame)
    (x : Except Int Submission) (hfresh : al.Fresh idb m)
    (h : col_del_alloc idb toc al m = some (f, x)) :
    (f.exp ≠ 0 → f.mem.exps f.exp ≠ none) ∧
      (f.repl ≠ 0 → f.mem.repls f.repl ≠ none) ∧
      (f.new_expcol ≠ 0 → f.mem.expArr f.new_expcol ≠ none) ∧
      (f.new_repl ≠ 0 → f.mem.replArr f.new_repl ≠ none) ∧
      ∀ sub, x = .ok sub → f.repl ≠ 0 ∧
        match col_del_path idb toc with
        | Path.one => f.exp = 0 ∧ f.new_expcol = 0
        | Path.two => f.new_repl = 0 ∧ f.exp ≠ 0 ∧
            ∃ c, f.mem.exps f.exp = some c ∧ c.repl = f.repl
        | Path.three => f.exp = 0 ∧ f.new_expcol = 0 ∧ f.new_repl = 0 := by
  obtain ⟨oa, oe, orr⟩ := al
  obtain ⟨hfr, hfe, hfa⟩ := hfresh
  simp only [FreshIn] at hfr hfe hfa
  have hr : ∀ r, orr = some r → r ≠ 0 ∧ m.repls r = none := hfr
  have he : ∀ e, oe = some e → e ≠ 0 ∧ m.exps e = none := hfe
  clear hfr hfe
  revert f x
  unfold col_del_alloc
  cases hpath : col_del_path idb toc <;> simp only [hpath]
  · have hcomp := (col_del_path_one idb toc).1 hpath
    simp only [hcomp, if_true] at hfa
    by_cases h0 : m.page.repl = 0 <;> rcases oa with _ | a <;> rcases orr with _ | r <;>
      intro f x h <;>
      simp [h0, calloc_new_repl, calloc_repl, Frame.init, WT_ENOMEM, store_repl_data,
        hr, hfa] at h <;>
      obtain ⟨rfl, rfl⟩ := h <;>
      simp_all
  · have hcomp := (col_del_path_two idb toc).1 hpath
    simp [hcomp.1] at hfa
    by_cases h0 : m.page.expcol = 0 <;> rcases oa with _ | a <;> rcases oe with _ | e <;>
        rcases orr with _ | r <;>
      intro f x h <;>
      simp [h0, calloc_new_expcol, calloc_exp, calloc_repl, Frame.init, WT_ENOMEM,
        store_repl_data, store_exp_fields, hr, he, hfa] at h <;>
      obtain ⟨rfl, rfl⟩ := h <;>
      simp_all
  · rcases orr with _ | r <;>
      intro f x h <;>
      simp [calloc_repl, Frame.init, WT_ENOMEM, store_repl_data, hr] at h <;>
      obtain ⟨rfl, rfl⟩ := h <;>
      simp_all

/-- Ownership after a call that failed to allocate. -/
theorem ownership_err (idb : IDB) (toc : WT_TOC) (al : Calloc) (m : Mem) (f : Frame)
    (ret : Int) (hfresh : al.Fresh idb m)
    (h : col_del_alloc idb toc al m = some (f, .error ret)) :
    Ownership m toc (col_del_done idb toc ret (col_del_err f)) := by
  have hH := col_del_alloc_holds idb toc al m f _ hfresh h
  obtain ⟨hcal, _, hte, htr, hta, htb⟩ := col_del_alloc_trace idb toc al m f _ hfresh h
  have hmem := col_del_unwind_mem idb toc ret f m hH
  have hnc : ∀ ev : Event, ev.isCalloc = false → ev ∉ f.trace := by
    intro ev hev hmem
    rw [hcal ev hmem] at hev
    cases hev
  have hpage : f.mem.page = m.page := hH.page
  have hn1 := fun p => hnc (Event.free_exp p) rfl
  have hn2 := fun p => hnc (Event.free_repl p) rfl
  have hn3 := fun p => hnc (Event.free_expcol p) rfl
  have hn4 := fun p => hnc (Event.free_replarr p) rfl
  constructor
  all_goals simp only [hmem, unwind_trace_mem]
  all_goals simp [hn1, hn2, hn3, hn4, hte, htr, hta, htb, hpage]
  all_goals
    have hf1 := hH.expcol_fresh
    have hf2 := hH.new_repl_fresh
    have hf3 := hH.exp_fresh
    have hf4 := hH.repl_fresh
    intros
    subst_vars
    simp_all

/-- The `done` label frees at most array candidates that the page does not use, so the
page's expansion slots read the same. -/
theorem col_del_done_expHead (idb : IDB) (toc : WT_TOC) (ret : Int) (f : Frame) (slot : Nat) :
    (col_del_done idb toc ret f).mem.expHead slot = f.mem.expHead slot := by
  unfold Mem.expHead Mem.expcolAt
  rw [col_del_done_page, col_del_done_expArr]
  by_cases h0 : f.mem.page.expcol = 0
  · simp [h0]
  · by_cases hc : f.new_expcol ≠ 0 ∧ f.new_expcol ≠ f.mem.page.expcol
    · have hne : f.mem.page.expcol ≠ f.new_expcol := fun h => hc.2 h.symm
      simp [h0, hc, Function.update, hne]
    · simp only [hc, if_false]

/-- The same for the page's replacement slots. -/
theorem col_del_done_replAt (idb : IDB) (toc : WT_TOC) (ret : Int) (f : Frame) (slot : Nat) :
    (col_del_done idb toc ret f).mem.replAt slot = f.mem.replAt slot := by
  unfold Mem.replAt
  rw [col_del_done_page, col_del_done_replArr]
  by_cases h0 : f.mem.page.repl = 0
  · simp [h0]
  · by_cases hc : f.new_repl ≠ 0 ∧ f.new_repl ≠ f.mem.page.repl
    · have hne : f.mem.page.repl ≠ f.new_repl := fun h => hc.2 h.symm
      simp [h0, hc, Function.update, hne]
    · simp only [hc, if_false]

/-- A block that was allocated before the allocation phase is not one of the
phase's candidates and is still allocated in the frame. -/
theorem holds_old {α : Type} (heap heap2 : Ptr → Option α) (q p : Ptr)
    (h : ∀ p, (p ≠ q ∨ q = 0) → heap2 p = heap p) (hq : q ≠ 0 → heap q = none)
    (hp : heap p ≠ none) : heap2 p ≠ none ∧ (q ≠ 0 → p ≠ q) := by
  by_cases hq0 : q = 0
  · exact ⟨by rw [h p (Or.inr hq0)]; exact hp, fun h => absurd hq0 h⟩
  · have hne : p ≠ q := by
      rintro rfl
      exact hp (hq hq0)
    exact ⟨by rw [h p (Or.inl hne)]; exact hp, fun _ => hne⟩

/-- Ownership after a call that made its submission. -/
theorem ownership_ok (idb : IDB) (toc : WT_TOC) (al : Calloc) (m : Mem) (f : Frame)
    (sub : Submission) (ret : Int) (m1 : Mem) (hfresh : al.Fresh idb m)
    (h : col_del_alloc idb toc al m = some (f, .ok sub))
    (hser : serialize f.mem sub = some (ret, m1)) :
    Ownership m toc
      (col_del_done idb toc ret { f with mem := m1, trace := f.trace ++ [sub.event] }) := by
  have hH := col_del_alloc_holds idb toc al m f _ hfresh h
  obtain ⟨hcal, hfl, hte, htr, hta, htb⟩ := col_del_alloc_trace idb toc al m f _ hfresh h
  obtain ⟨ha1, ha2, ha3, ha4, hlocAll⟩ := col_del_alloc_locals idb toc al m f _ hfresh h
  obtain ⟨hr0, hloc⟩ := hlocAll sub rfl
  clear hlocAll
  have hshape := col_del_alloc_sub idb toc al m f sub h
  obtain ⟨_, hd1, hd2, hd3, hd4, hpub⟩ := serialize_facts f.mem sub ret m1 hser
  have hnc : ∀ ev : Event, ev.isCalloc = false → ev ∉ f.trace := by
    intro ev hev hmem
    rw [hcal ev hmem] at hev
    cases hev
  have hn1 := fun p => hnc (Event.free_exp p) rfl
  have hn2 := fun p => hnc (Event.free_repl p) rfl
  have hn3 := fun p => hnc (Event.free_expcol p) rfl
  have hn4 := fun p => hnc (Event.free_replarr p) rfl
  have hnf : Event.calloc_fail ∉ f.trace := by
    intro hmem
    obtain ⟨r, hr⟩ := hfl.1 hmem
    cases hr
  have hsev : sub.event.isSubmit = true := by cases sub <;> rfl
  have hs1 : ∀ p, Event.calloc_exp p ≠ sub.event := by
    intro p hp; rw [← hp] at hsev; cases hsev
  have hs2 : ∀ p, Event.calloc_repl p ≠ sub.event := by
    intro p hp; rw [← hp] at hsev; cases hsev
  have hs3 : ∀ p, Event.calloc_new_expcol p ≠ sub.event := by
    intro p hp; rw [← hp] at hsev; cases hsev
  have hs4 : ∀ p, Event.calloc_new_repl p ≠ sub.event := by
    intro p hp; rw [← hp] at hsev; cases hsev
  have hs5 : ∀ p, Event.free_exp p ≠ sub.event := by
    intro p hp; rw [← hp] at hsev; cases hsev
  have hs6 : ∀ p, Event.free_repl p ≠ sub.event := by
    intro p hp; rw [← hp] at hsev; cases hsev
  have hs7 : ∀ p, Event.free_expcol p ≠ sub.event := by
    intro p hp; rw [← hp] at hsev; cases hsev
  have hs8 : ∀ p, Event.free_replarr p ≠ sub.event := by
    intro p hp; rw [← hp] at hsev; cases hsev
  have hs9 : Event.calloc_fail ≠ sub.event := by
    intro hp; rw [← hp] at hsev; cases hsev
  constructor
  all_goals
    simp only [done_trace_mem, col_del_done_page, col_del_done_repls, col_del_done_exps,
      col_del_done_expArr, col_del_done_replArr, List.mem_append, List.mem_singleton]
  all_goals simp [hn1, hn2, hn3, hn4, hnf, hs1, hs2, hs3, hs4, hs5, hs6, hs7, hs8, hs9,
      hte, htr, hta, htb]
  case expcol_freed_iff => intro a _; exact a
  case expcol_freed =>
    intro p h1 h2 h3
    subst h3
    simp [h1, h2]
  case expcol_kept =>
    intro h1 h2
    have h3 : ¬(¬f.new_expcol = 0 ∧ ¬f.new_expcol = m1.page.expcol) := fun hc => hc.2 (h2 h1)
    simp only [h3, if_false]
    exact fun hn => ha3 h1 ((hd3 _).1 hn)
  case replarr_freed_iff => intro a _; exact a
  case replarr_freed =>
    intro p h1 h2 h3
    subst h3
    simp [h1, h2]
  case replarr_kept =>
    intro h1 h2
    have h3 : ¬(¬f.new_repl = 0 ∧ ¬f.new_repl = m1.page.repl) := fun hc => hc.2 (h2 h1)
    simp only [h3, if_false]
    exact fun hn => ha4 h1 ((hd4 _).1 hn)
  case exp_kept =>
    intro h1
    refine ⟨fun hn => ha1 h1 ((hd2 _).1 hn), ?_⟩
    rw [col_del_done_expHead]
    cases hpath : col_del_path idb toc <;> simp only [hpath] at hloc hshape
    · exact absurd hloc.1 h1
    · subst hshape
      exact hpub.2.2.1
    · exact absurd hloc.1 h1
  case repl_kept =>
    intro h1
    refine ⟨fun hn => ha2 h1 ((hd1 _).1 hn), ?_⟩
    unfold Mem.publishesRepl
    simp only [col_del_done_exps, col_del_done_replAt]
    cases hpath : col_del_path idb toc <;> simp only [hpath] at hloc hshape
    · subst hshape
      exact Or.inr ⟨toc.srch_slot, hpub.2.2⟩
    · subst hshape
      obtain ⟨c, hc, hcr⟩ := hloc.2.2
      obtain ⟨c2, hc2, hcr2⟩ := hpub.2.2.2 c hc
      exact Or.inl ⟨f.exp, c2, hc2, hcr2.trans hcr⟩
    · subst hshape
      obtain ⟨c, hc, hcr⟩ := hpub.2.2
      exact Or.inl ⟨toc.srch_exp, c, hc, hcr⟩
  case old_exps =>
    intro p hp hn
    exact (holds_old m.exps f.mem.exps f.exp p hH.exps hH.exp_fresh hp).1 ((hd2 _).1 hn)
  case old_repls =>
    intro p hp hn
    exact (holds_old m.repls f.mem.repls f.repl p hH.repls hH.repl_fresh hp).1 ((hd1 _).1 hn)
  case old_expArr =>
    intro p hp
    obtain ⟨h1, h2⟩ := holds_old m.expArr f.mem.expArr f.new_expcol p hH.expArr
      (fun h => (hH.expcol_fresh h).1) hp
    by_cases hc : ¬f.new_expcol = 0 ∧ ¬f.new_expcol = m1.page.expcol
    · rw [if_pos hc, Function.update_noteq (h2 hc.1)]
      exact fun hn => h1 ((hd3 _).1 hn)
    · simp only [hc, if_false]
      exact fun hn => h1 ((hd3 _).1 hn)
  case old_replArr =>
    intro p hp
    obtain ⟨h1, h2⟩ := holds_old m.replArr f.mem.replArr f.new_repl p hH.replArr
      (fun h => (hH.new_repl_fresh h).1) hp
    by_cases hc : ¬f.new_repl = 0 ∧ ¬f.new_repl = m1.page.repl
    · rw [if_pos hc, Function.update_noteq (h2 hc.1)]
      exact fun hn => h1 ((hd4 _).1 hn)
    · simp only [hc, if_false]
      exact fun hn => h1 ((hd4 _).1 hn)

/-- Ownership after any call of `__wt_db_col_del` that passed the search. -/
theorem col_del_ownership (idb : IDB) (search : Mem → Nat → Int × WT_TOC) (al : Calloc)
    (m : Mem) (recno : Nat) (toc : WT_TOC) (res : DelResult)
    (hsearch : search m recno = (0, toc)) (hfresh : al.Fresh idb m)
    (hrun : __wt_db_col_del idb search al m recno = some res) : Ownership m toc res := by
  simp only [__wt_db_col_del, hsearch] at hrun
  simp only [ne_eq, not_true_eq_false, if_false] at hrun
  split at hrun
  · cases hrun
  · split at hrun
    · cases hrun
    · rename_i f ret hal
      cases hrun
      exact ownership_err idb toc al m f ret hfresh hal
    · rename_i f sub hal
      split at hrun
      · cases hrun
      · rename_i ret m1 hser
        cases hrun
        exact ownership_ok idb toc al m f sub ret m1 hfresh hal hser

/-! ## The page release -/

theorem calloc_repl_fail (o : Option Ptr) (g : Frame) :
    Event.calloc_fail ∈ (calloc_repl o g).2.trace ↔
      (Event.calloc_fail ∈ g.trace ∨ (calloc_repl o g).1 ≠ 0) := by
  cases o <;> simp [calloc_repl, WT_ENOMEM]

theorem calloc_exp_fail (o : Option Ptr) (g : Frame) :
    Event.calloc_fail ∈ (calloc_exp o g).2.trace ↔
      (Event.calloc_fail ∈ g.trace ∨ (calloc_exp o g).1 ≠ 0) := by
  cases o <;> simp [calloc_exp, WT_ENOMEM]

theorem calloc_new_expcol_fail (o : Option Ptr) (g : Frame) :
    Event.calloc_fail ∈ (calloc_new_expcol o g).2.trace ↔
      (Event.calloc_fail ∈ g.trace ∨ (calloc_new_expcol o g).1 ≠ 0) := by
  cases o <;> simp [calloc_new_expcol, WT_ENOMEM]

theorem calloc_new_repl_fail (o : Option Ptr) (g : Frame) :
    Event.calloc_fail ∈ (calloc_new_repl o g).2.trace ↔
      (Event.calloc_fail ∈ g.trace ∨ (calloc_new_repl o g).1 ≠ 0) := by
  cases o <;> simp [calloc_new_repl, WT_ENOMEM]

/-- The allocation phase ends in `err` exactly when it recorded a failed
allocation, and then `ret` is the allocator's non-zero code. -/
theorem col_del_alloc_fail_iff (idb : IDB) (toc : WT_TOC) (al : Calloc) (m : Mem) (f : Frame)
    (x : Except Int Submission)
    (h : col_del_alloc idb toc al m = some (f, x)) :
    (Event.calloc_fail ∈ f.trace ↔ ∃ ret, x = .error ret) ∧
      ∀ ret, x = .error ret → ret ≠ 0 := by
  have h0 : Event.calloc_fail ∉ (Frame.init m).trace := by simp [Frame.init]
  unfold col_del_alloc at h
  cases hpath : col_del_path idb toc <;> simp only [hpath] at h
  all_goals
    repeat' split at h
  all_goals
    first
      | (cases h; done)
      | (cases h
         simp_all [calloc_repl_fail, calloc_exp_fail, calloc_new_expcol_fail,
           calloc_new_repl_fail])

/-- The trace of a call that passed the search: whatever happened before the
page release holds no page release, the release is the last entry and is made
unless the page is the root, and the recorded `ret` is `0` exactly when no
allocation failed. -/
theorem col_del_trace_shape (idb : IDB) (search : Mem → Nat → Int × WT_TOC) (al : Calloc)
    (m : Mem) (recno : Nat) (toc : WT_TOC) (res : DelResult)
    (hsearch : search m recno = (0, toc))
    (hrun : __wt_db_col_del idb search al m recno = some res) :
    toc.srch_page ≠ 0 ∧
      ∃ (pre : List Event) (ret : Int),
        res.trace = pre ++
          (if toc.srch_page ≠ idb.root_page then
            [Event.page_out toc.srch_page (if ret = 0 then WT_MODIFIED else 0)]
          else []) ∧
        (∀ ev ∈ pre, ev.isPageOut = false) ∧
        (ret = 0 ↔ Event.calloc_fail ∉ pre) := by
  simp only [__wt_db_col_del, hsearch] at hrun
  simp only [ne_eq, not_true_eq_false, if_false] at hrun
  split at hrun
  · cases hrun
  · rename_i hpage
    refine ⟨hpage, ?_⟩
    have hnp : ∀ f : Frame, (∀ e ∈ f.trace, e.isCalloc = true) →
        ∀ ev ∈ f.trace, ev.isPageOut = false := by
      intro f hf ev hev
      have := hf ev hev
      cases ev <;> simp_all [Event.isCalloc, Event.isPageOut]
    split at hrun
    · cases hrun
    · rename_i f ret hal
      cases hrun
      have hcal := col_del_alloc_only_callocs idb toc al m f _ hal
      obtain ⟨hfl, hret⟩ := col_del_alloc_fail_iff idb toc al m f _ hal
      refine ⟨f.trace ++ (if f.exp ≠ 0 then [Event.free_exp f.exp] else []) ++
          (if f.repl ≠ 0 then [Event.free_repl f.repl] else []) ++
          (if (col_del_err f).new_expcol ≠ 0 ∧
              (col_del_err f).new_expcol ≠ (col_del_err f).mem.page.expcol then
            [Event.free_expcol (col_del_err f).new_expcol] else []) ++
          (if (col_del_err f).new_repl ≠ 0 ∧
              (col_del_err f).new_repl ≠ (col_del_err f).mem.page.repl then
            [Event.free_replarr (col_del_err f).new_repl] else []), ret, ?_, ?_, ?_⟩
      · rw [col_del_done_trace, col_del_err_trace]
        simp [hpage]
      · intro ev hev
        simp only [List.mem_append, mem_ite_singleton] at hev
        rcases hev with (((hev | ⟨_, hev⟩) | ⟨_, hev⟩) | ⟨_, hev⟩) | ⟨_, hev⟩
        · exact hnp f hcal ev hev
        all_goals (subst hev; rfl)
      · have h1 : ret ≠ 0 := hret ret rfl
        have h2 : Event.calloc_fail ∈ f.trace := hfl.2 ⟨ret, rfl⟩
        simp [h1, h2]
    · rename_i f sub hal
      split at hrun
      · cases hrun
      · rename_i ret m1 hser
        cases hrun
        have hcal := col_del_alloc_only_callocs idb toc al m f _ hal
        obtain ⟨hfl, _⟩ := col_del_alloc_fail_iff idb toc al m f _ hal
        obtain ⟨hret, _⟩ := serialize_facts f.mem sub ret m1 hser
        refine ⟨f.trace ++ [sub.event] ++
            (if f.new_expcol ≠ 0 ∧ f.new_expcol ≠ m1.page.expcol then
              [Event.free_expcol f.new_expcol] else []) ++
            (if f.new_repl ≠ 0 ∧ f.new_repl ≠ m1.page.repl then
              [Event.free_replarr f.new_repl] else []), ret, ?_, ?_, ?_⟩
        · rw [col_del_done_trace]
          simp [hpage]
        · intro ev hev
          simp only [List.mem_append, mem_ite_singleton, List.mem_singleton] at hev
          rcases hev with ((hev | hev) | ⟨_, hev⟩) | ⟨_, hev⟩
          · exact hnp f hcal ev hev
          · subst hev; cases sub <;> rfl
          all_goals (subst hev; rfl)
        · have h2 : Event.calloc_fail ∉ f.trace := by
            intro hmem
            obtain ⟨r, hr⟩ := hfl.1 hmem
            cases hr
          have h3 : Event.calloc_fail ≠ sub.event := by cases sub <;> simp [Submission.event]
          simp [hret, h2, h3, mem_ite_singleton]

/-! ## The server functions store by store -/

/-- The store sequence of the install-expansion server function in closed
form. -/
theorem rcc_expand_states_eq (m : Mem) (slot : Nat) (new_exp exp : Ptr) (arr : List Ptr)
    (c : WT_COL_EXPAND)
    (hp : (rcc_expand_adopt m new_exp).page.expcol ≠ 0)
    (harr : m.expArr (rcc_expand_adopt m new_exp).page.expcol = some arr)
    (hslot : slot < arr.length) (he0 : exp ≠ 0) (hc : m.exps exp = some c) :
    rcc_expand_states m slot new_exp exp =
      some [m, rcc_expand_adopt m new_exp,
        (rcc_expand_adopt m new_exp).setExp exp (some { c with next := arr.getD slot 0 }),
        ((rcc_expand_adopt m new_exp).setExp exp
            (some { c with next := arr.getD slot 0 })).setExpArr
          (rcc_expand_adopt m new_exp).page.expcol (some (arr.set slot exp)),
        page_modify_set
          (((rcc_expand_adopt m new_exp).setExp exp
              (some { c with next := arr.getD slot 0 })).setExpArr
            (rcc_expand_adopt m new_exp).page.expcol (some (arr.set slot exp)))] := by
  have hget : arr.get? slot = some (arr.getD slot 0) := by
    rw [List.getD_eq_getElem?_getD, List.get?_eq_getElem?, List.getElem?_eq_getElem hslot]
    simp
  simp [rcc_expand_states, rcc_expand_link, rcc_expand_publish, Mem.expcolAt, hp,
    harr, hget, he0, hc, hslot]

/-- The store sequence of the append-replacement server function in closed
form. -/
theorem rcc_expand_repl_states_eq (m : Mem) (exp repl : Ptr) (c : WT_COL_EXPAND) (r : WT_REPL)
    (he0 : exp ≠ 0) (hc : m.exps exp = some c) (hr0 : repl ≠ 0) (hr : m.repls repl = some r) :
    rcc_expand_repl_states m exp repl =
      some [m, m.setRepl repl (some { r with next := c.repl }),
        (m.setRepl repl (some { r with next := c.repl })).setExp exp
          (some { c with repl := repl }),
        page_modify_set
          ((m.setRepl repl (some { r with next := c.repl })).setExp exp
            (some { c with repl := repl }))] := by
  simp [rcc_expand_repl_states, rcc_expand_repl_link, rcc_expand_repl_publish,
    he0, hc, hr0, hr]

/-- The adoption step does not change what a reader finds in a slot: either
the page keeps its array, or it takes a candidate that holds only `NULL`. -/
theorem adopt_expHead (m : Mem) (slot : Nat) (new_exp : Ptr) (arr : List Ptr)
    (hp : (rcc_expand_adopt m new_exp).page.expcol ≠ 0)
    (harr : m.expArr (rcc_expand_adopt m new_exp).page.expcol = some arr)
    (hslot : slot < arr.length) (hzero : m.ZeroCandidate new_exp) :
    arr.getD slot 0 = m.expHead slot ∧
      (rcc_expand_adopt m new_exp).expHead slot = m.expHead slot := by
  have h2 : (rcc_expand_adopt m new_exp).expHead slot = arr.getD slot 0 :=
    expHead_present _ slot arr hp (by simpa using harr)
  by_cases h0 : m.page.expcol = 0
  · rw [rcc_expand_adopt_absent m new_exp h0] at harr
    have hz := hzero h0 arr harr
    have hg : arr.getD slot 0 = 0 := by
      rw [List.getD_eq_getElem?_getD, List.getElem?_eq_getElem hslot]
      exact hz _ (List.getElem_mem hslot)
    rw [h2, hg, expHead_absent m slot h0]
    exact ⟨rfl, rfl⟩
  · rw [rcc_expand_adopt_present m new_exp h0] at h2
    exact ⟨h2.symm, by rw [rcc_expand_adopt_present m new_exp h0]⟩

/-- The install-expansion server function, store by store, as a reader of the
run's list sees it. -/
theorem rcc_expand_links (m : Mem) (slot : Nat) (new_exp exp : Ptr) (ret : Int) (M : Mem)
    (L : List Ptr)
    (h : __wt_bt_rcc_expand_serial_func m slot new_exp exp = some (ret, M))
    (hzero : m.ZeroCandidate new_exp)
    (hL : expChain m.exps (m.expHead slot) L = true) (hnew : exp ∉ L) :
    ∃ s1 s2 s3 c c2, rcc_expand_states m slot new_exp exp = some [m, s1, s2, s3, M] ∧
      m.exps exp = some c ∧
      expChain s1.exps (s1.expHead slot) L = true ∧
      expChain s2.exps (s2.expHead slot) L = true ∧
      expChain s3.exps (s3.expHead slot) (exp :: L) = true ∧
      expChain M.exps (M.expHead slot) (exp :: L) = true ∧
      s1.exps = m.exps ∧
      s2.exps exp = some c2 ∧ c2 = { c with next := m.expHead slot } ∧
      s2.expHead slot = m.expHead slot ∧
      s3.exps = s2.exps ∧ M.exps = s2.exps ∧
      (∀ p, p ≠ exp → s2.exps p = m.exps p) ∧
      s1.repls = m.repls ∧ s2.repls = m.repls ∧ s3.repls = m.repls ∧ M.repls = m.repls := by
  obtain ⟨arr, c, hp, harr, hs, he0, hc⟩ := rcc_expand_func_inv m slot new_exp exp ret M h
  have heq := rcc_expand_func_eq m slot new_exp exp arr c hp harr hs he0 hc
  have hst := rcc_expand_states_eq m slot new_exp exp arr c hp harr hs he0 hc
  rw [heq] at h
  simp only [Option.some.injEq, Prod.mk.injEq] at h
  obtain ⟨_, hM⟩ := h
  subst hM
  obtain ⟨hg, hA⟩ := adopt_expHead m slot new_exp arr hp harr hs hzero
  rw [hg] at hst ⊢
  have hfr : ∀ a ∈ L, a ≠ exp := fun a ha h => hnew (h ▸ ha)
  have hch2 : expChain (Function.update m.exps exp
      (some { c with next := m.expHead slot })) (m.expHead slot) L = true := by
    refine chain_congr _ m.exps _ L _ ?_ hL
    intro a ha
    simp [Function.update, hfr a ha]
  have hH3 : ∀ S : Mem, S.page.expcol = (rcc_expand_adopt m new_exp).page.expcol →
      S.expArr (rcc_expand_adopt m new_exp).page.expcol = some (arr.set slot exp) →
      S.expHead slot = exp := by
    intro S h1 h2
    rw [expHead_present S slot (arr.set slot exp) (by rw [h1]; exact hp) (by rw [h1]; exact h2)]
    simp [List.getD_eq_getElem?_getD, hs]
  have hch3 : expChain (Function.update m.exps exp
      (some { c with next := m.expHead slot })) exp (exp :: L) = true := by
    unfold expChain
    rw [chain_cons]
    exact ⟨rfl, he0, { c with next := m.expHead slot }, by simp, hch2⟩
  refine ⟨_, _, _, c, { c with next := m.expHead slot }, hst, hc, ?_, ?_, ?_, ?_, ?_, ?_, rfl,
    ?_, ?_, ?_, ?_, ?_, ?_, ?_, ?_⟩
  · rw [hA]; simpa using hL
  · have : ((rcc_expand_adopt m new_exp).setExp exp
        (some { c with next := m.expHead slot })).expHead slot = m.expHead slot := by
      rw [← hA]; rfl
    rw [this]; simpa using hch2
  · have e3 := hH3 (((rcc_expand_adopt m new_exp).setExp exp
        (some { c with next := m.expHead slot })).setExpArr
        (rcc_expand_adopt m new_exp).page.expcol (some (arr.set slot exp))) (by simp) (by simp)
    rw [e3]; simpa using hch3
  · have e4 := hH3 (page_modify_set (((rcc_expand_adopt m new_exp).setExp exp
        (some { c with next := m.expHead slot })).setExpArr
        (rcc_expand_adopt m new_exp).page.expcol (some (arr.set slot exp)))) (by simp) (by simp)
    rw [e4]; simpa using hch3
  · simp
  · simp
  · rw [← hA]; rfl
  · simp
  · simp
  · intro p hp2; simp [Function.update, hp2]
  · simp
  · simp
  · simp
  · simp

/-- The append-replacement server function, store by store, as a reader of the
entry's replacement list sees it. -/
theorem rcc_expand_repl_links (m : Mem) (exp repl : Ptr) (ret : Int) (M : Mem)
    (c : WT_COL_EXPAND) (L : List Ptr)
    (h : __wt_bt_rcc_expand_repl_serial_func m exp repl = some (ret, M))
    (hc : m.exps exp = some c)
    (hL : replChain m.repls c.repl L = true) (hnew : repl ∉ L) :
    ∃ s1 s2 r, rcc_expand_repl_states m exp repl = some [m, s1, s2, M] ∧
      m.repls repl = some r ∧
      s1.exps = m.exps ∧
      replChain s1.repls c.repl L = true ∧
      s1.repls repl = some { r with next := c.repl } ∧
      (∀ p, p ≠ repl → s1.repls p = m.repls p) ∧
      s2.exps exp = some { c with repl := repl } ∧
      (∀ p, p ≠ exp → s2.exps p = m.exps p) ∧
      s2.repls = s1.repls ∧
      replChain s2.repls repl (repl :: L) = true ∧
      M.exps = s2.exps ∧ M.repls = s2.repls := by
  obtain ⟨c0, r, he0, hc0, hr0, hr⟩ := rcc_expand_repl_func_inv m exp repl ret M h
  rw [hc] at hc0
  cases hc0
  have heq := rcc_expand_repl_func_eq m exp repl c r he0 hc hr0 hr
  have hst := rcc_expand_repl_states_eq m exp repl c r he0 hc hr0 hr
  rw [heq] at h
  simp only [Option.some.injEq, Prod.mk.injEq] at h
  obtain ⟨_, hM⟩ := h
  subst hM
  have hfr : ∀ a ∈ L, a ≠ repl := fun a ha h => hnew (h ▸ ha)
  have hch1 : replChain (Function.update m.repls repl (some { r with next := c.repl }))
      c.repl L = true := by
    refine chain_congr _ m.repls _ L _ ?_ hL
    intro a ha
    simp [Function.update, hfr a ha]
  refine ⟨_, _, r, hst, hr, rfl, by simpa using hch1, by simp, ?_, by simp, ?_, rfl, ?_,
    rfl, rfl⟩
  · intro p hp; simp [Function.update, hp]
  · intro p hp; simp [Function.update, hp]
  · unfold replChain
    rw [chain_cons]
    exact ⟨rfl, hr0, { r with next := c.repl }, by simp, by simpa [replChain] using hch1⟩

set_option maxHeartbeats 2000000 in
/-- At the submission every field of the candidates has been written by the
caller: the expansion cell holds the run offset and its tombstone, the
replacement record holds the deleted-marker. -/
theorem col_del_alloc_initialised (idb : IDB) (toc : WT_TOC) (al : Calloc) (m : Mem)
    (f : Frame) (sub : Submission) (hfresh : al.Fresh idb m)
    (h : col_del_alloc idb toc al m = some (f, .ok sub)) :
    f.mem.repls f.repl = some ⟨WT_REPL_DELETED_VALUE, 0⟩ ∧
      (col_del_path idb toc = Path.two →
        f.mem.exps f.exp = some ⟨toc.srch_rcc_offset, f.repl, 0⟩) := by
  obtain ⟨oa, oe, orr⟩ := al
  obtain ⟨hfr, hfe, hfa⟩ := hfresh
  simp only [FreshIn] at hfr hfe hfa
  have hr : ∀ r, orr = some r → r ≠ 0 ∧ m.repls r = none := hfr
  have he : ∀ e, oe = some e → e ≠ 0 ∧ m.exps e = none := hfe
  clear hfr hfe
  revert f
  unfold col_del_alloc
  cases hpath : col_del_path idb toc <;> simp only [hpath]
  · have hcomp := (col_del_path_one idb toc).1 hpath
    simp only [hcomp, if_true] at hfa
    by_cases h0 : m.page.repl = 0 <;> rcases oa with _ | a <;> rcases orr with _ | r <;>
      intro f h <;>
      simp [h0, calloc_new_repl, calloc_repl, Frame.init, WT_ENOMEM, store_repl_data,
        hr, hfa] at h <;>
      obtain ⟨rfl, _⟩ := h <;>
      simp_all
  · have hcomp := (col_del_path_two idb toc).1 hpath
    simp [hcomp.1] at hfa
    by_cases h0 : m.page.expcol = 0 <;> rcases oa with _ | a <;> rcases oe with _ | e <;>
        rcases orr with _ | r <;>
      intro f h <;>
      simp [h0, calloc_new_expcol, calloc_exp, calloc_repl, Frame.init, WT_ENOMEM,
        store_repl_data, store_exp_fields, hr, he, hfa] at h <;>
      obtain ⟨rfl, _⟩ := h <;>
      simp_all
  · rcases orr with _ | r <;>
      intro f h <;>
      simp [calloc_repl, Frame.init, WT_ENOMEM, store_repl_data, hr] at h
    obtain ⟨rfl, _⟩ := h
    simp_all

/-! ## The overlay only grows -/

/-- A list only depends on the `next` fields of its own cells. -/
theorem chain_congr_next {α : Type} (next : α → Ptr) (heap heap2 : Ptr → Option α) :
    ∀ (l : List Ptr) (p : Ptr),
      (∀ a ∈ l, (heap2 a).map next = (heap a).map next) →
      chain next heap p l = true → chain next heap2 p l = true := by
  intro l
  induction l with
  | nil => intro p _ h; simpa [chain] using h
  | cons b l ih =>
    intro p hag h
    rw [chain_cons] at h ⊢
    obtain ⟨h1, h2, c, hc, hl⟩ := h
    have hb := hag b (List.mem_cons_self _ _)
    rw [hc] at hb
    cases h2b : heap2 b with
    | none => simp [h2b] at hb
    | some c2 =>
      simp only [h2b, Option.map_some', Option.some.injEq] at hb
      refine ⟨h1, h2, c2, rfl, ?_⟩
      rw [hb]
      exact ih _ (fun a ha => hag a (List.mem_cons_of_mem _ ha)) hl

theorem getD_set_ne (arr : List Ptr) (i j : Nat) (v : Ptr) (h : j ≠ i) :
    (arr.set i v).getD j 0 = arr.getD j 0 := by
  simp [List.getD_eq_getElem?_getD, List.getElem?_set, Ne.symm h]

/-- The install-expansion server function only grows the overlay. -/
theorem rcc_expand_grows (m : Mem) (slot : Nat) (new_exp exp : Ptr) (ret : Int) (M : Mem)
    (h : __wt_bt_rcc_expand_serial_func m slot new_exp exp = some (ret, M))
    (hzero : m.ZeroCandidate new_exp) (hnew : m.expUnpublished exp) :
    (∀ s L, expChain m.exps (m.expHead s) L = true →
        expChain M.exps (M.expHead s) (if s = slot then exp :: L else L) = true) ∧
      (∀ s, s ≠ slot → M.expHead s = m.expHead s) ∧
      (∀ p, p ≠ exp → M.exps p = m.exps p) ∧
      (∃ c, m.exps exp = some c ∧ M.exps exp = some { c with next := m.expHead slot }) ∧
      M.repls = m.repls ∧ M.replArr = m.replArr ∧ M.page.repl = m.page.repl := by
  obtain ⟨arr, c, hp, harr, hs, he0, hc⟩ := rcc_expand_func_inv m slot new_exp exp ret M h
  have heq := rcc_expand_func_eq m slot new_exp exp arr c hp harr hs he0 hc
  rw [heq] at h
  simp only [Option.some.injEq, Prod.mk.injEq] at h
  obtain ⟨_, hM⟩ := h
  subst hM
  obtain ⟨hg, hA⟩ := adopt_expHead m slot new_exp arr hp harr hs hzero
  rw [hg]
  -- heads
  have hheadM : ∀ s, (page_modify_set
      (((rcc_expand_adopt m new_exp).setExp exp
          (some { c with next := m.expHead slot })).setExpArr
        (rcc_expand_adopt m new_exp).page.expcol (some (arr.set slot exp)))).expHead s
      = (arr.set slot exp).getD s 0 := by
    intro s
    exact expHead_present _ s (arr.set slot exp) (by simpa using hp) (by simp)
  have hA2 : ∀ s, (rcc_expand_adopt m new_exp).expHead s = arr.getD s 0 :=
    fun s => expHead_present _ s arr hp (by simpa using harr)
  have hold : ∀ s, arr.getD s 0 = m.expHead s := by
    intro s
    by_cases h0 : m.page.expcol = 0
    · rw [expHead_absent m s h0]
      have harr2 := harr
      rw [rcc_expand_adopt_absent m new_exp h0] at harr2
      have hz := hzero h0 arr harr2
      rw [List.getD_eq_getElem?_getD]
      by_cases hlt : s < arr.length
      · rw [List.getElem?_eq_getElem hlt]
        exact hz _ (List.getElem_mem hlt)
      · rw [List.getElem?_eq_none_iff.2 (by omega)]
        rfl
    · rw [← hA2 s, rcc_expand_adopt_present m new_exp h0]
  have hother : ∀ s, s ≠ slot → (arr.set slot exp).getD s 0 = m.expHead s := by
    intro s hs2
    rw [getD_set_ne arr slot s exp hs2, hold s]
  have hself : (arr.set slot exp).getD slot 0 = exp := by
    simp [List.getD_eq_getElem?_getD, hs]
  have hfr : ∀ p, p ≠ exp → Function.update m.exps exp
      (some { c with next := m.expHead slot }) p = m.exps p := by
    intro p hp2; simp [Function.update, hp2]
  have hkeep : ∀ s L, expChain m.exps (m.expHead s) L = true →
      expChain (Function.update m.exps exp (some { c with next := m.expHead slot }))
        (m.expHead s) L = true := by
    intro s L hL
    refine chain_congr _ m.exps _ L _ ?_ hL
    intro a ha
    exact hfr a (fun h => hnew s L hL (h ▸ ha))
  refine ⟨?_, ?_, ?_, ⟨c, hc, by simp⟩, by simp, by simp, by simp⟩
  · intro s L hL
    rw [hheadM s]
    by_cases hs2 : s = slot
    · subst hs2
      simp only [if_true]
      rw [hself]
      unfold expChain
      rw [chain_cons]
      exact ⟨rfl, he0, { c with next := m.expHead s }, by simp, by simpa using hkeep s L hL⟩
    · simp only [hs2, if_false]
      rw [hother s hs2]
      simpa using hkeep s L hL
  · intro s hs2
    rw [hheadM s, hother s hs2]
  · intro p hp2
    simpa using hfr p hp2

/-- The append-replacement server function only grows the overlay. -/
theorem rcc_expand_repl_grows (m : Mem) (e r : Ptr) (ret : Int) (M : Mem)
    (h : __wt_bt_rcc_expand_repl_serial_func m e r = some (ret, M))
    (hnew : m.replUnpublished r) :
    (∀ s L, expChain m.exps (m.expHead s) L = true →
        expChain M.exps (M.expHead s) L = true) ∧
      (∀ s, M.expHead s = m.expHead s) ∧
      (∀ p, p ≠ e → M.exps p = m.exps p) ∧
      (∃ c r0, m.exps e = some c ∧ M.exps e = some { c with repl := r } ∧
        m.repls r = some r0 ∧ M.repls r = some { r0 with next := c.repl }) ∧
      (∀ q c L, m.exps q = some c → replChain m.repls c.repl L = true →
        ∃ c2, M.exps q = some c2 ∧
          replChain M.repls c2.repl (if q = e then r :: L else L) = true) ∧
      (∀ p, p ≠ r → M.repls p = m.repls p) ∧
      M.replArr = m.replArr ∧ M.page.repl = m.page.repl := by
  obtain ⟨c, r0, he0, hc, hr0, hr⟩ := rcc_expand_repl_func_inv m e r ret M h
  have heq := rcc_expand_repl_func_eq m e r c r0 he0 hc hr0 hr
  rw [heq] at h
  simp only [Option.some.injEq, Prod.mk.injEq] at h
  obtain ⟨_, hM⟩ := h
  subst hM
  have hkeepR : ∀ q cq L, m.exps q = some cq → replChain m.repls cq.repl L = true →
      replChain (Function.update m.repls r (some { r0 with next := c.repl })) cq.repl L
        = true := by
    intro q cq L hq hL
    refine chain_congr _ m.repls _ L _ ?_ hL
    intro a ha
    have : a ≠ r := fun h => hnew q cq L hq hL (h ▸ ha)
    simp [Function.update, this]
  refine ⟨?_, fun s => rfl, ?_, ⟨c, r0, hc, by simp, hr, by simp⟩, ?_, ?_, by simp, by simp⟩
  · intro s L hL
    have : (page_modify_set ((m.setRepl r (some { r0 with next := c.repl })).setExp e
        (some { c with repl := r }))).expHead s = m.expHead s := rfl
    rw [this]
    refine chain_congr_next _ m.exps _ L _ ?_ hL
    intro a _
    by_cases ha : a = e
    · subst ha; simp [hc]
    · simp [Function.update, ha]
  · intro p hp; simp [Function.update, hp]
  · intro q cq L hq hL
    by_cases hqe : q = e
    · subst hqe
      rw [hc] at hq
      cases hq
      refine ⟨{ c with repl := r }, by simp, ?_⟩
      simp only [if_true]
      unfold replChain
      rw [chain_cons]
      exact ⟨rfl, hr0, { r0 with next := c.repl }, by simp,
        by simpa [replChain] using hkeepR q c L hc hL⟩
    · refine ⟨cq, by simp [Function.update, hqe, hq], ?_⟩
      simp only [hqe, if_false]
      simpa using hkeepR q cq L hq hL
  · intro p hp; simp [Function.update, hp]


/-- In the example page with the candidates of record 107 the cell 22 is on no
expansion list. -/
theorem exMemOther_unpublished : exMemOther.expUnpublished 22 := by
  intro slot L hL
  have hh : exMemOther.expHead slot = [0, 0, 0, 20].getD slot 0 :=
    expHead_present exMemOther slot [0, 0, 0, 20] (by decide) rfl
  rw [hh] at hL
  have hcase : [0, 0, 0, 20].getD slot 0 = 0 ∨ [0, 0, 0, 20].getD slot 0 = 20 := by
    rcases slot with _ | _ | _ | _ | n <;> simp
  rcases hcase with h0 | h20
  · rw [h0] at hL
    rw [chain_null _ _ L hL]
    simp
  · rw [h20] at hL
    have h2 : expChain exMemOther.exps 20 [20] = true := by decide
    rw [chain_unique _ _ L [20] 20 hL h2]
    simp

/-! ## Two deletes racing on one run -/

/-- One run of the install-expansion server function on a page whose array is
present, or absent with an allocated all-`NULL` candidate. -/
theorem rcc_expand_step (S : Mem) (slot : Nat) (ne e : Ptr) (c : WT_COL_EXPAND) (L : List Ptr)
    (hc : S.exps e = some c) (he0 : e ≠ 0)
    (habs : S.page.expcol = 0 →
      ne ≠ 0 ∧ ∃ arr, S.expArr ne = some arr ∧ slot < arr.length ∧ ∀ x ∈ arr, x = 0)
    (hpres : S.page.expcol ≠ 0 → ∃ arr, S.expArr S.page.expcol = some arr ∧ slot < arr.length)
    (hL : expChain S.exps (S.expHead slot) L = true) (hnew : e ∉ L) :
    ∃ M, __wt_bt_rcc_expand_serial_func S slot ne e = some (0, M) ∧
      M.page.expcol = (if S.page.expcol = 0 then ne else S.page.expcol) ∧
      M.page.expcol ≠ 0 ∧
      (∃ arr, M.expArr M.page.expcol = some arr ∧ slot < arr.length) ∧
      (∀ p, p ≠ M.page.expcol → M.expArr p = S.expArr p) ∧
      M.exps = Function.update S.exps e (some { c with next := S.expHead slot }) ∧
      M.repls = S.repls ∧
      M.expHead slot = e ∧
      expChain M.exps (M.expHead slot) (e :: L) = true := by
  have hzero : S.ZeroCandidate ne := by
    intro h0 arr harr x hx
    obtain ⟨_, arr2, h2, _, hz⟩ := habs h0
    rw [h2] at harr
    cases harr
    exact hz x hx
  have hex : ∃ arr, (rcc_expand_adopt S ne).page.expcol ≠ 0 ∧
      S.expArr (rcc_expand_adopt S ne).page.expcol = some arr ∧ slot < arr.length ∧
      (rcc_expand_adopt S ne).page.expcol = (if S.page.expcol = 0 then ne else S.page.expcol) := by
    by_cases h0 : S.page.expcol = 0
    · obtain ⟨hne, arr, h2, hs, _⟩ := habs h0
      refine ⟨arr, ?_, ?_, hs, ?_⟩
      · rw [rcc_expand_adopt_absent S ne h0]; exact hne
      · rw [rcc_expand_adopt_absent S ne h0]; exact h2
      · rw [rcc_expand_adopt_absent S ne h0, if_pos h0]
    · obtain ⟨arr, h2, hs⟩ := hpres h0
      refine ⟨arr, ?_, ?_, hs, ?_⟩
      · rw [rcc_expand_adopt_present S ne h0]; exact h0
      · rw [rcc_expand_adopt_present S ne h0]; exact h2
      · rw [rcc_expand_adopt_present S ne h0, if_neg h0]
  obtain ⟨arr, hp, harr, hs, hpe⟩ := hex
  have heq := rcc_expand_func_eq S slot ne e arr c hp harr hs he0 hc
  obtain ⟨hg, _⟩ := adopt_expHead S slot ne arr hp harr hs hzero
  obtain ⟨_, _, _, _, _, _, _, _, _, _, hch, _⟩ :=
    rcc_expand_links S slot ne e 0 _ L heq hzero hL hnew
  refine ⟨_, heq, ?_, ?_, ?_, ?_, ?_, ?_, ?_, hch⟩
  · simpa using hpe
  · simpa using hp
  · exact ⟨arr.set slot e, by simp, by simpa using hs⟩
  · intro p hp2
    have : p ≠ (rcc_expand_adopt S ne).page.expcol := by simpa using hp2
    simp [Function.update, this]
  · rw [← hg]; simp
  · simp
  · unfold expChain at hch
    rw [chain_cons] at hch
    exact hch.1


/-- Two runs of the install-expansion server function on the same slot, one
after the other. -/
theorem rcc_expand_two (S : Mem) (slot : Nat) (nA eA nB eB : Ptr) (cA cB : WT_COL_EXPAND)
    (L : List Ptr)
    (hcA : S.exps eA = some cA) (hcB : S.exps eB = some cB) (hAB : eA ≠ eB)
    (heA : eA ≠ 0) (heB : eB ≠ 0)
    (habs : S.page.expcol = 0 →
      nA ≠ 0 ∧ ∃ arr, S.expArr nA = some arr ∧ slot < arr.length ∧ ∀ x ∈ arr, x = 0)
    (hpres : S.page.expcol ≠ 0 → ∃ arr, S.expArr S.page.expcol = some arr ∧ slot < arr.length)
    (hL : expChain S.exps (S.expHead slot) L = true) (hA : eA ∉ L) (hB : eB ∉ L) :
    ∃ M1 M2, __wt_bt_rcc_expand_serial_func S slot nA eA = some (0, M1) ∧
      __wt_bt_rcc_expand_serial_func M1 slot nB eB = some (0, M2) ∧
      M2.page.expcol = (if S.page.expcol = 0 then nA else S.page.expcol) ∧
      M2.page.expcol ≠ 0 ∧
      M2.expArr M2.page.expcol ≠ none ∧
      (∀ p, p ≠ M2.page.expcol → M2.expArr p = S.expArr p) ∧
      (∀ p, p ≠ eA → p ≠ eB → M2.exps p = S.exps p) ∧
      M2.exps eA = some { cA with next := S.expHead slot } ∧
      M2.exps eB = some { cB with next := eA } ∧
      M2.repls = S.repls ∧
      expChain M2.exps (M2.expHead slot) (eB :: eA :: L) = true := by
  obtain ⟨M1, h1, p1, p1n, ⟨arr1, ha1, hs1⟩, a1, x1, r1, hd1, ch1⟩ :=
    rcc_expand_step S slot nA eA cA L hcA heA habs hpres hL hA
  have hcB1 : M1.exps eB = some cB := by
    rw [x1]; simpa [Function.update, Ne.symm hAB] using hcB
  obtain ⟨M2, h2, p2, p2n, ⟨arr2, ha2, hs2⟩, a2, x2, r2, hd2, ch2⟩ :=
    rcc_expand_step M1 slot nB eB cB (eA :: L) hcB1 heB (fun h => absurd h p1n)
      (fun _ => ⟨arr1, ha1, hs1⟩) ch1
      (by
        intro hmem
        rcases List.mem_cons.1 hmem with h | h
        · exact hAB h.symm
        · exact hB h)
  have p21 : M2.page.expcol = M1.page.expcol := by rw [p2, if_neg p1n]
  refine ⟨M1, M2, h1, h2, ?_, p2n, ?_, ?_, ?_, ?_, ?_, ?_, ch2⟩
  · rw [p21, p1]
  · rw [ha2]; simp
  · intro p hp
    rw [a2 p hp, a1 p (by rw [← p21]; exact hp)]
  · intro p hpA hpB
    rw [x2, x1]; simp [Function.update, hpA, hpB]
  · rw [x2, x1]; simp [Function.update, hAB]
  · rw [x2, hd1]; simp
  · rw [r2, r1]

/-- The race once both server functions have run. -/
theorem col_del_race_eq (idb : IDB) (toc1 toc2 : WT_TOC) (f1 f2 : Frame)
    (sub1 sub2 : Submission) (swap : Bool) (M1 M2 : Mem)
    (hA : serialize f2.mem (if swap then sub2 else sub1) = some (0, M1))
    (hB : serialize M1 (if swap then sub1 else sub2) = some (0, M2)) :
    col_del_race idb toc1 toc2 f1 f2 sub1 sub2 swap =
      some (col_del_done idb toc1 0 { f1 with mem := M2, trace := f1.trace ++ [sub1.event] },
        col_del_done idb toc2 0
          { f2 with
            mem := (col_del_done idb toc1 0
              { f1 with mem := M2, trace := f1.trace ++ [sub1.event] }).mem
            trace := f2.trace ++ [sub2.event] }) := by
  unfold col_del_race
  rw [hA]
  simp only [hB]
  cases swap <;> rfl


/-- The race of two install-expansion submissions for one slot, for frames whose
candidates are allocated in the shared heap. -/
theorem col_del_race_run (idb : IDB) (toc1 toc2 : WT_TOC) (f1 f2 : Frame) (slot : Nat)
    (c1 c2 : WT_COL_EXPAND) (L : List Ptr) (swap : Bool)
    (hc1 : f2.mem.exps f1.exp = some c1) (hc2 : f2.mem.exps f2.exp = some c2)
    (h12 : f1.exp ≠ f2.exp) (h10 : f1.exp ≠ 0) (h20 : f2.exp ≠ 0)
    (habs : f2.mem.page.expcol = 0 →
      f1.new_expcol ≠ 0 ∧ f2.new_expcol ≠ 0 ∧ f1.new_expcol ≠ f2.new_expcol ∧
      (∃ arr, f2.mem.expArr f1.new_expcol = some arr ∧ slot < arr.length ∧ ∀ x ∈ arr, x = 0) ∧
      (∃ arr, f2.mem.expArr f2.new_expcol = some arr ∧ slot < arr.length ∧ ∀ x ∈ arr, x = 0))
    (hpres : f2.mem.page.expcol ≠ 0 →
      f1.new_expcol = 0 ∧ f2.new_expcol = 0 ∧
      ∃ arr, f2.mem.expArr f2.mem.page.expcol = some arr ∧ slot < arr.length)
    (hL : expChain f2.mem.exps (f2.mem.expHead slot) L = true)
    (h1L : f1.exp ∉ L) (h2L : f2.exp ∉ L) :
    ∃ res1 res2,
      col_del_race idb toc1 toc2 f1 f2 (.rcc_expand slot f1.new_expcol f1.exp)
        (.rcc_expand slot f2.new_expcol f2.exp) swap = some (res1, res2) ∧
      expChain res2.mem.exps (res2.mem.expHead slot)
        (if swap then f1.exp :: f2.exp :: L else f2.exp :: f1.exp :: L) = true ∧
      (∀ p, p ≠ f1.exp → p ≠ f2.exp → res2.mem.exps p = f2.mem.exps p) ∧
      (∃ n, res2.mem.exps f1.exp = some { c1 with next := n }) ∧
      (∃ n, res2.mem.exps f2.exp = some { c2 with next := n }) ∧
      res2.mem.repls = f2.mem.repls ∧
      res2.mem.page.expcol =
        (if f2.mem.page.expcol = 0 then (if swap then f2.new_expcol else f1.new_expcol)
         else f2.mem.page.expcol) ∧
      res2.mem.expArr res2.mem.page.expcol ≠ none ∧
      (f2.mem.page.expcol = 0 →
        res2.mem.expArr (if swap then f1.new_expcol else f2.new_expcol) = none) ∧
      (∀ p, Event.free_expcol p ∈ res1.trace ↔
        (Event.free_expcol p ∈ f1.trace ∨
          (f2.mem.page.expcol = 0 ∧ swap = true ∧ p = f1.new_expcol))) ∧
      (∀ p, Event.free_expcol p ∈ res2.trace ↔
        (Event.free_expcol p ∈ f2.trace ∨
          (f2.mem.page.expcol = 0 ∧ swap = false ∧ p = f2.new_expcol))) ∧
      (∀ ev ∈ f1.trace, ev ∈ res1.trace) ∧ (∀ ev ∈ f2.trace, ev ∈ res2.trace) := by
  have hpresA : f2.mem.page.expcol ≠ 0 →
      ∃ arr, f2.mem.expArr f2.mem.page.expcol = some arr ∧ slot < arr.length :=
    fun h => (hpres h).2.2
  cases swap
  · obtain ⟨M1, M2, hA, hB, pg, pgn, parr, pother, xo, x1, x2, rr, ch⟩ :=
      rcc_expand_two f2.mem slot f1.new_expcol f1.exp f2.new_expcol f2.exp c1 c2 L hc1 hc2 h12
        h10 h20 (fun h => ⟨(habs h).1, (habs h).2.2.2.1⟩) hpresA hL h1L h2L
    have hrace := col_del_race_eq idb toc1 toc2 f1 f2 (.rcc_expand slot f1.new_expcol f1.exp)
      (.rcc_expand slot f2.new_expcol f2.exp) false M1 M2 hA hB
    have hkeep1 : f1.new_expcol = 0 ∨ f1.new_expcol = M2.page.expcol := by
      by_cases h0 : f2.mem.page.expcol = 0
      · right; rw [pg, if_pos h0]
      · left; exact (hpres h0).1
    have hfree2 : (f2.new_expcol ≠ 0 ∧ f2.new_expcol ≠ M2.page.expcol) ↔
        f2.mem.page.expcol = 0 := by
      by_cases h0 : f2.mem.page.expcol = 0
      · obtain ⟨_, b, c, _⟩ := habs h0
        rw [pg, if_pos h0]
        exact ⟨fun _ => h0, fun _ => ⟨b, Ne.symm c⟩⟩
      · have := (hpres h0).2.1
        simp [this, h0]
    refine ⟨_, _, hrace, ?_, ?_, ?_, ?_, ?_, ?_, ?_, ?_, ?_, ?_, ?_, ?_⟩
    · rw [col_del_done_exps, col_del_done_expHead, col_del_done_exps, col_del_done_expHead]
      simpa using ch
    · intro p hp1 hp2
      rw [col_del_done_exps, col_del_done_exps]
      exact xo p hp1 hp2
    · exact ⟨_, by rw [col_del_done_exps, col_del_done_exps]; exact x1⟩
    · exact ⟨_, by rw [col_del_done_exps, col_del_done_exps]; exact x2⟩
    · rw [col_del_done_repls, col_del_done_repls]; exact rr
    · rw [col_del_done_page, col_del_done_page]; simpa using pg
    · rw [col_del_done_page, col_del_done_page, col_del_done_expArr, col_del_done_expArr]
      rcases hkeep1 with h | h
      · by_cases h0 : f2.mem.page.expcol = 0
        · exact absurd h (habs h0).1
        · simp [h, (hpres h0).2.1, parr]
      · by_cases h0 : f2.mem.page.expcol = 0
        · have hne : f2.new_expcol ≠ M2.page.expcol := (hfree2.2 h0).2
          simp [col_del_done_page, ← h, (habs h0).2.1, Ne.symm (habs h0).2.2.1,
            Function.update, (habs h0).2.2.1]
          rw [h]; exact parr
        · simp [col_del_done_page, (hpres h0).2.1, (hpres h0).1, parr]
    · intro h0
      have hne : f2.new_expcol ≠ M2.page.expcol := (hfree2.2 h0).2
      rw [col_del_done_expArr]
      simp [col_del_done_page, (habs h0).2.1, hne]
    · intro p
      rw [done_trace_mem]
      have : ¬ (f1.new_expcol ≠ 0 ∧ f1.new_expcol ≠ M2.page.expcol) := by
        rintro ⟨a, b⟩
        rcases hkeep1 with h | h
        · exact a h
        · exact b h
      simp [this, Submission.event]
    · intro p
      rw [done_trace_mem]
      simp only [col_del_done_page]
      by_cases h0 : f2.mem.page.expcol = 0
      · simp [hfree2.2 h0, h0, Submission.event, eq_comm]
      · have hn : ¬ (f2.new_expcol ≠ 0 ∧ f2.new_expcol ≠ M2.page.expcol) :=
          fun h => h0 (hfree2.1 h)
        simp [hn, h0, Submission.event]
    · intro ev hev
      rw [done_trace_mem]
      exact Or.inl (List.mem_append_left _ hev)
    · intro ev hev
      rw [done_trace_mem]
      exact Or.inl (List.mem_append_left _ hev)
  · obtain ⟨M1, M2, hA, hB, pg, pgn, parr, pother, xo, x2, x1, rr, ch⟩ :=
      rcc_expand_two f2.mem slot f2.new_expcol f2.exp f1.new_expcol f1.exp c2 c1 L hc2 hc1
        (Ne.symm h12) h20 h10 (fun h => ⟨(habs h).2.1, (habs h).2.2.2.2⟩) hpresA hL h2L h1L
    have hrace := col_del_race_eq idb toc1 toc2 f1 f2 (.rcc_expand slot f1.new_expcol f1.exp)
      (.rcc_expand slot f2.new_expcol f2.exp) true M1 M2 hA hB
    have hkeep2 : f2.new_expcol = 0 ∨ f2.new_expcol = M2.page.expcol := by
      by_cases h0 : f2.mem.page.expcol = 0
      · right; rw [pg, if_pos h0]
      · left; exact (hpres h0).2.1
    have hfree1 : (f1.new_expcol ≠ 0 ∧ f1.new_expcol ≠ M2.page.expcol) ↔
        f2.mem.page.expcol = 0 := by
      by_cases h0 : f2.mem.page.expcol = 0
      · obtain ⟨a, _, c, _⟩ := habs h0
        rw [pg, if_pos h0]
        exact ⟨fun _ => h0, fun _ => ⟨a, c⟩⟩
      · have := (hpres h0).1
        simp [this, h0]
    refine ⟨_, _, hrace, ?_, ?_, ?_, ?_, ?_, ?_, ?_, ?_, ?_, ?_, ?_, ?_⟩
    · rw [col_del_done_exps, col_del_done_expHead, col_del_done_exps, col_del_done_expHead]
      simpa using ch
    · intro p hp1 hp2
      rw [col_del_done_exps, col_del_done_exps]
      exact xo p hp2 hp1
    · exact ⟨_, by rw [col_del_done_exps, col_del_done_exps]; exact x1⟩
    · exact ⟨_, by rw [col_del_done_exps, col_del_done_exps]; exact x2⟩
    · rw [col_del_done_repls, col_del_done_repls]; exact rr
    · rw [col_del_done_page, col_del_done_page]; simpa using pg
    · rw [col_del_done_page, col_del_done_page, col_del_done_expArr, col_del_done_expArr]
      have hn2 : ¬ (f2.new_expcol ≠ 0 ∧ f2.new_expcol ≠ M2.page.expcol) := by
        rintro ⟨a, b⟩
        rcases hkeep2 with h | h
        · exact a h
        · exact b h
      simp only [col_del_done_page, hn2, if_false]
      by_cases h0 : f2.mem.page.expcol = 0
      · have hne : M2.page.expcol ≠ f1.new_expcol := Ne.symm (hfree1.2 h0).2
        simp [hfree1.2 h0, Function.update, hne, parr]
      · have hn1 : ¬ (f1.new_expcol ≠ 0 ∧ f1.new_expcol ≠ M2.page.expcol) :=
          fun h => h0 (hfree1.1 h)
        simp only [hn1, if_false]
        exact parr
    · intro h0
      have hn2 : ¬ (f2.new_expcol ≠ 0 ∧ f2.new_expcol ≠ M2.page.expcol) := by
        rintro ⟨a, b⟩
        rcases hkeep2 with h | h
        · exact a h
        · exact b h
      rw [col_del_done_expArr, col_del_done_expArr]
      simp [col_del_done_page, hn2, hfree1.2 h0]
    · intro p
      rw [done_trace_mem]
      by_cases h0 : f2.mem.page.expcol = 0
      · simp [hfree1.2 h0, h0, Submission.event, eq_comm]
      · have hn : ¬ (f1.new_expcol ≠ 0 ∧ f1.new_expcol ≠ M2.page.expcol) :=
          fun h => h0 (hfree1.1 h)
        simp [hn, h0, Submission.event]
    · intro p
      rw [done_trace_mem]
      simp only [col_del_done_page]
      have : ¬ (f2.new_expcol ≠ 0 ∧ f2.new_expcol ≠ M2.page.expcol) := by
        rintro ⟨a, b⟩
        rcases hkeep2 with h | h
        · exact a h
        · exact b h
      simp [this, Submission.event]


    · intro ev hev
      rw [done_trace_mem]
      exact Or.inl (List.mem_append_left _ hev)
    · intro ev hev
      rw [done_trace_mem]
      exact Or.inl (List.mem_append_left _ hev)

/-- The frames of two deletes of not-yet-expanded records of one run, both
allocated before either submission runs. -/
theorem col_del_race_frames (idb : IDB) (toc1 toc2 : WT_TOC) (m : Mem)
    (a1 e1 r1 a2 e2 r2 : Ptr)
    (hcomp : idb.repeat_comp = true)
    (hnew1 : toc1.srch_repl = 0) (hnew2 : toc2.srch_repl = 0)
    (hf1 : Calloc.Fresh ⟨some a1, some e1, some r1⟩ idb m)
    (hf2 : Calloc.Fresh ⟨some a2, some e2, some r2⟩ idb m)
    (ha : a1 ≠ a2) (he : e1 ≠ e2) (hr : r1 ≠ r2) :
    ∃ f1 f2,
      col_del_alloc idb toc1 ⟨some a1, some e1, some r1⟩ m =
        some (f1, .ok (.rcc_expand toc1.srch_slot f1.new_expcol f1.exp)) ∧
      col_del_alloc idb toc2 ⟨some a2, some e2, some r2⟩ f1.mem =
        some (f2, .ok (.rcc_expand toc2.srch_slot f2.new_expcol f2.exp)) ∧
      f1.exp = e1 ∧ f2.exp = e2 ∧
      f1.new_expcol = (if m.page.expcol = 0 then a1 else 0) ∧
      f2.new_expcol = (if m.page.expcol = 0 then a2 else 0) ∧
      f1.trace = (if m.page.expcol = 0 then [Event.calloc_new_expcol a1] else []) ++
        [Event.calloc_exp e1, Event.calloc_repl r1] ∧
      f2.trace = (if m.page.expcol = 0 then [Event.calloc_new_expcol a2] else []) ++
        [Event.calloc_exp e2, Event.calloc_repl r2] ∧
      f2.mem.page = m.page ∧
      f2.mem.exps e1 = some ⟨toc1.srch_rcc_offset, r1, 0⟩ ∧
      f2.mem.exps e2 = some ⟨toc2.srch_rcc_offset, r2, 0⟩ ∧
      (∀ p, p ≠ e1 → p ≠ e2 → f2.mem.exps p = m.exps p) ∧
      f2.mem.repls r1 = some ⟨WT_REPL_DELETED_VALUE, 0⟩ ∧
      f2.mem.repls r2 = some ⟨WT_REPL_DELETED_VALUE, 0⟩ ∧
      (m.page.expcol = 0 →
        f2.mem.expArr a1 = some (List.replicate m.page.indx_count 0) ∧
        f2.mem.expArr a2 = some (List.replicate m.page.indx_count 0)) ∧
      (m.page.expcol ≠ 0 → f2.mem.expArr = m.expArr) ∧
      f2.mem.expHead toc1.srch_slot = m.expHead toc1.srch_slot := by
  obtain ⟨⟨hr10, hr1f⟩, ⟨he10, he1f⟩, ⟨ha10, ha1f⟩⟩ :
      (r1 ≠ 0 ∧ m.repls r1 = none) ∧ (e1 ≠ 0 ∧ m.exps e1 = none) ∧
        (a1 ≠ 0 ∧ m.expArr a1 = none) := by
    obtain ⟨x, y, z⟩ := hf1
    simp only [hcomp] at z
    exact ⟨x r1 rfl, y e1 rfl, z a1 rfl⟩
  obtain ⟨⟨hr20, hr2f⟩, ⟨he20, he2f⟩, ⟨ha20, ha2f⟩⟩ :
      (r2 ≠ 0 ∧ m.repls r2 = none) ∧ (e2 ≠ 0 ∧ m.exps e2 = none) ∧
        (a2 ≠ 0 ∧ m.expArr a2 = none) := by
    obtain ⟨x, y, z⟩ := hf2
    simp only [hcomp] at z
    exact ⟨x r2 rfl, y e2 rfl, z a2 rfl⟩
  by_cases h0 : m.page.expcol = 0
  · have h1 := col_del_alloc_rcc_new_absent idb toc1 m a1 e1 r1 hcomp hnew1 h0 he10 hr10
    have h2 := col_del_alloc_rcc_new_absent idb toc2
      (((m.setExpArr a1 (some (List.replicate m.page.indx_count 0))).setExp e1
        (some ⟨toc1.srch_rcc_offset, r1, 0⟩)).setRepl r1 (some ⟨WT_REPL_DELETED_VALUE, 0⟩))
      a2 e2 r2 hcomp hnew2 (by simpa using h0) he20 hr20
    refine ⟨_, _, h1, h2, rfl, rfl, by simp [h0], by simp [h0], by simp [h0], by simp [h0],
      by simp, ?_, ?_, ?_, ?_, ?_, ?_, ?_, ?_⟩
    · simp [Function.update, he]
    · simp [Function.update]
    · intro p hp1 hp2; simp [Function.update, hp1, hp2]
    · simp [Function.update, hr]
    · simp [Function.update]
    · intro _; simp [Function.update, ha]
    · intro h; exact absurd h0 h
    · rw [expHead_absent _ _ (by simpa using h0), expHead_absent _ _ h0]
  · have h1 := col_del_alloc_rcc_new_present idb toc1 m (some a1) e1 r1 hcomp hnew1 h0 he10 hr10
    have h2 := col_del_alloc_rcc_new_present idb toc2
      ((m.setExp e1 (some ⟨toc1.srch_rcc_offset, r1, 0⟩)).setRepl r1
        (some ⟨WT_REPL_DELETED_VALUE, 0⟩))
      (some a2) e2 r2 hcomp hnew2 (by simpa using h0) he20 hr20
    refine ⟨_, _, h1, h2, rfl, rfl, by simp [h0], by simp [h0], by simp [h0], by simp [h0],
      by simp, ?_, ?_, ?_, ?_, ?_, ?_, ?_, ?_⟩
    · simp [Function.update, he]
    · simp [Function.update]
    · intro p hp1 hp2; simp [Function.update, hp1, hp2]
    · simp [Function.update, hr]
    · simp [Function.update]
    · intro h; exact absurd h h0
    · intro _; simp
    · simp [Mem.expHead, Mem.expcolAt]

/-! ## Path 1: the store without compression -/

/-- The install-replacement server function on a page whose array (after the
adoption step) is the allocated block `arr`. -/
theorem update_func_run (m : Mem) (slot : Nat) (new_repl repl : Ptr) (arr : List Ptr)
    (hp : (if m.page.repl = 0 then new_repl else m.page.repl) ≠ 0)
    (harr : m.replArr (if m.page.repl = 0 then new_repl else m.page.repl) = some arr)
    (hs : slot < arr.length) :
    ∃ M, __wt_bt_update_serial_func m slot new_repl repl = some (0, M) ∧
      M.page.repl = (if m.page.repl = 0 then new_repl else m.page.repl) ∧
      M.page.expcol = m.page.expcol ∧
      M.page.indx_count = m.page.indx_count ∧
      M.repls = m.repls ∧ M.exps = m.exps ∧ M.expArr = m.expArr ∧
      M.replArr = Function.update m.replArr (if m.page.repl = 0 then new_repl else m.page.repl)
        (some (arr.set slot repl)) := by
  unfold __wt_bt_update_serial_func
  by_cases h0 : m.page.repl = 0
  · simp only [h0, if_true] at hp harr ⊢
    simp [hp, harr, hs, page_modify_set, Mem.setReplArr]
  · simp only [h0, if_false] at hp harr ⊢
    simp [hp, harr, hs, page_modify_set, Mem.setReplArr]

/-- Path 1 of `__wt_db_col_del` followed by the install-replacement server
function, all allocations successful. -/
theorem col_del_plain_run
    (idb : IDB) (search : Mem → Nat → Int × WT_TOC) (al : Calloc) (m : Mem) (recno : Nat)
    (toc : WT_TOC) (r : Ptr)
    (hcomp : idb.repeat_comp = false)
    (hsearch : search m recno = (0, toc))
    (hpage : toc.srch_page ≠ 0)
    (hslot : toc.srch_slot < m.page.indx_count)
    (hok : m.ReplOK)
    (harr : m.page.repl = 0 → ∃ a, al.arr = some a ∧ a ≠ 0)
    (hrepl : al.repl = some r) (hr0 : r ≠ 0) :
    ∃ res f arr, __wt_db_col_del idb search al m recno = some res ∧
      col_del_alloc idb toc al m = some (f, .ok (.update toc.srch_slot f.new_repl r)) ∧
      (f.new_repl ≠ 0 ↔ m.page.repl = 0) ∧
      (f.new_repl ≠ 0 → al.arr = some f.new_repl ∧
        f.mem.replArr f.new_repl = some (List.replicate m.page.indx_count 0)) ∧
      f.mem.repls r = some ⟨WT_REPL_DELETED_VALUE, 0⟩ ∧
      res.trace.filter Event.isSubmit = [Event.submit_update toc.srch_slot f.new_repl r] ∧
      (∀ p, Event.calloc_new_repl p ∈ res.trace ↔ (p = f.new_repl ∧ m.page.repl = 0)) ∧
      (∀ p, Event.free_replarr p ∉ res.trace) ∧
      res.ret = 0 ∧
      res.mem.page.repl ≠ 0 ∧
      res.mem.page.repl = (if m.page.repl = 0 then f.new_repl else m.page.repl) ∧
      res.mem.replArr res.mem.page.repl = some arr ∧
      arr.length = m.page.indx_count ∧
      res.mem.replAt toc.srch_slot = some r ∧
      res.mem.repls = Function.update m.repls r (some ⟨WT_REPL_DELETED_VALUE, 0⟩) ∧
      res.mem.page.indx_count = m.page.indx_count := by
  obtain ⟨oa, oe, orr⟩ := al
  simp only at harr hrepl
  subst hrepl
  have hfilter : ∀ (c : Prop) [Decidable c] (x : Nat),
      List.filter Event.isSubmit (if c then [Event.page_out toc.srch_page x] else []) = [] := by
    intro c _ x
    by_cases hc : c
    · rw [if_pos hc]; rfl
    · rw [if_neg hc]; rfl
  by_cases h0 : m.page.repl = 0
  · obtain ⟨a, ha, ha0⟩ := harr h0
    cases ha
    have hal := col_del_alloc_plain_absent idb toc m oe a r hcomp h0 hr0
    obtain ⟨M, hM, p1, p2, p3, p4, p5, p6, p7⟩ := update_func_run
      ((m.setReplArr a (some (List.replicate m.page.indx_count 0))).setRepl r
        (some ⟨WT_REPL_DELETED_VALUE, 0⟩)) toc.srch_slot a r
      (List.replicate m.page.indx_count 0)
      (by simpa [h0] using ha0) (by simp [h0]) (by simpa using hslot)
    simp only [setRepl_page, setReplArr_page, setRepl_replArr, setReplArr_replArr, h0, if_true] at p1 p2 p3 p7
    have hrun := col_del_run_ok idb search _ m recno toc _ _ _ _ hsearch hpage hal hM
    refine ⟨_, _, (List.replicate m.page.indx_count 0).set toc.srch_slot r, hrun, hal, ?_⟩
    have hk1 : ∀ (F : Frame), F.new_expcol = 0 → F.new_expcol = 0 ∨ F.new_expcol = F.mem.page.expcol :=
      fun _ h => Or.inl h
    rw [col_del_done_trace_keep _ _ _ _ (Or.inl rfl) (Or.inr (by simpa using p1.symm)),
      col_del_done_mem_keep _ _ _ _ (Or.inl rfl) (Or.inr (by simpa using p1.symm))]
    refine ⟨by simp [h0, ha0], fun _ => ⟨rfl, by simp⟩, by simp, ?_, ?_, ?_, rfl, ?_, ?_, ?_,
      ?_, ?_, ?_, ?_⟩
    · simp only [List.filter_append, hfilter, List.append_nil]
      rfl
    · intro p
      by_cases hc : toc.srch_page ≠ 0 ∧ toc.srch_page ≠ idb.root_page <;>
        simp [hc, Submission.event, h0]
    · intro p
      by_cases hc : toc.srch_page ≠ 0 ∧ toc.srch_page ≠ idb.root_page <;>
        simp [hc, Submission.event]
    · simpa [p1] using ha0
    · simpa [h0] using p1
    · simp [p1, p7]
    · simp
    · simp [Mem.replAt, p1, ha0, p7, hslot]
    · simpa using p4
    · simpa using p3
  · obtain ⟨arr, harr2, hlen⟩ := hok h0
    have hal := col_del_alloc_plain_present idb toc m oa oe r hcomp h0 hr0
    obtain ⟨M, hM, p1, p2, p3, p4, p5, p6, p7⟩ := update_func_run
      (m.setRepl r (some ⟨WT_REPL_DELETED_VALUE, 0⟩)) toc.srch_slot 0 r arr
      (by simp [h0]) (by simpa [h0] using harr2) (by rw [hlen]; exact hslot)
    simp only [setRepl_page, setRepl_replArr, h0, if_false] at p1 p2 p3 p7
    have hrun := col_del_run_ok idb search _ m recno toc _ _ _ _ hsearch hpage hal hM
    refine ⟨_, _, arr.set toc.srch_slot r, hrun, hal, ?_⟩
    rw [col_del_done_trace_keep _ _ _ _ (Or.inl rfl) (Or.inl rfl),
      col_del_done_mem_keep _ _ _ _ (Or.inl rfl) (Or.inl rfl)]
    refine ⟨by simp [h0], fun h => absurd rfl h, by simp, ?_, ?_, ?_, rfl, ?_, ?_, ?_,
      ?_, ?_, ?_, ?_⟩
    · simp only [List.filter_append, hfilter, List.append_nil]
      rfl
    · intro p
      by_cases hc : toc.srch_page ≠ 0 ∧ toc.srch_page ≠ idb.root_page <;>
        simp [hc, Submission.event, h0]
    · intro p
      by_cases hc : toc.srch_page ≠ 0 ∧ toc.srch_page ≠ idb.root_page <;>
        simp [hc, Submission.event]
    · simpa [p1] using h0
    · simpa [h0] using p1
    · simp [p1, p7]
    · simpa using hlen
    · simp [Mem.replAt, p1, h0, p7, hlen, hslot]
    · simpa using p4
    · simpa using p3

/-! ## The expansion array stays present -/

set_option maxHeartbeats 2000000 in
/-- The expansion array candidate of the allocation phase is a zeroed block of
`indx_count` slots, and a submission of path 2 from a page without expansion
array carries a candidate. -/
theorem col_del_alloc_candidate (idb : IDB) (toc : WT_TOC) (al : Calloc) (m : Mem) (f : Frame)
    (x : Except Int Submission) (hfresh : al.Fresh idb m)
    (h : col_del_alloc idb toc al m = some (f, x)) :
    (f.new_expcol ≠ 0 →
        f.mem.expArr f.new_expcol = some (List.replicate m.page.indx_count 0)) ∧
      (∀ sub, x = .ok sub → col_del_path idb toc = Path.two → m.page.expcol = 0 →
        f.new_expcol ≠ 0) := by
  obtain ⟨oa, oe, orr⟩ := al
  obtain ⟨hfr, hfe, hfa⟩ := hfresh
  simp only [FreshIn] at hfr hfe hfa
  have hr : ∀ r, orr = some r → r ≠ 0 ∧ m.repls r = none := hfr
  have he : ∀ e, oe = some e → e ≠ 0 ∧ m.exps e = none := hfe
  clear hfr hfe
  revert f x
  unfold col_del_alloc
  cases hpath : col_del_path idb toc <;> simp only [hpath]
  · have hcomp := (col_del_path_one idb toc).1 hpath
    simp only [hcomp, if_true] at hfa
    by_cases h0 : m.page.repl = 0 <;> rcases oa with _ | a <;> rcases orr with _ | r <;>
      intro f x h <;>
      simp [h0, calloc_new_repl, calloc_repl, Frame.init, WT_ENOMEM, store_repl_data,
        hr, hfa] at h <;>
      obtain ⟨rfl, rfl⟩ := h <;>
      simp_all
  · have hcomp := (col_del_path_two idb toc).1 hpath
    simp [hcomp.1] at hfa
    by_cases h0 : m.page.expcol = 0 <;> rcases oa with _ | a <;> rcases oe with _ | e <;>
        rcases orr with _ | r <;>
      intro f x h <;>
      simp [h0, calloc_new_expcol, calloc_exp, calloc_repl, Frame.init, WT_ENOMEM,
        store_repl_data, store_exp_fields, hr, he, hfa] at h <;>
      obtain ⟨rfl, rfl⟩ := h <;>
      simp_all
  · rcases orr with _ | r <;>
      intro f x h <;>
      simp [calloc_repl, Frame.init, WT_ENOMEM, store_repl_data, hr] at h <;>
      obtain ⟨rfl, rfl⟩ := h <;>
      simp_all


/-- A run of a server function keeps the page's expansion array well formed:
the slot count does not change, an array pointer that is set stays, and the
array is an allocated block of `indx_count` slots, provided an adopted candidate
has that many slots. -/
theorem serialize_expcolOK (S : Mem) (sub : Submission) (ret : Int) (M : Mem)
    (h : serialize S sub = some (ret, M)) (hok : S.ExpcolOK)
    (hcand : ∀ slot a e arr, sub = .rcc_expand slot a e → S.page.expcol = 0 → a ≠ 0 →
      S.expArr a = some arr → arr.length = S.page.indx_count) :
    M.ExpcolOK ∧ M.page.indx_count = S.page.indx_count ∧
      (S.page.expcol ≠ 0 → M.page.expcol = S.page.expcol) ∧
      (∀ p, p ≠ M.page.expcol → M.expArr p = S.expArr p) := by
  cases sub with
  | update slot a r =>
    obtain ⟨arr, _, hp, harr, hs, _, _⟩ := update_func_inv S slot a r ret M h
    obtain ⟨M2, hM2, _, p2, p3, _, _, p6, _⟩ := update_func_run S slot a r arr hp harr hs
    have hMM : M = M2 := by
      have h3 : __wt_bt_update_serial_func S slot a r = some (ret, M) := h
      rw [hM2] at h3
      simp only [Option.some.injEq, Prod.mk.injEq] at h3
      exact h3.2.symm
    subst hMM
    refine ⟨?_, p3, fun _ => p2, fun p _ => by rw [p6]⟩
    intro h0
    rw [p2] at h0 ⊢
    rw [p6, p3]
    exact hok h0
  | rcc_expand slot a e =>
    obtain ⟨arr, c, hp, harr, hs, he0, hc⟩ := rcc_expand_func_inv S slot a e ret M h
    have heq := rcc_expand_func_eq S slot a e arr c hp harr hs he0 hc
    have h3 : __wt_bt_rcc_expand_serial_func S slot a e = some (ret, M) := h
    rw [heq] at h3
    simp only [Option.some.injEq, Prod.mk.injEq] at h3
    obtain ⟨_, hM⟩ := h3
    subst hM
    have hlen : arr.length = S.page.indx_count := by
      by_cases h0 : S.page.expcol = 0
      · rw [rcc_expand_adopt_absent S a h0] at hp harr
        exact hcand slot a e arr rfl h0 hp harr
      · rw [rcc_expand_adopt_present S a h0] at harr
        obtain ⟨arr2, h2, hl⟩ := hok h0
        rw [h2] at harr
        cases harr
        exact hl
    refine ⟨?_, by simp, ?_, ?_⟩
    · intro _
      exact ⟨arr.set slot e, by simp, by simpa using hlen⟩
    · intro h0
      simp [rcc_expand_adopt_present S a h0]
    · intro p hp2
      have : p ≠ (rcc_expand_adopt S a).page.expcol := by simpa using hp2
      simp [Function.update, this]
  | rcc_expand_repl e r =>
    obtain ⟨c, r0, he0, hc, hr0, hr⟩ := rcc_expand_repl_func_inv S e r ret M h
    have heq := rcc_expand_repl_func_eq S e r c r0 he0 hc hr0 hr
    have h3 : __wt_bt_rcc_expand_repl_serial_func S e r = some (ret, M) := h
    rw [heq] at h3
    simp only [Option.some.injEq, Prod.mk.injEq] at h3
    obtain ⟨_, hM⟩ := h3
    subst hM
    refine ⟨?_, by simp, fun _ => by simp, fun p _ => by simp⟩
    intro h0
    simpa using hok (by simpa using h0)

/-- The outcomes of a call of `__wt_db_col_del` with fresh allocations: the
heap is as before (failed search or failed allocation), or the call made a
submission, the work queue ran it and the call went through `done`. -/
theorem col_del_cases (idb : IDB) (search : Mem → Nat → Int × WT_TOC) (al : Calloc)
    (m : Mem) (recno : Nat) (res : DelResult) (hfresh : al.Fresh idb m)
    (hrun : __wt_db_col_del idb search al m recno = some res) :
    res.mem = m ∨
      ∃ f sub ret m1, col_del_alloc idb (search m recno).2 al m = some (f, .ok sub) ∧
        serialize f.mem sub = some (ret, m1) ∧
        res = col_del_done idb (search m recno).2 ret
          { f with mem := m1, trace := f.trace ++ [sub.event] } := by
  by_cases hs : (search m recno).1 ≠ 0
  · rw [col_del_search_fail idb search al m recno hs] at hrun
    cases hrun
    exact Or.inl rfl
  · simp only [__wt_db_col_del, hs, if_false] at hrun
    split at hrun
    · cases hrun
    · split at hrun
      · cases hrun
      · rename_i f ret hal
        cases hrun
        have hH := col_del_alloc_holds idb _ al m f _ hfresh hal
        exact Or.inl (col_del_unwind_mem idb _ ret f m hH)
      · rename_i f sub hal
        split at hrun
        · cases hrun
        · rename_i ret2 m1 hser
          cases hrun
          exact Or.inr ⟨f, sub, ret2, m1, hal, hser, rfl⟩

/-- A call of `__wt_db_col_del` keeps the page's expansion array well formed
and frees no expansion cell that was allocated before the call. -/
theorem col_del_preserves (idb : IDB) (search : Mem → Nat → Int × WT_TOC) (al : Calloc)
    (m : Mem) (recno : Nat) (res : DelResult) (hfresh : al.Fresh idb m)
    (hrun : __wt_db_col_del idb search al m recno = some res) (hok : m.ExpcolOK) :
    res.mem.ExpcolOK ∧ res.mem.page.indx_count = m.page.indx_count ∧
      (m.page.expcol ≠ 0 → res.mem.page.expcol = m.page.expcol) ∧
      (∀ p, m.exps p ≠ none → res.mem.exps p ≠ none) := by
  rcases col_del_cases idb search al m recno res hfresh hrun with hm | ⟨f, sub, ret, m1, hal,
    hser, hres⟩
  · rw [hm]
    exact ⟨hok, rfl, fun _ => rfl, fun _ h => h⟩
  · have hH := col_del_alloc_holds idb _ al m f _ hfresh hal
    obtain ⟨hcz, _⟩ := col_del_alloc_candidate idb _ al m f _ hfresh hal
    have hshape := col_del_alloc_sub idb _ al m f sub hal
    have hfok : f.mem.ExpcolOK := by
      intro h0
      rw [hH.page] at h0 ⊢
      obtain ⟨arr, harr, hlen⟩ := hok h0
      have hn : f.new_expcol = 0 := by
        by_contra hne
        exact h0 (hH.expcol_fresh hne).2
      exact ⟨arr, by rw [hH.expArr _ (Or.inr hn)]; exact harr, hlen⟩
    obtain ⟨mok, mic, mpg, marr⟩ := serialize_expcolOK f.mem sub ret m1 hser hfok (by
      intro slot a e arr hsub h0 ha0 harr
      subst hsub
      have ha : a = f.new_expcol := by
        cases hpath : col_del_path idb (search m recno).2 <;> simp only [hpath] at hshape
        · cases hshape
        · cases hshape; rfl
        · cases hshape
      subst ha
      rw [hcz ha0] at harr
      cases harr
      rw [hH.page]
      simp)
    obtain ⟨_, _, hex, _⟩ := serialize_facts f.mem sub ret m1 hser
    subst hres
    refine ⟨?_, ?_, ?_, ?_⟩
    · intro h0
      rw [col_del_done_page] at h0 ⊢
      rw [col_del_done_expArr]
      obtain ⟨arr, harr, hlen⟩ := mok h0
      refine ⟨arr, ?_, hlen⟩
      by_cases hc : f.new_expcol ≠ 0 ∧ f.new_expcol ≠ m1.page.expcol
      · rw [if_pos hc, Function.update_noteq (Ne.symm hc.2)]
        exact harr
      · rw [if_neg hc]
        exact harr
    · rw [col_del_done_page]
      simpa [hH.page] using mic
    · intro h0
      rw [col_del_done_page]
      have := mpg (by rw [hH.page]; exact h0)
      simpa [hH.page] using this
    · intro p hp
      rw [col_del_done_exps]
      intro hn
      have h1 : f.mem.exps p = none := (hex p).1 hn
      by_cases hpe : p ≠ f.exp ∨ f.exp = 0
      · rw [hH.exps p hpe] at h1
        exact hp h1
      · have hpe2 : p = f.exp ∧ f.exp ≠ 0 := by
          constructor
          · by_contra hh; exact hpe (Or.inl hh)
          · intro hh; exact hpe (Or.inr hh)
        rw [hpe2.1] at hp
        exact hp (hH.exp_fresh hpe2.2)


/-- A sequence of calls of `__wt_db_col_del` keeps the page's expansion array
well formed and frees no expansion cell that was allocated before. -/
theorem col_del_calls_preserves (idb : IDB) :
    ∀ (cs : List ((Mem → Nat → Int × WT_TOC) × Calloc × Nat)) (m M : Mem),
      CallsFresh idb cs m → col_del_calls idb cs m = some M → m.ExpcolOK →
      M.ExpcolOK ∧ M.page.indx_count = m.page.indx_count ∧
        (m.page.expcol ≠ 0 → M.page.expcol = m.page.expcol) ∧
        (∀ p, m.exps p ≠ none → M.exps p ≠ none) := by
  intro cs
  induction cs with
  | nil =>
    intro m M _ h hok
    simp only [col_del_calls, Option.some.injEq] at h
    subst h
    exact ⟨hok, rfl, fun _ => rfl, fun _ h => h⟩
  | cons c cs ih =>
    intro m M hf h hok
    obtain ⟨search, al, recno⟩ := c
    obtain ⟨hf1, hf2⟩ := hf
    simp only [col_del_calls] at h
    cases hr : __wt_db_col_del idb search al m recno with
    | none => simp [hr] at h
    | some res =>
      simp only [hr] at h
      obtain ⟨a1, a2, a3, a4⟩ := col_del_preserves idb search al m recno res hf1 hr hok
      obtain ⟨b1, b2, b3, b4⟩ := ih res.mem M (hf2 res hr) h a1
      refine ⟨b1, by rw [b2, a2], ?_, fun p hp => b4 p (a4 p hp)⟩
      intro h0
      rw [b3 (by rw [a3 h0]; exact h0), a3 h0]

/-! ## The one submission of a call -/

/-- The allocation phase ends with a submission when every allocation it
attempts succeeds. -/
theorem col_del_alloc_ok (idb : IDB) (toc : WT_TOC) (al : Calloc) (m : Mem)
    (hfresh : al.Fresh idb m) (hal : ¬ allocFails idb toc al m) :
    ∃ f sub, col_del_alloc idb toc al m = some (f, .ok sub) := by
  obtain ⟨oa, oe, orr⟩ := al
  obtain ⟨hfr, hfe, hfa⟩ := hfresh
  simp only [FreshIn] at hfr hfe hfa
  unfold allocFails at hal
  cases hpath : col_del_path idb toc <;> simp only [hpath] at hal
  · have hcomp := (col_del_path_one idb toc).1 hpath
    simp only [hcomp, if_true] at hfa
    push_neg at hal
    obtain ⟨r, hr⟩ := Option.ne_none_iff_exists'.1 hal.2
    subst hr
    by_cases h0 : m.page.repl = 0
    · obtain ⟨a, ha⟩ := Option.ne_none_iff_exists'.1 (hal.1 h0)
      subst ha
      exact ⟨_, _, col_del_alloc_plain_absent idb toc m oe a r hcomp h0 (hfr r rfl).1⟩
    · exact ⟨_, _, col_del_alloc_plain_present idb toc m oa oe r hcomp h0 (hfr r rfl).1⟩
  · have hcomp := (col_del_path_two idb toc).1 hpath
    push_neg at hal
    obtain ⟨e, he⟩ := Option.ne_none_iff_exists'.1 hal.2.1
    obtain ⟨r, hr⟩ := Option.ne_none_iff_exists'.1 hal.2.2
    subst he hr
    by_cases h0 : m.page.expcol = 0
    · obtain ⟨a, ha⟩ := Option.ne_none_iff_exists'.1 (hal.1 h0)
      subst ha
      exact ⟨_, _, col_del_alloc_rcc_new_absent idb toc m a e r hcomp.1 hcomp.2 h0
        (hfe e rfl).1 (hfr r rfl).1⟩
    · exact ⟨_, _, col_del_alloc_rcc_new_present idb toc m oa e r hcomp.1 hcomp.2 h0
        (hfe e rfl).1 (hfr r rfl).1⟩
  · have hcomp := (col_del_path_three idb toc).1 hpath
    obtain ⟨r, hr⟩ := Option.ne_none_iff_exists'.1 hal
    subst hr
    exact ⟨_, _, col_del_alloc_rcc_old idb toc m oa oe r hcomp.1 hcomp.2 (hfr r rfl).1⟩

/-- A list of allocator outcomes holds no submission. -/
theorem filter_submit_callocs (l : List Event) (h : ∀ ev ∈ l, ev.isCalloc = true) :
    l.filter Event.isSubmit = [] := by
  rw [List.filter_eq_nil_iff]
  intro ev hev
  have := h ev hev
  cases ev <;> simp_all [Event.isCalloc, Event.isSubmit]

/-- The trace of a call that made a submission holds that submission and no
other. -/
theorem col_del_submits_once (idb : IDB) (search : Mem → Nat → Int × WT_TOC) (al : Calloc)
    (m : Mem) (recno : Nat) (toc : WT_TOC) (f : Frame) (sub : Submission) (res : DelResult)
    (hsearch : search m recno = (0, toc))
    (hal : col_del_alloc idb toc al m = some (f, .ok sub))
    (hrun : __wt_db_col_del idb search al m recno = some res) :
    res.trace.filter Event.isSubmit = [sub.event] ∧
      ∃ ret M, serialize f.mem sub = some (ret, M) := by
  simp only [__wt_db_col_del, hsearch] at hrun
  simp only [ne_eq, not_true_eq_false, if_false, hal] at hrun
  split at hrun
  · cases hrun
  · split at hrun
    · cases hrun
    · rename_i ret m1 hser
      cases hrun
      refine ⟨?_, ret, m1, hser⟩
      rw [col_del_done_trace]
      simp only [List.filter_append,
        filter_submit_callocs f.trace (col_del_alloc_only_callocs idb toc al m f _ hal)]
      have hsev : sub.event.isSubmit = true := by cases sub <;> rfl
      have e1 : ∀ (c : Prop) [Decidable c] (ev : Event), ev.isSubmit = false →
          List.filter Event.isSubmit (if c then [ev] else []) = [] := by
        intro c _ ev hev
        by_cases hc : c
        · rw [if_pos hc]; simp [hev]
        · rw [if_neg hc]; rfl
      rw [e1 _ (Event.free_expcol f.new_expcol) rfl, e1 _ (Event.free_replarr f.new_repl) rfl,
        e1 _ (Event.page_out toc.srch_page (if ret = 0 then WT_MODIFIED else 0)) rfl]
      simp [hsev]

/-! ## Ownership among other calls -/

/-- A call of `__wt_db_col_del` with fresh allocations frees no block that was
allocated before the call. -/
theorem col_del_keeps (idb : IDB) (search : Mem → Nat → Int × WT_TOC) (al : Calloc)
    (m : Mem) (recno : Nat) (res : DelResult) (hfresh : al.Fresh idb m)
    (hrun : __wt_db_col_del idb search al m recno = some res) : m.keptIn res.mem := by
  by_cases hs : (search m recno).1 ≠ 0
  · rw [col_del_search_fail idb search al m recno hs] at hrun
    cases hrun
    exact fun p => ⟨id, id, id, id⟩
  · have hsearch : search m recno = (0, (search m recno).2) := by
      have : (search m recno).1 = 0 := by simpa using hs
      rw [← this]
    have O := col_del_ownership idb search al m recno _ res hsearch hfresh hrun
    exact fun p => ⟨O.old_repls p, O.old_exps p, O.old_expArr p, O.old_replArr p⟩

/-- The same for a sequence of calls. -/
theorem col_del_calls_keeps (idb : IDB) :
    ∀ (cs : List ((Mem → Nat → Int × WT_TOC) × Calloc × Nat)) (m M : Mem),
      CallsFresh idb cs m → col_del_calls idb cs m = some M → m.keptIn M := by
  intro cs
  induction cs with
  | nil =>
    intro m M _ h
    simp only [col_del_calls, Option.some.injEq] at h
    subst h
    exact fun p => ⟨id, id, id, id⟩
  | cons c cs ih =>
    intro m M hf h
    obtain ⟨search, al, recno⟩ := c
    obtain ⟨hf1, hf2⟩ := hf
    simp only [col_del_calls] at h
    cases hr : __wt_db_col_del idb search al m recno with
    | none => simp [hr] at h
    | some res =>
      simp only [hr] at h
      have a := col_del_keeps idb search al m recno res hf1 hr
      have b := ih res.mem M (hf2 res hr) h
      exact fun p => ⟨fun x => (b p).1 ((a p).1 x), fun x => (b p).2.1 ((a p).2.1 x),
        fun x => (b p).2.2.1 ((a p).2.2.1 x), fun x => (b p).2.2.2 ((a p).2.2.2 x)⟩

/-- A call of `__wt_db_col_del` with fresh allocations leaves a record on the
replacement list of an expansion cell on that list. -/
theorem col_del_replOn (idb : IDB) (search : Mem → Nat → Int × WT_TOC) (al : Calloc)
    (S : Mem) (recno : Nat) (res : DelResult) (e r : Ptr) (hfresh : al.Fresh idb S)
    (hrun : __wt_db_col_del idb search al S recno = some res) (h : S.replOn e r) :
    res.mem.replOn e r := by
  rcases col_del_cases idb search al S recno res hfresh hrun with hm | ⟨f, sub, ret, m1, hal,
    hser, hres⟩
  · rw [hm]; exact h
  · obtain ⟨c, L, hc, hL, hr⟩ := h
    have hH := col_del_alloc_holds idb _ al S f _ hfresh hal
    have hshape := col_del_alloc_sub idb _ al S f sub hal
    have hLa := chain_allocated _ _ _ _ hL
    -- the frame's heap
    have hne : f.exp ≠ 0 → e ≠ f.exp := by
      intro h0 he
      have := hH.exp_fresh h0
      rw [← he, hc] at this
      cases this
    have hce : f.mem.exps e = some c := by
      rw [hH.exps e (by by_cases h0 : f.exp = 0; exact Or.inr h0; exact Or.inl (hne h0))]
      exact hc
    have hnr : f.repl ≠ 0 → f.repl ∉ L := by
      intro h0 hmem
      exact hLa _ hmem (hH.repl_fresh h0)
    have hLf : replChain f.mem.repls c.repl L = true := by
      refine chain_congr _ S.repls _ L _ ?_ hL
      intro a ha
      refine hH.repls a ?_
      by_cases h0 : f.repl = 0
      · exact Or.inr h0
      · exact Or.inl (fun h => hnr h0 (h ▸ ha))
    subst hres
    unfold Mem.replOn
    rw [col_del_done_exps, col_del_done_repls]
    simp only
    cases sub with
    | update slot a r2 =>
      obtain ⟨_, _, _, _, _, _, _, hrp, hex, _⟩ := update_func_inv f.mem slot a r2 ret m1 hser
      exact ⟨c, L, by rw [hex]; exact hce, by rw [hrp]; exact hLf, hr⟩
    | rcc_expand slot a e2 =>
      obtain ⟨arr, c2, hp, harr, hs, he0, hc2⟩ := rcc_expand_func_inv f.mem slot a e2 ret m1 hser
      have heq := rcc_expand_func_eq f.mem slot a e2 arr c2 hp harr hs he0 hc2
      have h3 : __wt_bt_rcc_expand_serial_func f.mem slot a e2 = some (ret, m1) := hser
      rw [heq] at h3
      simp only [Option.some.injEq, Prod.mk.injEq] at h3
      obtain ⟨_, hM⟩ := h3
      subst hM
      have he2 : e2 = f.exp := by
        cases hpath : col_del_path idb (search S recno).2 <;> simp only [hpath] at hshape
        · cases hshape
        · cases hshape; rfl
        · cases hshape
      have : e ≠ e2 := by rw [he2]; exact hne (by rw [← he2]; exact he0)
      exact ⟨c, L, by simpa [Function.update, this] using hce, by simpa using hLf, hr⟩
    | rcc_expand_repl ex r2 =>
      obtain ⟨cx, r0, hx0, hcx, hr0, hrr⟩ := rcc_expand_repl_func_inv f.mem ex r2 ret m1 hser
      have heq := rcc_expand_repl_func_eq f.mem ex r2 cx r0 hx0 hcx hr0 hrr
      have h3 : __wt_bt_rcc_expand_repl_serial_func f.mem ex r2 = some (ret, m1) := hser
      rw [heq] at h3
      simp only [Option.some.injEq, Prod.mk.injEq] at h3
      obtain ⟨_, hM⟩ := h3
      subst hM
      have hr2 : r2 = f.repl := by
        cases hpath : col_del_path idb (search S recno).2 <;> simp only [hpath] at hshape
        · cases hshape
        · cases hshape
        · cases hshape; rfl
      have hnL : r2 ∉ L := by rw [hr2]; exact hnr (by rw [← hr2]; exact hr0)
      have hLm : replChain (Function.update f.mem.repls r2 (some { r0 with next := cx.repl }))
          c.repl L = true := by
        refine chain_congr _ f.mem.repls _ L _ ?_ hLf
        intro a ha
        have : a ≠ r2 := fun h => hnL (h ▸ ha)
        simp [Function.update, this]
      by_cases hxe : e = ex
      · subst hxe
        rw [hce] at hcx
        cases hcx
        refine ⟨{ c with repl := r2 }, r2 :: L, by simp, ?_, List.mem_cons_of_mem _ hr⟩
        unfold replChain
        rw [chain_cons]
        exact ⟨rfl, hr0, { r0 with next := c.repl }, by simp, by simpa [replChain] using hLm⟩
      · exact ⟨c, L, by simpa [Function.update, hxe] using hce, by simpa using hLm, hr⟩

/-- The same for a sequence of calls. -/
theorem col_del_calls_replOn (idb : IDB) :
    ∀ (cs : List ((Mem → Nat → Int × WT_TOC) × Calloc × Nat)) (m M : Mem) (e r : Ptr),
      CallsFresh idb cs m → col_del_calls idb cs m = some M → m.replOn e r → M.replOn e r := by
  intro cs
  induction cs with
  | nil =>
    intro m M e r _ h hh
    simp only [col_del_calls, Option.some.injEq] at h
    subst h
    exact hh
  | cons c cs ih =>
    intro m M e r hf h hh
    obtain ⟨search, al, recno⟩ := c
    obtain ⟨hf1, hf2⟩ := hf
    simp only [col_del_calls] at h
    cases hr : __wt_db_col_del idb search al m recno with
    | none => simp [hr] at h
    | some res =>
      simp only [hr] at h
      exact ih res.mem M e r (hf2 res hr) h
        (col_del_replOn idb search al m recno res e r hf1 hr hh)

/-- Ownership of a call that ran alone is ownership among no other calls. -/
theorem Ownership.owned (m : Mem) (toc : WT_TOC) (res : DelResult) (O : Ownership m toc res) :
    Owned m toc res :=
  { expcol_freed_iff := O.expcol_freed_iff
    expcol_freed := O.expcol_freed
    expcol_kept := O.expcol_kept
    replarr_freed_iff := O.replarr_freed_iff
    replarr_freed := O.replarr_freed
    replarr_kept := O.replarr_kept
    fail_frees_exp := O.fail_frees_exp
    fail_frees_repl := O.fail_frees_repl
    exp_freed := O.exp_freed
    exp_kept := O.exp_kept
    repl_freed := O.repl_freed
    repl_kept := fun p h1 h2 => by
      obtain ⟨a, b⟩ := O.repl_kept p h1 h2
      refine ⟨a, ?_⟩
      rcases b with b | b
      · exact Or.inl b
      · exact Or.inr (Or.inr b)
    old_exps := O.old_exps
    old_repls := O.old_repls
    old_expArr := O.old_expArr
    old_replArr := O.old_replArr }

/-- Ownership after a call that made its submission, when the server function
runs in a heap `M` in which the blocks of the frame are still allocated and the
tombstone of a new expansion cell is still on the cell's replacement list. -/
theorem owned_ok (idb : IDB) (toc : WT_TOC) (al : Calloc) (m : Mem) (f : Frame)
    (sub : Submission) (M : Mem) (ret : Int) (m1 : Mem) (hfresh : al.Fresh idb m)
    (h : col_del_alloc idb toc al m = some (f, .ok sub))
    (hK : f.mem.keptIn M)
    (hR : col_del_path idb toc = Path.two → M.replOn f.exp f.repl)
    (hser : serialize M sub = some (ret, m1)) :
    Owned m toc
      (col_del_done idb toc ret { f with mem := m1, trace := f.trace ++ [sub.event] }) := by
  have hH := col_del_alloc_holds idb toc al m f _ hfresh h
  obtain ⟨hcal, hfl, hte, htr, hta, htb⟩ := col_del_alloc_trace idb toc al m f _ hfresh h
  obtain ⟨ha1, ha2, ha3, ha4, hlocAll⟩ := col_del_alloc_locals idb toc al m f _ hfresh h
  obtain ⟨hr0, hloc⟩ := hlocAll sub rfl
  clear hlocAll
  have hshape := col_del_alloc_sub idb toc al m f sub h
  obtain ⟨_, hd1, hd2, hd3, hd4, hpub⟩ := serialize_facts M sub ret m1 hser
  have hnc : ∀ ev : Event, ev.isCalloc = false → ev ∉ f.trace := by
    intro ev hev hmem
    rw [hcal ev hmem] at hev
    cases hev
  have hn1 := fun p => hnc (Event.free_exp p) rfl
  have hn2 := fun p => hnc (Event.free_repl p) rfl
  have hn3 := fun p => hnc (Event.free_expcol p) rfl
  have hn4 := fun p => hnc (Event.free_replarr p) rfl
  have hnf : Event.calloc_fail ∉ f.trace := by
    intro hmem
    obtain ⟨r, hr⟩ := hfl.1 hmem
    cases hr
  have hsev : sub.event.isSubmit = true := by cases sub <;> rfl
  have hs1 : ∀ p, Event.calloc_exp p ≠ sub.event := by
    intro p hp; rw [← hp] at hsev; cases hsev
  have hs2 : ∀ p, Event.calloc_repl p ≠ sub.event := by
    intro p hp; rw [← hp] at hsev; cases hsev
  have hs3 : ∀ p, Event.calloc_new_expcol p ≠ sub.event := by
    intro p hp; rw [← hp] at hsev; cases hsev
  have hs4 : ∀ p, Event.calloc_new_repl p ≠ sub.event := by
    intro p hp; rw [← hp] at hsev; cases hsev
  have hs5 : ∀ p, Event.free_exp p ≠ sub.event := by
    intro p hp; rw [← hp] at hsev; cases hsev
  have hs6 : ∀ p, Event.free_repl p ≠ sub.event := by
    intro p hp; rw [← hp] at hsev; cases hsev
  have hs7 : ∀ p, Event.free_expcol p ≠ sub.event := by
    intro p hp; rw [← hp] at hsev; cases hsev
  have hs8 : ∀ p, Event.free_replarr p ≠ sub.event := by
    intro p hp; rw [← hp] at hsev; cases hsev
  have hs9 : Event.calloc_fail ≠ sub.event := by
    intro hp; rw [← hp] at hsev; cases hsev
  constructor
  all_goals
    simp only [done_trace_mem, col_del_done_page, col_del_done_repls, col_del_done_exps,
      col_del_done_expArr, col_del_done_replArr, List.mem_append, List.mem_singleton]
  all_goals simp [hn1, hn2, hn3, hn4, hnf, hs1, hs2, hs3, hs4, hs5, hs6, hs7, hs8, hs9,
      hte, htr, hta, htb]
  case expcol_freed_iff => intro a _; exact a
  case expcol_freed =>
    intro p h1 h2 h3
    subst h3
    simp [h1, h2]
  case expcol_kept =>
    intro h1 h2
    have h3 : ¬(¬f.new_expcol = 0 ∧ ¬f.new_expcol = m1.page.expcol) := fun hc => hc.2 (h2 h1)
    simp only [h3, if_false]
    exact fun hn => (hK _).2.2.1 (ha3 h1) ((hd3 _).1 hn)
  case replarr_freed_iff => intro a _; exact a
  case replarr_freed =>
    intro p h1 h2 h3
    subst h3
    simp [h1, h2]
  case replarr_kept =>
    intro h1 h2
    have h3 : ¬(¬f.new_repl = 0 ∧ ¬f.new_repl = m1.page.repl) := fun hc => hc.2 (h2 h1)
    simp only [h3, if_false]
    exact fun hn => (hK _).2.2.2 (ha4 h1) ((hd4 _).1 hn)
  case exp_kept =>
    intro h1
    refine ⟨fun hn => (hK _).2.1 (ha1 h1) ((hd2 _).1 hn), ?_⟩
    rw [col_del_done_expHead]
    cases hpath : col_del_path idb toc <;> simp only [hpath] at hloc hshape
    · exact absurd hloc.1 h1
    · subst hshape
      exact hpub.2.2.1
    · exact absurd hloc.1 h1
  case repl_kept =>
    intro h1
    refine ⟨fun hn => (hK _).1 (ha2 h1) ((hd1 _).1 hn), ?_⟩
    unfold Mem.holdsRepl
    simp only [col_del_done_exps, col_del_done_replAt, col_del_done_repls]
    cases hpath : col_del_path idb toc <;> simp only [hpath] at hloc hshape
    · subst hshape
      exact Or.inr (Or.inr ⟨toc.srch_slot, hpub.2.2⟩)
    · subst hshape
      obtain ⟨c, L, hc, hL, hrL⟩ := hR hpath
      obtain ⟨arr, c0, hp, harr, hs, he0, hc0⟩ :=
        rcc_expand_func_inv M toc.srch_slot f.new_expcol f.exp ret m1 hser
      have heq := rcc_expand_func_eq M toc.srch_slot f.new_expcol f.exp arr c0 hp harr hs he0 hc0
      have h3 : __wt_bt_rcc_expand_serial_func M toc.srch_slot f.new_expcol f.exp =
          some (ret, m1) := hser
      rw [heq] at h3
      simp only [Option.some.injEq, Prod.mk.injEq] at h3
      obtain ⟨_, hM⟩ := h3
      subst hM
      rw [hc] at hc0
      cases hc0
      exact Or.inr (Or.inl ⟨f.exp, { c with next := arr.getD toc.srch_slot 0 }, L, by simp,
        by simpa using hL, hrL⟩)
    · subst hshape
      obtain ⟨c, hc, hcr⟩ := hpub.2.2
      exact Or.inl ⟨toc.srch_exp, c, hc, hcr⟩
  case old_exps =>
    intro p hp hn
    exact (hK _).2.1
      (holds_old m.exps f.mem.exps f.exp p hH.exps hH.exp_fresh hp).1 ((hd2 _).1 hn)
  case old_repls =>
    intro p hp hn
    exact (hK _).1
      (holds_old m.repls f.mem.repls f.repl p hH.repls hH.repl_fresh hp).1 ((hd1 _).1 hn)
  case old_expArr =>
    intro p hp
    obtain ⟨h1, h2⟩ := holds_old m.expArr f.mem.expArr f.new_expcol p hH.expArr
      (fun h => (hH.expcol_fresh h).1) hp
    by_cases hc : ¬f.new_expcol = 0 ∧ ¬f.new_expcol = m1.page.expcol
    · rw [if_pos hc, Function.update_noteq (h2 hc.1)]
      exact fun hn => (hK _).2.2.1 h1 ((hd3 _).1 hn)
    · simp only [hc, if_false]
      exact fun hn => (hK _).2.2.1 h1 ((hd3 _).1 hn)
  case old_replArr =>
    intro p hp
    obtain ⟨h1, h2⟩ := holds_old m.replArr f.mem.replArr f.new_repl p hH.replArr
      (fun h => (hH.new_repl_fresh h).1) hp
    by_cases hc : ¬f.new_repl = 0 ∧ ¬f.new_repl = m1.page.repl
    · rw [if_pos hc, Function.update_noteq (h2 hc.1)]
      exact fun hn => (hK _).2.2.2 h1 ((hd4 _).1 hn)
    · simp only [hc, if_false]
      exact fun hn => (hK _).2.2.2 h1 ((hd4 _).1 hn)


/-- Among no other calls, `col_del_among` is `__wt_db_col_del`. -/
theorem col_del_among_nil (idb : IDB) (search : Mem → Nat → Int × WT_TOC) (al : Calloc)
    (m : Mem) (recno : Nat) :
    col_del_among idb search al [] m recno = __wt_db_col_del idb search al m recno := by
  unfold col_del_among __wt_db_col_del
  simp only [col_del_calls]

/-- Ownership after any call of `__wt_db_col_del` that passed the search and
ran among other calls. -/
theorem col_del_among_owned (idb : IDB) (search : Mem → Nat → Int × WT_TOC) (al : Calloc)
    (between : List ((Mem → Nat → Int × WT_TOC) × Calloc × Nat))
    (m : Mem) (recno : Nat) (toc : WT_TOC) (res : DelResult)
    (hsearch : search m recno = (0, toc)) (hfresh : al.Fresh idb m)
    (hbetween : ∀ f x, col_del_alloc idb toc al m = some (f, x) → CallsFresh idb between f.mem)
    (hrun : col_del_among idb search al between m recno = some res) : Owned m toc res := by
  simp only [col_del_among, hsearch] at hrun
  simp only [ne_eq, not_true_eq_false, if_false] at hrun
  split at hrun
  · cases hrun
  · split at hrun
    · cases hrun
    · rename_i f ret hal
      cases hrun
      exact (ownership_err idb toc al m f ret hfresh hal).owned
    · rename_i f sub hal
      split at hrun
      · cases hrun
      · rename_i M hcalls
        split at hrun
        · cases hrun
        · rename_i ret m1 hser
          cases hrun
          have hbf := hbetween f _ hal
          refine owned_ok idb toc al m f sub M ret m1 hfresh hal
            (col_del_calls_keeps idb between f.mem M hbf hcalls) ?_ hser
          intro hpath
          refine col_del_calls_replOn idb between f.mem M f.exp f.repl hbf hcalls ?_
          obtain ⟨hrp, hex⟩ := col_del_alloc_initialised idb toc al m f sub hfresh hal
          obtain ⟨_, _, _, _, hloc⟩ := col_del_alloc_locals idb toc al m f _ hfresh hal
          have hr0 := (hloc sub rfl).1
          refine ⟨_, [f.repl], hex hpath, ?_, List.mem_singleton.2 rfl⟩
          unfold replChain
          rw [chain_cons]
          exact ⟨rfl, hr0, _, hrp, rfl⟩

/-! ## The claims -/

/-- C1: on a compressed store, for a record that the search reports as not yet
expanded (slot `s`, run offset `k`), when all allocations succeed
`__wt_db_col_del` with its install-expansion server function leaves
`expansion[s]` equal to one new entry in front of the previous list: the
entry has `rcc_offset = k`, its replacement list is one node holding the
deleted-marker, and its `next` is the previous head. -/
theorem col_del_installs_expansion
    (idb : IDB) (search : Mem → Nat → Int × WT_TOC) (al : Calloc) (m : Mem) (recno : Nat)
    (toc : WT_TOC) (e r : Ptr) (L : List Ptr)
    (hcomp : idb.repeat_comp = true)
    (hsearch : search m recno = (0, toc))
    (hpage : toc.srch_page ≠ 0)
    (hnew : toc.srch_repl = 0)
    (hslot : toc.srch_slot < m.page.indx_count)
    (hok : m.ExpcolOK)
    (harr : m.page.expcol = 0 → ∃ a, al.arr = some a ∧ a ≠ 0 ∧ m.expArr a = none)
    (hexp : al.exp = some e) (he0 : e ≠ 0) (hef : m.exps e = none)
    (hrepl : al.repl = some r) (hr0 : r ≠ 0) (hrf : m.repls r = none)
    (hL : expChain m.exps (m.expHead toc.srch_slot) L = true) :
    ∃ res, __wt_db_col_del idb search al m recno = some res ∧
      res.mem.expHead toc.srch_slot = e ∧
      res.mem.exps e = some ⟨toc.srch_rcc_offset, r, m.expHead toc.srch_slot⟩ ∧
      res.mem.repls r = some ⟨WT_REPL_DELETED_VALUE, 0⟩ ∧
      expChain res.mem.exps (res.mem.expHead toc.srch_slot) (e :: L) = true ∧
      replChain res.mem.repls r [r] = true ∧
      (∀ p, p ≠ e → res.mem.exps p = m.exps p) ∧
      (∀ p, p ≠ r → res.mem.repls p = m.repls p) ∧
      (∀ p l, replChain m.repls p l = true → replChain res.mem.repls p l = true) := by
  obtain ⟨res, arr, hrun, _, hp, ha, hget, _, hx, hr, _⟩ :=
    col_del_rcc_new_run idb search al m recno toc e r hcomp hsearch hpage hnew hslot hok harr
      hexp he0 hrepl hr0
  obtain ⟨hH, hch, hfr⟩ :=
    linked_chain_view m res.mem toc.srch_slot e ⟨toc.srch_rcc_offset, r, m.expHead toc.srch_slot⟩
      L arr hp ha hget hx rfl he0 hef hL
  refine ⟨res, hrun, hH, by simp [hx], by simp [hr], hch, ?_, hfr, ?_, ?_⟩
  · simp [replChain, chain, hr0, hr]
  · intro p hpr
    simp [hr, Function.update, hpr]
  · intro p l hl
    rw [hr]
    exact chain_update_fresh _ _ _ _ hrf l p hl

/-- C1 at the example of section 8: the first delete of record 105. -/
theorem col_del_installs_expansion_witness :
    ∃ res, __wt_db_col_del exIdb exSearch ⟨some 10, some 20, some 30⟩ exMem 105 = some res ∧
      res.mem.expHead 3 = 20 ∧
      res.mem.exps 20 = some ⟨5, 30, 0⟩ ∧
      res.mem.repls 30 = some ⟨WT_REPL_DELETED_VALUE, 0⟩ ∧
      expChain res.mem.exps (res.mem.expHead 3) [20] = true := by
  obtain ⟨res, h1, h2, h3, h4, h5, _⟩ :=
    col_del_installs_expansion exIdb exSearch ⟨some 10, some 20, some 30⟩ exMem 105
      ⟨2, 3, 0, 0, 5⟩ 20 30 [] rfl rfl (by decide) rfl (by decide)
      (fun h => absurd rfl h) (fun _ => ⟨10, rfl, by decide, rfl⟩)
      rfl (by decide) rfl rfl (by decide) rfl rfl
  exact ⟨res, h1, h2, h3, h4, h5⟩

/-- C2: on a compressed store, two successive deletes of a record that was not
yet expanded, the second search reporting the expansion entry created by the
first, leave the run's expansion list with exactly one more entry than before
(the new entry in front of the old list), and that entry's replacement list
has exactly two nodes, both tombstones, the node of the second delete first. -/
theorem col_del_twice_appends
    (idb : IDB) (search : Mem → Nat → Int × WT_TOC) (al1 al2 : Calloc) (m : Mem)
    (recno : Nat) (toc1 toc2 : WT_TOC) (e r1 r2 : Ptr) (L : List Ptr)
    (hcomp : idb.repeat_comp = true)
    (hsearch1 : search m recno = (0, toc1))
    (hpage1 : toc1.srch_page ≠ 0)
    (hnew : toc1.srch_repl = 0)
    (hslot : toc1.srch_slot < m.page.indx_count)
    (hok : m.ExpcolOK)
    (harr : m.page.expcol = 0 → ∃ a, al1.arr = some a ∧ a ≠ 0 ∧ m.expArr a = none)
    (hexp : al1.exp = some e) (he0 : e ≠ 0) (hef : m.exps e = none)
    (hrepl1 : al1.repl = some r1) (hr10 : r1 ≠ 0) (hr1f : m.repls r1 = none)
    (hL : expChain m.exps (m.expHead toc1.srch_slot) L = true)
    (hsearch2 : ∀ res1, __wt_db_col_del idb search al1 m recno = some res1 →
      search res1.mem recno = (0, toc2))
    (hpage2 : toc2.srch_page ≠ 0)
    (hold : toc2.srch_repl ≠ 0)
    (hexp2 : toc2.srch_exp = e)
    (hrepl2 : al2.repl = some r2) (hr20 : r2 ≠ 0) (hr2f : m.repls r2 = none)
    (hne : r2 ≠ r1) :
    ∃ res1 res2, __wt_db_col_del idb search al1 m recno = some res1 ∧
      __wt_db_col_del idb search al2 res1.mem recno = some res2 ∧
      expChain res2.mem.exps (res2.mem.expHead toc1.srch_slot) (e :: L) = true ∧
      (e :: L).length = L.length + 1 ∧
      res2.mem.exps e = some ⟨toc1.srch_rcc_offset, r2, m.expHead toc1.srch_slot⟩ ∧
      replChain res2.mem.repls r2 [r2, r1] = true ∧
      res2.mem.repls r2 = some ⟨WT_REPL_DELETED_VALUE, r1⟩ ∧
      res2.mem.repls r1 = some ⟨WT_REPL_DELETED_VALUE, 0⟩ ∧
      (∀ p, Event.calloc_exp p ∉ res2.trace) ∧
      (∀ p l, replChain m.repls p l = true → replChain res2.mem.repls p l = true) := by
  obtain ⟨res1, arr, hrun1, _, hp, ha, hget, _, hx, hr, _⟩ :=
    col_del_rcc_new_run idb search al1 m recno toc1 e r1 hcomp hsearch1 hpage1 hnew hslot hok
      harr hexp he0 hrepl1 hr10
  have hs2 := hsearch2 res1 hrun1
  obtain ⟨res2, hrun2, _, hx2, hr2, ha2, _, hp2, _, _, htr⟩ :=
    col_del_rcc_old_run idb search al2 res1.mem recno toc2 r2
      ⟨toc1.srch_rcc_offset, r1, m.expHead toc1.srch_slot⟩ hcomp hs2 hpage2 hold
      (by rw [hexp2]; exact he0) (by rw [hexp2, hx]; simp) hrepl2 hr20
  rw [hexp2, hx, Function.update_idem] at hx2
  simp only at hx2
  rw [hr] at hr2
  obtain ⟨_, hch, _⟩ :=
    linked_chain_view m res2.mem toc1.srch_slot e
      ⟨toc1.srch_rcc_offset, r2, m.expHead toc1.srch_slot⟩ L arr
      (by rw [hp2]; exact hp) (by rw [hp2, ha2]; exact ha) hget hx2 rfl he0 hef hL
  have h1 : res2.mem.repls r1 = some ⟨WT_REPL_DELETED_VALUE, 0⟩ := by
    simp [hr2, Function.update, hne.symm]
  have h2 : res2.mem.repls r2 = some ⟨WT_REPL_DELETED_VALUE, r1⟩ := by
    simp [hr2]
  refine ⟨res1, res2, hrun1, hrun2, hch, rfl, by simp [hx2], ?_, h2, h1, ?_, ?_⟩
  · simp [replChain, chain, hr20, hr10, h1, h2]
  · intro p
    rw [htr]
    split <;> simp
  · intro p l hl
    rw [hr2]
    exact chain_update_fresh _ _ _ _ (by simp [Function.update, hne, hr2f]) l p
      (chain_update_fresh _ _ _ _ hr1f l p hl)

/-- C2 at the example of section 8: record 105 deleted twice. -/
theorem col_del_twice_appends_witness :
    ∃ res1 res2,
      __wt_db_col_del exIdb exSearch ⟨some 10, some 20, some 30⟩ exMem 105 = some res1 ∧
      __wt_db_col_del exIdb exSearch ⟨none, none, some 31⟩ res1.mem 105 = some res2 ∧
      expChain res2.mem.exps (res2.mem.expHead 3) [20] = true ∧
      res2.mem.exps 20 = some ⟨5, 31, 0⟩ ∧
      replChain res2.mem.repls 31 [31, 30] = true := by
  obtain ⟨res1, res2, h1, h2, h3, _, h4, h5, _⟩ :=
    col_del_twice_appends exIdb exSearch ⟨some 10, some 20, some 30⟩ ⟨none, none, some 31⟩
      exMem 105 ⟨2, 3, 0, 0, 5⟩ ⟨2, 3, 30, 20, 5⟩ 20 30 31 [] rfl rfl (by decide) rfl
      (by decide) (fun h => absurd rfl h) (fun _ => ⟨10, rfl, by decide, rfl⟩)
      rfl (by decide) rfl rfl (by decide) rfl rfl
      (by
        intro res1 h
        have key : ∀ (o : Option DelResult) (x : DelResult), o = some res1 → o = some x →
            exSearch x.mem 105 = (0, ⟨2, 3, 30, 20, 5⟩) →
            exSearch res1.mem 105 = (0, ⟨2, 3, 30, 20, 5⟩) := by
          intro o x ho hx ht
          rw [ho] at hx
          cases hx
          exact ht
        exact key _ _ h rfl rfl)
      (by decide) (by decide) rfl rfl (by decide) rfl (by decide)
  exact ⟨res1, res2, h1, h2, h3, h4, h5⟩

/-- C3: for every `N >= 1` and every already-expanded record, after `N`
sequential deletes of that record (each one running the append-replacement
server function on the same expansion entry) the entry's replacement list is
the `N` new nodes, newest first, followed by the whole original list: the head
is the node appended last, and every new node and every original node is on
the list. -/
theorem col_del_seq_prepends
    (idb : IDB) (search : Mem → Nat → Int × WT_TOC) (recno : Nat) (e : Ptr)
    (als : List Calloc) (rs : List Ptr) (m : Mem) (c : WT_COL_EXPAND) (L0 : List Ptr)
    (hcomp : idb.repeat_comp = true) (he0 : e ≠ 0)
    (hsearch : ∀ m2 : Mem, m2.exps e ≠ none →
      ∃ toc, search m2 recno = (0, toc) ∧ toc.srch_page ≠ 0 ∧ toc.srch_repl ≠ 0 ∧
        toc.srch_exp = e)
    (hc : m.exps e = some c) (hL0 : replChain m.repls c.repl L0 = true)
    (hals : als.map Calloc.repl = rs.map some)
    (hN : 1 ≤ rs.length)
    (hnz : ∀ r ∈ rs, r ≠ 0) (hfr : ∀ r ∈ rs, m.repls r = none) (hnd : rs.Nodup) :
    ∃ M c2, col_del_seq idb search als m recno = some M ∧
      als.length = rs.length ∧
      M.exps e = some c2 ∧
      replChain M.repls c2.repl (rs.reverse ++ L0) = true ∧
      rs.getLast? = some c2.repl ∧
      (∀ r ∈ rs, r ∈ rs.reverse ++ L0 ∧ ∃ n, M.repls r = some ⟨WT_REPL_DELETED_VALUE, n⟩) ∧
      (∀ p ∈ L0, p ∈ rs.reverse ++ L0 ∧ M.repls p = m.repls p) := by
  obtain ⟨M, hM, hcM, hch, hnew, hold, _⟩ :=
    col_del_seq_run idb search recno e hcomp he0 hsearch rs als m c L0 hc hL0 hals hnz hfr hnd
  have hlen : als.length = rs.length := by
    have := congrArg List.length hals
    simpa using this
  have hhead : rs.getLast? = some ((rs.reverse ++ L0).headD c.repl) := by
    rw [← List.head?_reverse]
    cases hrev : rs.reverse with
    | nil =>
      have : rs = [] := by simpa using hrev
      subst this
      simp at hN
    | cons a t => rfl
  refine ⟨M, _, hM, hlen, hcM, hch, hhead, ?_, ?_⟩
  · intro r hr
    exact ⟨by simp [hr], hnew r hr⟩
  · intro p hp
    refine ⟨by simp [hp], hold p ?_⟩
    intro hpr
    exact chain_allocated _ _ _ _ hL0 p hp (hfr p hpr)

/-- C3 on the page of section 8 after the first delete: two more deletes of
record 105. -/
theorem col_del_seq_prepends_witness :
    ∃ M c2, col_del_seq exIdb exSearchOld [⟨none, none, some 31⟩, ⟨none, none, some 32⟩]
        exMem1 105 = some M ∧
      M.exps 20 = some c2 ∧
      replChain M.repls c2.repl [32, 31, 30] = true ∧
      c2.repl = 32 := by
  obtain ⟨M, c2, h1, _, h2, h3, h4, _⟩ :=
    col_del_seq_prepends exIdb exSearchOld 105 20
      [⟨none, none, some 31⟩, ⟨none, none, some 32⟩] [31, 32] exMem1 ⟨5, 30, 0⟩ [30]
      rfl (by decide)
      (fun _ _ => ⟨⟨2, 3, 30, 20, 5⟩, rfl, by decide, by decide, rfl⟩)
      rfl rfl rfl (by decide) (by decide) (by decide) (by decide)
  refine ⟨M, c2, h1, h2, h3, ?_⟩
  have h5 : some 32 = some c2.repl := h4
  exact (Option.some.inj h5).symm

/-- C4, evaluated: on a store without repeat-count compression, with a page
that has no replacement array, the array allocation fails; the call records the
allocator's failure (the page is released without `WT_MODIFIED`) and then
returns `0`. -/
theorem col_del_alloc_failure_returns_zero :
    ∃ res, __wt_db_col_del exIdbPlain exSearch ⟨none, none, none⟩ exMem 105 = some res ∧
      Event.calloc_fail ∈ res.trace ∧
      Event.page_out 2 0 ∈ res.trace ∧
      res.ret = 0 ∧
      (0 : Int) ≠ WT_ENOMEM :=
  ⟨_, rfl, by decide, by decide, rfl, by decide⟩

/-- C5: for every page state, every search result and each of the three
paths, if an allocation made by `__wt_db_col_del` fails then nothing is
submitted to the work queue and the page and the heap after the call (both
arrays, every expansion list, every replacement list) are the page and the
heap before the call. -/
theorem col_del_alloc_failure_keeps_overlay
    (idb : IDB) (search : Mem → Nat → Int × WT_TOC) (al : Calloc) (m : Mem) (recno : Nat)
    (toc : WT_TOC)
    (hsearch : search m recno = (0, toc)) (hpage : toc.srch_page ≠ 0)
    (hfresh : al.Fresh idb m) (hfail : allocFails idb toc al m) :
    ∃ res, __wt_db_col_del idb search al m recno = some res ∧
      Event.calloc_fail ∈ res.trace ∧
      (∀ ev ∈ res.trace, ev.isSubmit = false) ∧
      res.mem = m := by
  obtain ⟨f, hf⟩ := col_del_alloc_fails idb toc al m hfail
  have hrun := col_del_run_err idb search al m recno toc f WT_ENOMEM hsearch hpage hf
  have hholds := col_del_alloc_holds idb toc al m f _ hfresh hf
  obtain ⟨hcal, hfl, _⟩ := col_del_alloc_trace idb toc al m f _ hfresh hf
  refine ⟨_, hrun, ?_, ?_, col_del_unwind_mem idb toc _ f m hholds⟩
  · rw [unwind_trace_mem]
    exact Or.inl (hfl.2 ⟨_, rfl⟩)
  · intro ev hev
    rw [unwind_trace_mem] at hev
    rcases hev with h | ⟨_, h⟩ | ⟨_, h⟩ | ⟨_, h⟩ | ⟨_, h⟩ | ⟨_, h⟩
    · have := hcal ev h
      cases ev <;> simp_all [Event.isCalloc, Event.isSubmit]
    all_goals subst h; rfl

/-- C5 at the example: the expansion array and the expansion cell are
allocated, the replacement record is not. -/
theorem col_del_alloc_failure_keeps_overlay_witness :
    ∃ res, __wt_db_col_del exIdb exSearch ⟨some 10, some 20, none⟩ exMem 105 = some res ∧
      Event.calloc_fail ∈ res.trace ∧
      (∀ ev ∈ res.trace, ev.isSubmit = false) ∧
      res.mem = exMem :=
  col_del_alloc_failure_keeps_overlay exIdb exSearch ⟨some 10, some 20, none⟩ exMem 105
    ⟨2, 3, 0, 0, 5⟩ rfl (by decide)
    (by refine ⟨?_, ?_, ?_⟩ <;> simp [FreshIn, exIdb, exMem])
    (Or.inr (Or.inr rfl))

/-- C6: if the search fails, `__wt_db_col_del` returns the search's failure
code at once: nothing is allocated, nothing is submitted, no page is released
(the trace is empty) and the page and the heap are unchanged. -/
theorem col_del_search_failure
    (idb : IDB) (search : Mem → Nat → Int × WT_TOC) (al : Calloc) (m : Mem) (recno : Nat)
    (h : (search m recno).1 ≠ 0) :
    ∃ res, __wt_db_col_del idb search al m recno = some res ∧
      res.ret = (search m recno).1 ∧ res.ret ≠ 0 ∧ res.trace = [] ∧ res.mem = m :=
  ⟨_, col_del_search_fail idb search al m recno h, rfl, h, rfl, rfl⟩

/-- C6 at an example: the search fails with `-7`. -/
theorem col_del_search_failure_witness :
    ∃ res, __wt_db_col_del exIdb exSearchFail ⟨some 10, some 20, some 30⟩ exMem 105 =
        some res ∧
      res.ret = -7 ∧ res.ret ≠ 0 ∧ res.trace = [] ∧ res.mem = exMem :=
  col_del_search_failure exIdb exSearchFail ⟨some 10, some 20, some 30⟩ exMem 105 (by decide)

/-- C7, as stated, fails: on a page whose lists all have distinct offsets (run 3
holds one entry for offset 5), the install-expansion server function run with
a candidate built from a stale classification of the same record (offset 5
again) leaves run 3 with two entries for offset 5. -/
theorem rcc_expand_duplicates_offset :
    exMemStale.DistinctOffsets ∧
      ∃ M, __wt_bt_rcc_expand_serial_func exMemStale 3 11 21 = some (0, M) ∧
        expChain M.exps (M.expHead 3) [21, 20] = true ∧
        [21, 20].map M.rccOffset = [5, 5] ∧
        ¬ M.DistinctOffsets := by
  refine ⟨exMemStale_distinct, _, rfl, by decide, by decide, ?_⟩
  intro h
  have := h 3 [21, 20] (by decide)
  revert this
  decide

/-- C7, amended: on a page whose expansion lists (read through the page's
array, or through the candidate array when the page has none) have pairwise
distinct offsets, the install-expansion server function run with a candidate
whose offset differs from the offset of every entry already on the run's list
leaves the run with the candidate in front of the old list, and the offsets
of the new list are again pairwise distinct. -/
theorem rcc_expand_keeps_distinct
    (m : Mem) (slot : Nat) (new_exp exp : Ptr) (c : WT_COL_EXPAND) (arr L : List Ptr)
    (hp : (rcc_expand_adopt m new_exp).page.expcol ≠ 0)
    (harr : m.expArr (rcc_expand_adopt m new_exp).page.expcol = some arr)
    (hslot : slot < arr.length)
    (he0 : exp ≠ 0) (hc : m.exps exp = some c)
    (hdist : (rcc_expand_adopt m new_exp).DistinctOffsets)
    (hL : expChain m.exps ((rcc_expand_adopt m new_exp).expHead slot) L = true)
    (hnew : ∀ p ∈ L, m.rccOffset p ≠ c.rcc_offset) :
    ∃ M, __wt_bt_rcc_expand_serial_func m slot new_exp exp = some (0, M) ∧
      expChain M.exps (M.expHead slot) (exp :: L) = true ∧
      ((exp :: L).map M.rccOffset).Nodup := by
  have hcb := rcc_expand_func_eq m slot new_exp exp arr c hp harr hslot he0 hc
  have hnot : exp ∉ L := by
    intro hmem
    exact hnew exp hmem (rccOffset_of m exp c hc)
  have hhead : (rcc_expand_adopt m new_exp).expHead slot = arr.getD slot 0 :=
    expHead_present _ slot arr hp (by simpa using harr)
  rw [hhead] at hL
  refine ⟨_, hcb, ?_, ?_⟩
  · have hH : (page_modify_set
        (((rcc_expand_adopt m new_exp).setExp exp
            (some { c with next := arr.getD slot 0 })).setExpArr
          (rcc_expand_adopt m new_exp).page.expcol (some (arr.set slot exp)))).expHead slot
        = exp := by
      rw [expHead_present _ slot (arr.set slot exp) (by simpa using hp) (by simp)]
      simp [List.getD_eq_getElem?_getD, hslot]
    rw [hH]
    unfold expChain
    rw [chain_cons]
    refine ⟨rfl, he0, { c with next := arr.getD slot 0 }, by simp, ?_⟩
    refine chain_congr _ m.exps _ L _ ?_ hL
    intro a ha
    have hne : a ≠ exp := fun h => hnot (h ▸ ha)
    simp [Function.update, hne]
  · have hoff : ∀ p ∈ L, (page_modify_set
        (((rcc_expand_adopt m new_exp).setExp exp
            (some { c with next := arr.getD slot 0 })).setExpArr
          (rcc_expand_adopt m new_exp).page.expcol (some (arr.set slot exp)))).rccOffset p
        = m.rccOffset p := by
      intro p hpL
      have hne : p ≠ exp := fun h => hnot (h ▸ hpL)
      simp [Mem.rccOffset, Function.update, hne]
    have hd := hdist slot L (by rw [hhead]; simpa using hL)
    have hmap : L.map (rcc_expand_adopt m new_exp).rccOffset = L.map m.rccOffset := by
      apply List.map_congr_left
      intro p _
      simp [Mem.rccOffset]
    rw [hmap] at hd
    rw [List.map_cons, List.nodup_cons, List.map_congr_left hoff]
    refine ⟨?_, hd⟩
    intro hmem
    obtain ⟨p, hpL, hpe⟩ := List.mem_map.1 hmem
    apply hnew p hpL
    rw [hpe]
    simp [Mem.rccOffset]

/-- C7, amended, at an example: record 107 (offset 7) joins the run that
already holds record 105 (offset 5). -/
theorem rcc_expand_keeps_distinct_witness :
    ∃ M, __wt_bt_rcc_expand_serial_func exMemOther 3 0 22 = some (0, M) ∧
      expChain M.exps (M.expHead 3) [22, 20] = true ∧
      ([22, 20].map M.rccOffset).Nodup :=
  rcc_expand_keeps_distinct exMemOther 3 0 22 ⟨7, 32, 0⟩ [0, 0, 0, 20] [20]
    (by decide) rfl (by decide) (by decide) rfl exMemOther_distinct (by decide) (by decide)

/-- C8: single-winner array adoption in the install-expansion server function.
If the page's expansion array is absent when the function runs, the page's
array afterwards is the caller's candidate; if it is present, it is the same
array afterwards.  After the function has run the array is present, and no
later run of the function, in any sequence, changes it: the pointer changes at
most once, from absent to present. -/
theorem rcc_expand_adopts_once
    (m : Mem) (slot : Nat) (cand exp : Ptr) (ret : Int) (M : Mem)
    (h : __wt_bt_rcc_expand_serial_func m slot cand exp = some (ret, M)) :
    (m.page.expcol = 0 → M.page.expcol = cand) ∧
      (m.page.expcol ≠ 0 → M.page.expcol = m.page.expcol) ∧
      M.page.expcol ≠ 0 ∧
      ∀ cs M2, rcc_expand_seq cs M = some M2 → M2.page.expcol = M.page.expcol := by
  obtain ⟨_, he, hne⟩ := rcc_expand_func_expcol m slot cand exp ret M h
  refine ⟨?_, ?_, hne, ?_⟩
  · intro h0
    rw [he, rcc_expand_adopt_absent m cand h0]
  · intro h0
    rw [he, rcc_expand_adopt_present m cand h0]
  · intro cs M2 h2
    exact rcc_expand_seq_expcol cs M M2 h2 hne

/-- C8 at an example: the first run adopts block 10; a later run that brings
block 11 as its candidate leaves block 10 in place. -/
theorem rcc_expand_adopts_once_witness :
    ∃ M M2, __wt_bt_rcc_expand_serial_func exMemFirst 3 10 20 = some (0, M) ∧
      M.page.expcol = 10 ∧
      rcc_expand_seq [(3, 11, 20)] M = some M2 ∧
      M2.page.expcol = 10 :=
  ⟨_, _, rfl,
    (rcc_expand_adopts_once exMemFirst 3 10 20 0 _ rfl).1 rfl, rfl,
    (rcc_expand_adopts_once exMemFirst 3 10 20 0 _ rfl).2.2.2 [(3, 11, 20)] _ rfl⟩

/-- C10: `__wt_db_col_del` classifies every successfully searched record into
exactly one path and hands the path's submission to the work queue.  For a
call whose search succeeds and whose allocations succeed, the allocation phase
ends with one submission `sub`, and: `sub` is the install-replacement
submission for the searched slot exactly when the store does not use
repeat-count compression (path 1); `sub` is the append-replacement submission
for the entry the search reported, `toc->srch_exp`, exactly when the store is
compressed and the search reported an existing modification of the record
(path 3); `sub` is the install-expansion submission for the searched slot
exactly when the store is compressed and the search reported none (path 2).
The code reads "reported" off `toc->srch_repl` (line 73) and passes
`toc->srch_exp` (line 97); when the search sets the two together the same
holds with "reported" read off `toc->srch_exp`.  The call is defined exactly
when the server function of `sub` is, and the trace of the call then holds
that one submission and no other. -/
theorem col_del_classifies
    (idb : IDB) (search : Mem → Nat → Int × WT_TOC) (al : Calloc) (m : Mem) (recno : Nat)
    (toc : WT_TOC)
    (hsearch : search m recno = (0, toc)) (hpage : toc.srch_page ≠ 0)
    (hfresh : al.Fresh idb m) (hal : ¬ allocFails idb toc al m) :
    ∃ f sub, col_del_alloc idb toc al m = some (f, .ok sub) ∧
      ((∃ a r, sub = .update toc.srch_slot a r) ↔ idb.repeat_comp = false) ∧
      ((∃ r, sub = .rcc_expand_repl toc.srch_exp r) ↔
        (idb.repeat_comp = true ∧ toc.srch_repl ≠ 0)) ∧
      ((∃ a e, sub = .rcc_expand toc.srch_slot a e) ↔
        (idb.repeat_comp = true ∧ toc.srch_repl = 0)) ∧
      ((toc.srch_repl = 0 ↔ toc.srch_exp = 0) →
        ((∃ r, sub = .rcc_expand_repl toc.srch_exp r) ↔
          (idb.repeat_comp = true ∧ toc.srch_exp ≠ 0)) ∧
        ((∃ a e, sub = .rcc_expand toc.srch_slot a e) ↔
          (idb.repeat_comp = true ∧ toc.srch_exp = 0))) ∧
      ((∃ res, __wt_db_col_del idb search al m recno = some res) ↔
        (∃ ret M, serialize f.mem sub = some (ret, M))) ∧
      (∀ res, __wt_db_col_del idb search al m recno = some res →
        res.trace.filter Event.isSubmit = [sub.event]) := by
  obtain ⟨f, sub, halloc⟩ := col_del_alloc_ok idb toc al m hfresh hal
  have hshape := col_del_alloc_sub idb toc al m f sub halloc
  have h1 : (∃ a r, sub = Submission.update toc.srch_slot a r) ↔ idb.repeat_comp = false := by
    rw [← col_del_path_one idb toc]
    cases hpath : col_del_path idb toc <;> simp only [hpath] at hshape <;> subst hshape <;>
      simp
  have h3 : (∃ r, sub = Submission.rcc_expand_repl toc.srch_exp r) ↔
      (idb.repeat_comp = true ∧ toc.srch_repl ≠ 0) := by
    rw [← col_del_path_three idb toc]
    cases hpath : col_del_path idb toc <;> simp only [hpath] at hshape <;> subst hshape <;>
      simp
  have h2 : (∃ a e, sub = Submission.rcc_expand toc.srch_slot a e) ↔
      (idb.repeat_comp = true ∧ toc.srch_repl = 0) := by
    rw [← col_del_path_two idb toc]
    cases hpath : col_del_path idb toc <;> simp only [hpath] at hshape <;> subst hshape <;>
      simp
  refine ⟨f, sub, halloc, h1, h3, h2, ?_, ?_, ?_⟩
  · intro hcoh
    rw [h3, h2, ne_eq, ne_eq, hcoh]
    exact ⟨Iff.rfl, Iff.rfl⟩
  · constructor
    · rintro ⟨res, hrun⟩
      exact (col_del_submits_once idb search al m recno toc f sub res hsearch halloc hrun).2
    · rintro ⟨ret, M, hser⟩
      exact ⟨_, col_del_run_ok idb search al m recno toc f sub ret M hsearch hpage halloc hser⟩
  · intro res hrun
    exact (col_del_submits_once idb search al m recno toc f sub res hsearch halloc hrun).1

/-- C10 at the example: the second delete of record 105 (the search reports
cell 20 and its tombstone 30) runs, and its one submission is the
append-replacement submission for cell 20. -/
theorem col_del_classifies_witness :
    ∃ res, __wt_db_col_del exIdb exSearchOld ⟨none, none, some 33⟩ exMem1 105 = some res ∧
      res.trace.filter Event.isSubmit = [Event.submit_rcc_expand_repl 20 33] := by
  obtain ⟨f, sub, halloc, _, _, _, _, _, htr⟩ :=
    col_del_classifies exIdb exSearchOld ⟨none, none, some 33⟩ exMem1 105 ⟨2, 3, 30, 20, 5⟩
      rfl (by decide)
      (by refine ⟨?_, ?_, ?_⟩ <;> simp [FreshIn, exIdb, exMem1])
      (by simp [allocFails, col_del_path, exIdb])
  rw [col_del_alloc_rcc_old exIdb ⟨2, 3, 30, 20, 5⟩ exMem1 none none 33 rfl (by decide)
    (by decide)] at halloc
  simp only [Option.some.injEq, Prod.mk.injEq, Except.ok.injEq] at halloc
  obtain ⟨_, hsub⟩ := halloc
  subst hsub
  exact ⟨_, rfl, htr _ rfl⟩

/-- C9: candidate ownership in `__wt_db_col_del`, on every path that passes the
search, for a call that runs among other calls: any calls `between` complete
after the call has allocated its candidates and before the work queue runs its
submission, so the page's array pointers at `done` (lines 108-114) may be
another call's array (with no calls in between this is `__wt_db_col_del`
itself).  An array the call allocated is freed by the caller if and only if it
is not the page's array when the call ends.  After an allocation failure every
node candidate already allocated is freed.  Every candidate is either freed
(and then no longer allocated) or adopted (still allocated and held by the
overlay: the array is the page's array, the expansion cell is the head of its
run, the replacement record is a replacement head, or on the replacement list
of an expansion cell, or sits in the replacement array), never both and never
neither.  Only candidates of this call are freed, and no block that was
allocated before the call is freed. -/
theorem col_del_candidate_ownership
    (idb : IDB) (search : Mem → Nat → Int × WT_TOC) (al : Calloc)
    (between : List ((Mem → Nat → Int × WT_TOC) × Calloc × Nat)) (m : Mem) (recno : Nat)
    (toc : WT_TOC) (res : DelResult)
    (hsearch : search m recno = (0, toc)) (hfresh : al.Fresh idb m)
    (hbetween : ∀ f x, col_del_alloc idb toc al m = some (f, x) → CallsFresh idb between f.mem)
    (hrun : col_del_among idb search al between m recno = some res) :
    col_del_among idb search al [] m recno = __wt_db_col_del idb search al m recno ∧
      (∀ p, Event.calloc_new_expcol p ∈ res.trace →
        (Event.free_expcol p ∈ res.trace ↔ p ≠ res.mem.page.expcol)) ∧
      (∀ p, Event.calloc_new_repl p ∈ res.trace →
        (Event.free_replarr p ∈ res.trace ↔ p ≠ res.mem.page.repl)) ∧
      (Event.calloc_fail ∈ res.trace →
        ∀ p, (Event.calloc_exp p ∈ res.trace → Event.free_exp p ∈ res.trace) ∧
          (Event.calloc_repl p ∈ res.trace → Event.free_repl p ∈ res.trace)) ∧
      (∀ p, Event.calloc_new_expcol p ∈ res.trace →
        (Event.free_expcol p ∈ res.trace ∧ res.mem.expArr p = none ∧
            res.mem.page.expcol ≠ p) ∨
          (Event.free_expcol p ∉ res.trace ∧ res.mem.expArr p ≠ none ∧
            res.mem.page.expcol = p)) ∧
      (∀ p, Event.calloc_new_repl p ∈ res.trace →
        (Event.free_replarr p ∈ res.trace ∧ res.mem.replArr p = none ∧
            res.mem.page.repl ≠ p) ∨
          (Event.free_replarr p ∉ res.trace ∧ res.mem.replArr p ≠ none ∧
            res.mem.page.repl = p)) ∧
      (∀ p, Event.calloc_exp p ∈ res.trace →
        (Event.free_exp p ∈ res.trace ∧ res.mem.exps p = none) ∨
          (Event.free_exp p ∉ res.trace ∧ res.mem.exps p ≠ none ∧
            res.mem.expHead toc.srch_slot = p)) ∧
      (∀ p, Event.calloc_repl p ∈ res.trace →
        (Event.free_repl p ∈ res.trace ∧ res.mem.repls p = none) ∨
          (Event.free_repl p ∉ res.trace ∧ res.mem.repls p ≠ none ∧
            res.mem.holdsRepl p)) ∧
      (∀ p, (Event.free_expcol p ∈ res.trace → Event.calloc_new_expcol p ∈ res.trace) ∧
        (Event.free_replarr p ∈ res.trace → Event.calloc_new_repl p ∈ res.trace) ∧
        (Event.free_exp p ∈ res.trace → Event.calloc_exp p ∈ res.trace) ∧
        (Event.free_repl p ∈ res.trace → Event.calloc_repl p ∈ res.trace)) ∧
      (∀ p, (m.expArr p ≠ none → res.mem.expArr p ≠ none) ∧
        (m.replArr p ≠ none → res.mem.replArr p ≠ none) ∧
        (m.exps p ≠ none → res.mem.exps p ≠ none) ∧
        (m.repls p ≠ none → res.mem.repls p ≠ none)) := by
  have O := col_del_among_owned idb search al between m recno toc res hsearch hfresh hbetween
    hrun
  refine ⟨col_del_among_nil idb search al m recno, O.expcol_freed_iff, O.replarr_freed_iff,
    ?_, ?_, ?_, ?_, ?_, ?_, ?_⟩
  · intro hf p
    exact ⟨O.fail_frees_exp hf p, O.fail_frees_repl hf p⟩
  · intro p hp
    by_cases hfree : Event.free_expcol p ∈ res.trace
    · exact Or.inl ⟨hfree, (O.expcol_freed p hfree).2,
        fun h => (O.expcol_freed_iff p hp).1 hfree h.symm⟩
    · refine Or.inr ⟨hfree, O.expcol_kept p hp hfree, ?_⟩
      by_contra hne
      exact hfree ((O.expcol_freed_iff p hp).2 (fun h => hne h.symm))
  · intro p hp
    by_cases hfree : Event.free_replarr p ∈ res.trace
    · exact Or.inl ⟨hfree, (O.replarr_freed p hfree).2,
        fun h => (O.replarr_freed_iff p hp).1 hfree h.symm⟩
    · refine Or.inr ⟨hfree, O.replarr_kept p hp hfree, ?_⟩
      by_contra hne
      exact hfree ((O.replarr_freed_iff p hp).2 (fun h => hne h.symm))
  · intro p hp
    by_cases hfree : Event.free_exp p ∈ res.trace
    · exact Or.inl ⟨hfree, (O.exp_freed p hfree).2⟩
    · exact Or.inr ⟨hfree, O.exp_kept p hp hfree⟩
  · intro p hp
    by_cases hfree : Event.free_repl p ∈ res.trace
    · exact Or.inl ⟨hfree, (O.repl_freed p hfree).2⟩
    · exact Or.inr ⟨hfree, O.repl_kept p hp hfree⟩
  · intro p
    exact ⟨fun h => (O.expcol_freed p h).1, fun h => (O.replarr_freed p h).1,
      fun h => (O.exp_freed p h).1, fun h => (O.repl_freed p h).1⟩
  · intro p
    exact ⟨O.old_expArr p, O.old_replArr p, O.old_exps p, O.old_repls p⟩

/-- C9 at the examples.  A delete of record 105 allocates the expansion array
candidate 10; before the work queue runs its submission a delete of record 107
completes and the page's array becomes that call's candidate 11: the first call
frees its candidate 10 at line 109 and its cell 20 is the head of run 3.  The
same in the store without compression: the call's replacement array candidate
10 loses against candidate 11 and is freed at line 114. -/
theorem col_del_candidate_ownership_witness :
    (∃ res, col_del_among exIdb exSearch ⟨some 10, some 20, some 30⟩
        [(exSearch107, ⟨some 11, some 21, some 31⟩, 107)] exMem 105 = some res ∧
      res.mem.page.expcol = 11 ∧ Event.free_expcol 10 ∈ res.trace ∧
      res.mem.expArr 10 = none ∧ res.mem.expHead 3 = 20) ∧
    (∃ res, col_del_among exIdbPlain exSearchPlain ⟨some 10, none, some 30⟩
        [(exSearchPlain, ⟨some 11, none, some 31⟩, 3)] exMem 3 = some res ∧
      res.mem.page.repl = 11 ∧ Event.free_replarr 10 ∈ res.trace ∧
      res.mem.replArr 10 = none) := by
  constructor
  · have h := col_del_candidate_ownership exIdb exSearch ⟨some 10, some 20, some 30⟩
      [(exSearch107, ⟨some 11, some 21, some 31⟩, 107)] exMem 105 ⟨2, 3, 0, 0, 5⟩ _ rfl
      (by refine ⟨?_, ?_, ?_⟩ <;> simp [FreshIn, exIdb, exMem])
      (by
        intro f x hf
        rw [col_del_alloc_rcc_new_absent exIdb ⟨2, 3, 0, 0, 5⟩ exMem 10 20 30 rfl rfl rfl
          (by decide) (by decide)] at hf
        cases hf
        refine ⟨?_, fun _ _ => trivial⟩
        refine ⟨?_, ?_, ?_⟩ <;> simp [FreshIn, exIdb, exMem, Function.update])
      rfl
    obtain ⟨_, h1, _, _, h4, _, h6, _⟩ := h
    have hfree := (h1 10 (by decide)).2 (by decide)
    refine ⟨_, rfl, rfl, hfree, ?_, ?_⟩
    · rcases h4 10 (by decide) with ⟨_, hn, _⟩ | ⟨hk, _, _⟩
      · exact hn
      · exact absurd hfree hk
    · rcases h6 20 (by decide) with ⟨hf, _⟩ | ⟨_, _, hh⟩
      · exact absurd hf (by decide)
      · exact hh
  · have h := col_del_candidate_ownership exIdbPlain exSearchPlain ⟨some 10, none, some 30⟩
      [(exSearchPlain, ⟨some 11, none, some 31⟩, 3)] exMem 3 ⟨2, 3, 0, 0, 0⟩ _ rfl
      (by refine ⟨?_, ?_, ?_⟩ <;> simp [FreshIn, exIdbPlain, exMem])
      (by
        intro f x hf
        rw [col_del_alloc_plain_absent exIdbPlain ⟨2, 3, 0, 0, 0⟩ exMem none 10 30 rfl rfl
          (by decide)] at hf
        cases hf
        refine ⟨?_, fun _ _ => trivial⟩
        refine ⟨?_, ?_, ?_⟩ <;> simp [FreshIn, exIdbPlain, exMem, Function.update])
      rfl
    obtain ⟨_, _, h2, _, _, h5, _⟩ := h
    have hfree := (h2 10 (by decide)).2 (by decide)
    refine ⟨_, rfl, rfl, hfree, ?_⟩
    rcases h5 10 (by decide) with ⟨_, hn, _⟩ | ⟨hk, _, _⟩
    · exact hn
    · exact absurd hfree hk

/-- C11: for every execution of `__wt_db_col_del` in which the search succeeds,
whatever path is taken and whether or not an allocation fails, the searched
page is released exactly once if it is not the root page and not at all if it
is the root page; the page released is the searched page. -/
theorem col_del_releases_page_once
    (idb : IDB) (search : Mem → Nat → Int × WT_TOC) (al : Calloc) (m : Mem) (recno : Nat)
    (toc : WT_TOC) (res : DelResult)
    (hsearch : search m recno = (0, toc))
    (hrun : __wt_db_col_del idb search al m recno = some res) :
    (res.trace.filter Event.isPageOut).length =
        (if toc.srch_page = idb.root_page then 0 else 1) ∧
      ∀ ev ∈ res.trace, ev.isPageOut = true → ∃ flags, ev = Event.page_out toc.srch_page flags := by
  obtain ⟨_, pre, ret, htr, hpre, _⟩ :=
    col_del_trace_shape idb search al m recno toc res hsearch hrun
  have hfil : pre.filter Event.isPageOut = [] := by
    rw [List.filter_eq_nil_iff]
    intro ev hev
    simp [hpre ev hev]
  constructor
  · rw [htr, List.filter_append, hfil]
    by_cases hroot : toc.srch_page = idb.root_page
    · simp [hroot]
    · simp [hroot, Event.isPageOut]
  · intro ev hev hp
    rw [htr, List.mem_append] at hev
    rcases hev with hev | hev
    · rw [hpre ev hev] at hp
      cases hp
    · rw [mem_ite_singleton] at hev
      exact ⟨_, hev.2⟩


/-- C11 at the example: page 2 is not the root (page 1) and is released once;
with page 2 as the root it is not released. -/
theorem col_del_releases_page_once_witness :
    ∃ res res2,
      __wt_db_col_del exIdb exSearch ⟨some 10, some 20, some 30⟩ exMem 105 = some res ∧
      (res.trace.filter Event.isPageOut).length = 1 ∧
      __wt_db_col_del ⟨true, 2⟩ exSearch ⟨some 10, some 20, none⟩ exMem 105 = some res2 ∧
      (res2.trace.filter Event.isPageOut).length = 0 :=
  ⟨_, _, rfl,
    (col_del_releases_page_once exIdb exSearch ⟨some 10, some 20, some 30⟩ exMem 105
      ⟨2, 3, 0, 0, 5⟩ _ rfl rfl).1, rfl,
    (col_del_releases_page_once ⟨true, 2⟩ exSearch ⟨some 10, some 20, none⟩ exMem 105
      ⟨2, 3, 0, 0, 5⟩ _ rfl rfl).1⟩

/-- C14: no broken links during publication, with each server function taken
as its sequence of stores.  At every intermediate state of the
install-expansion function the list read from `expcol[slot]` is the complete
old list or the new entry followed by the complete old list; at every
intermediate state of the append-replacement function the list read from the
entry's replacement head is the complete old list or the new record followed
by the complete old list.  In every state in which the new node is reachable
its `next` already holds the old head, and the fields the caller wrote
(`rcc_offset`, replacement head, value) are in place in every state; the
caller has written them before the submission.  The candidate is a new node
(it is not on the old list) and an adopted array candidate holds only
`NULL`. -/
theorem publication_never_breaks_links :
    (∀ (m : Mem) (slot : Nat) (new_exp exp : Ptr) (ret : Int) (M : Mem) (L : List Ptr),
        __wt_bt_rcc_expand_serial_func m slot new_exp exp = some (ret, M) →
        m.ZeroCandidate new_exp →
        expChain m.exps (m.expHead slot) L = true → exp ∉ L →
        ∃ s1 s2 s3 c, rcc_expand_states m slot new_exp exp = some [m, s1, s2, s3, M] ∧
          m.exps exp = some c ∧
          ∀ s ∈ [m, s1, s2, s3, M],
            (expChain s.exps (s.expHead slot) L = true ∨
              expChain s.exps (s.expHead slot) (exp :: L) = true) ∧
            (s.expHead slot = exp →
              ∃ c2, s.exps exp = some c2 ∧ c2.next = m.expHead slot) ∧
            (∃ c2, s.exps exp = some c2 ∧ c2.rcc_offset = c.rcc_offset ∧ c2.repl = c.repl) ∧
            s.repls = m.repls) ∧
      (∀ (m : Mem) (exp repl : Ptr) (ret : Int) (M : Mem) (c : WT_COL_EXPAND) (L : List Ptr),
        __wt_bt_rcc_expand_repl_serial_func m exp repl = some (ret, M) →
        m.exps exp = some c →
        replChain m.repls c.repl L = true → repl ∉ L →
        ∃ s1 s2 r, rcc_expand_repl_states m exp repl = some [m, s1, s2, M] ∧
          m.repls repl = some r ∧
          ∀ s ∈ [m, s1, s2, M],
            ∃ c2 r2, s.exps exp = some c2 ∧ s.repls repl = some r2 ∧
              (replChain s.repls c2.repl L = true ∨
                replChain s.repls c2.repl (repl :: L) = true) ∧
              (c2.repl = repl → r2.next = c.repl) ∧
              r2.data = r.data) ∧
      (∀ (idb : IDB) (toc : WT_TOC) (al : Calloc) (m : Mem) (f : Frame) (sub : Submission),
        al.Fresh idb m → col_del_alloc idb toc al m = some (f, .ok sub) →
        f.mem.repls f.repl = some ⟨WT_REPL_DELETED_VALUE, 0⟩ ∧
          (col_del_path idb toc = Path.two →
            f.mem.exps f.exp = some ⟨toc.srch_rcc_offset, f.repl, 0⟩)) := by
  refine ⟨?_, ?_, ?_⟩
  · intro m slot new_exp exp ret M L h hzero hL hnew
    obtain ⟨s1, s2, s3, c, c2, hst, hc, h1, h2, h3, h4, e1, e2, ec2, eh2, e3, e4, _, r1, r2,
      r3, r4⟩ := rcc_expand_links m slot new_exp exp ret M L h hzero hL hnew
    obtain ⟨_, _, _, _, _, he0, _⟩ := rcc_expand_func_inv m slot new_exp exp ret M h
    have hne : ∀ S : Mem, expChain S.exps (S.expHead slot) L = true →
        S.expHead slot ≠ exp := by
      intro S hS heq
      rw [heq] at hS
      cases L with
      | nil =>
        unfold expChain at hS
        rw [chain_nil] at hS
        exact he0 hS
      | cons a L =>
        unfold expChain at hS
        rw [chain_cons] at hS
        exact hnew (hS.1 ▸ List.mem_cons_self _ _)
    have hc2 : c2.rcc_offset = c.rcc_offset ∧ c2.repl = c.repl ∧ c2.next = m.expHead slot := by
      subst ec2; exact ⟨rfl, rfl, rfl⟩
    refine ⟨s1, s2, s3, c, hst, hc, ?_⟩
    intro s hs
    simp only [List.mem_cons, List.mem_singleton, List.not_mem_nil, or_false] at hs
    rcases hs with rfl | rfl | rfl | rfl | rfl
    · exact ⟨Or.inl hL, fun h => absurd h (hne _ hL), ⟨c, hc, rfl, rfl⟩, rfl⟩
    · exact ⟨Or.inl h1, fun h => absurd h (hne _ h1), ⟨c, by rw [e1]; exact hc, rfl, rfl⟩, r1⟩
    · exact ⟨Or.inl h2, fun _ => ⟨c2, e2, hc2.2.2⟩, ⟨c2, e2, hc2.1, hc2.2.1⟩, r2⟩
    · exact ⟨Or.inr h3, fun _ => ⟨c2, by rw [e3]; exact e2, hc2.2.2⟩,
        ⟨c2, by rw [e3]; exact e2, hc2.1, hc2.2.1⟩, r3⟩
    · exact ⟨Or.inr h4, fun _ => ⟨c2, by rw [e4]; exact e2, hc2.2.2⟩,
        ⟨c2, by rw [e4]; exact e2, hc2.1, hc2.2.1⟩, r4⟩
  · intro m exp repl ret M c L h hc hL hnew
    obtain ⟨s1, s2, r, hst, hr, x1, ch1, rr1, _, x2, _, rr2, ch2, x3, rr3⟩ :=
      rcc_expand_repl_links m exp repl ret M c L h hc hL hnew
    obtain ⟨_, _, _, _, hr0, _⟩ := rcc_expand_repl_func_inv m exp repl ret M h
    have hne : c.repl ≠ repl := by
      intro heq
      rw [heq] at hL
      cases L with
      | nil =>
        unfold replChain at hL
        rw [chain_nil] at hL
        exact hr0 hL
      | cons a L =>
        unfold replChain at hL
        rw [chain_cons] at hL
        exact hnew (hL.1 ▸ List.mem_cons_self _ _)
    refine ⟨s1, s2, r, hst, hr, ?_⟩
    intro s hs
    simp only [List.mem_cons, List.mem_singleton, List.not_mem_nil, or_false] at hs
    rcases hs with rfl | rfl | rfl | rfl
    · exact ⟨c, r, hc, hr, Or.inl hL, fun h => absurd h hne, rfl⟩
    · exact ⟨c, { r with next := c.repl }, by rw [x1]; exact hc, rr1, Or.inl ch1,
        fun h => absurd h hne, rfl⟩
    · exact ⟨{ c with repl := repl }, { r with next := c.repl }, x2, by rw [rr2]; exact rr1,
        Or.inr ch2, fun _ => rfl, rfl⟩
    · exact ⟨{ c with repl := repl }, { r with next := c.repl }, by rw [x3]; exact x2,
        by rw [rr3, rr2]; exact rr1, Or.inr (by rw [rr3]; exact ch2), fun _ => rfl, rfl⟩
  · intro idb toc al m f sub hfresh h
    exact col_del_alloc_initialised idb toc al m f sub hfresh h


/-- C14 at the example: the first delete of record 105 publishes cell 20 into
the empty run 3. -/
theorem publication_never_breaks_links_witness :
    ∃ s1 s2 s3 M, rcc_expand_states exMemFirst 3 10 20 = some [exMemFirst, s1, s2, s3, M] ∧
      ∀ s ∈ [exMemFirst, s1, s2, s3, M],
        expChain s.exps (s.expHead 3) [] = true ∨ expChain s.exps (s.expHead 3) [20] = true := by
  obtain ⟨s1, s2, s3, c, hst, _, hall⟩ :=
    publication_never_breaks_links.1 exMemFirst 3 10 20 0 _ [] rfl
      (by
        intro _ arr h x hx
        have h2 : arr = [0, 0, 0, 0] := by
          have h3 : some [0, 0, 0, 0] = some arr := h
          exact (Option.some.inj h3).symm
        subst h2
        simpa using hx)
      rfl (by simp)
  exact ⟨s1, s2, s3, _, hst, fun s hs => (hall s hs).1⟩

/-- C16: for every execution of either server function of this file the page's
modified flag is set when the function returns, the flag is set by the last
store, after the store that publishes the new node (in the state before it
the node is already published and the flag is as it was), and the function
returns `0`. -/
theorem serial_funcs_mark_dirty_last :
    (∀ (m : Mem) (slot : Nat) (new_exp exp : Ptr) (ret : Int) (M : Mem),
        __wt_bt_rcc_expand_serial_func m slot new_exp exp = some (ret, M) →
        ret = 0 ∧ M.page.modified = true ∧
          ∃ s1 s2 s3, rcc_expand_states m slot new_exp exp = some [m, s1, s2, s3, M] ∧
            M = page_modify_set s3 ∧
            s3.expHead slot = exp ∧
            s1.page.modified = m.page.modified ∧
            s2.page.modified = m.page.modified ∧
            s3.page.modified = m.page.modified) ∧
      (∀ (m : Mem) (exp repl : Ptr) (ret : Int) (M : Mem),
        __wt_bt_rcc_expand_repl_serial_func m exp repl = some (ret, M) →
        ret = 0 ∧ M.page.modified = true ∧
          ∃ s1 s2 c, rcc_expand_repl_states m exp repl = some [m, s1, s2, M] ∧
            M = page_modify_set s2 ∧
            s2.exps exp = some c ∧ c.repl = repl ∧
            s1.page.modified = m.page.modified ∧
            s2.page.modified = m.page.modified) := by
  constructor
  · intro m slot new_exp exp ret M h
    obtain ⟨arr, c, hp, harr, hs, he0, hc⟩ := rcc_expand_func_inv m slot new_exp exp ret M h
    have heq := rcc_expand_func_eq m slot new_exp exp arr c hp harr hs he0 hc
    have hst := rcc_expand_states_eq m slot new_exp exp arr c hp harr hs he0 hc
    rw [heq] at h
    simp only [Option.some.injEq, Prod.mk.injEq] at h
    obtain ⟨hret, hM⟩ := h
    subst hM
    have hmod : (rcc_expand_adopt m new_exp).page.modified = m.page.modified := by
      unfold rcc_expand_adopt; split <;> rfl
    refine ⟨hret.symm, rfl, _, _, _, hst, rfl, ?_, hmod, hmod, hmod⟩
    rw [expHead_present _ slot (arr.set slot exp) (by simpa using hp) (by simp)]
    simp [List.getD_eq_getElem?_getD, hs]
  · intro m exp repl ret M h
    obtain ⟨c, r, he0, hc, hr0, hr⟩ := rcc_expand_repl_func_inv m exp repl ret M h
    have heq := rcc_expand_repl_func_eq m exp repl c r he0 hc hr0 hr
    have hst := rcc_expand_repl_states_eq m exp repl c r he0 hc hr0 hr
    rw [heq] at h
    simp only [Option.some.injEq, Prod.mk.injEq] at h
    obtain ⟨hret, hM⟩ := h
    subst hM
    exact ⟨hret.symm, rfl, _, _, { c with repl := repl }, hst, rfl, by simp, rfl, rfl, rfl⟩


/-- C16 at the example: the install-expansion function on the page without
overlay. -/
theorem serial_funcs_mark_dirty_last_witness :
    ∃ M, __wt_bt_rcc_expand_serial_func exMemFirst 3 10 20 = some (0, M) ∧
      M.page.modified = true :=
  ⟨_, rfl, (serial_funcs_mark_dirty_last.1 exMemFirst 3 10 20 0 _ rfl).2.1⟩

/-- C18: when `__wt_db_col_del` releases a page that is not the root, it passes
`WT_MODIFIED` if and only if the recorded result code is success, that is, no
allocation failed (the server functions return `0`); after an allocation
failure the page is released with no flags. -/
theorem col_del_page_out_flags
    (idb : IDB) (search : Mem → Nat → Int × WT_TOC) (al : Calloc) (m : Mem) (recno : Nat)
    (toc : WT_TOC) (res : DelResult)
    (hsearch : search m recno = (0, toc))
    (hroot : toc.srch_page ≠ idb.root_page)
    (hrun : __wt_db_col_del idb search al m recno = some res) :
    (Event.page_out toc.srch_page WT_MODIFIED ∈ res.trace ↔ Event.calloc_fail ∉ res.trace) ∧
      (Event.calloc_fail ∈ res.trace → Event.page_out toc.srch_page 0 ∈ res.trace) ∧
      (∀ flags, Event.page_out toc.srch_page flags ∈ res.trace →
        flags = if Event.calloc_fail ∈ res.trace then 0 else WT_MODIFIED) := by
  obtain ⟨_, pre, ret, htr, hpre, hret⟩ :=
    col_del_trace_shape idb search al m recno toc res hsearch hrun
  simp only [hroot, ne_eq, not_false_eq_true, if_true] at htr
  have hnp : ∀ fl, Event.page_out toc.srch_page fl ∉ pre := by
    intro fl hmem
    have := hpre _ hmem
    simp [Event.isPageOut] at this
  have hfail : Event.calloc_fail ∈ res.trace ↔ ret ≠ 0 := by
    rw [htr, List.mem_append]
    simp only [List.mem_singleton]
    constructor
    · rintro (h | h)
      · exact fun h0 => (hret.1 h0) h
      · cases h
    · intro h
      left
      by_contra hc
      exact h (hret.2 hc)
  have hmem : ∀ fl, Event.page_out toc.srch_page fl ∈ res.trace ↔
      fl = if ret = 0 then WT_MODIFIED else 0 := by
    intro fl
    rw [htr, List.mem_append]
    simp [hnp fl]
  refine ⟨?_, ?_, ?_⟩
  · rw [hmem, hfail]
    by_cases h0 : ret = 0
    · simp [h0]
    · simp [h0, WT_MODIFIED]
  · intro hf
    rw [hmem]
    simp [hfail.1 hf]
  · intro fl hfl
    rw [hmem] at hfl
    by_cases h0 : ret = 0
    · have : Event.calloc_fail ∉ res.trace := fun h => (hfail.1 h) h0
      simp [hfl, h0, this]
    · have : Event.calloc_fail ∈ res.trace := hfail.2 h0
      simp [hfl, h0, this]


/-- C18 at the example: the replacement record cannot be allocated and page 2
is released with no flags. -/
theorem col_del_page_out_flags_witness :
    ∃ res, __wt_db_col_del exIdb exSearch ⟨some 10, some 20, none⟩ exMem 105 = some res ∧
      Event.page_out 2 0 ∈ res.trace ∧ Event.page_out 2 WT_MODIFIED ∉ res.trace :=
  ⟨_, rfl,
    (col_del_page_out_flags exIdb exSearch ⟨some 10, some 20, none⟩ exMem 105
      ⟨2, 3, 0, 0, 5⟩ _ rfl (by decide) rfl).2.1 (by decide),
    fun h => ((col_del_page_out_flags exIdb exSearch ⟨some 10, some 20, none⟩ exMem 105
      ⟨2, 3, 0, 0, 5⟩ _ rfl (by decide) rfl).1.1 h) (by decide)⟩

/-- C12: the overlay only grows.  For every execution of the install-expansion
function on slot `slot` with a new cell (one that is on no expansion list; an
adopted array candidate holds only `NULL`): every expansion list of the page is
afterwards the same list of cells, with the new cell in front for `slot` and
unchanged for every other slot; every cell other than the new one keeps all its
fields (offset, replacement head, `next`), the new cell only has its `next`
written, and the replacement records and the replacement array are untouched.
For every execution of the append-replacement function on cell `e` with a new
record (one that is on no replacement list): every expansion list is the same
list of cells, cell `e` keeps its offset and `next` and only its replacement
head is written, every other cell keeps all its fields; the replacement list of
`e` is the new record followed by the old list, the replacement list of every
other cell is unchanged, and every record other than the new one keeps its
fields, the new one only has its `next` written. -/
theorem overlay_only_grows :
    (∀ (m : Mem) (slot : Nat) (new_exp exp : Ptr) (ret : Int) (M : Mem),
        __wt_bt_rcc_expand_serial_func m slot new_exp exp = some (ret, M) →
        m.ZeroCandidate new_exp → m.expUnpublished exp →
        (∀ s L, expChain m.exps (m.expHead s) L = true →
          expChain M.exps (M.expHead s) (if s = slot then exp :: L else L) = true) ∧
        (∀ s, s ≠ slot → M.expHead s = m.expHead s) ∧
        (∀ p, p ≠ exp → M.exps p = m.exps p) ∧
        (∃ c, m.exps exp = some c ∧ M.exps exp = some { c with next := m.expHead slot }) ∧
        M.repls = m.repls ∧ M.replArr = m.replArr ∧ M.page.repl = m.page.repl) ∧
      (∀ (m : Mem) (e r : Ptr) (ret : Int) (M : Mem),
        __wt_bt_rcc_expand_repl_serial_func m e r = some (ret, M) →
        m.replUnpublished r →
        (∀ s L, expChain m.exps (m.expHead s) L = true →
          expChain M.exps (M.expHead s) L = true) ∧
        (∀ s, M.expHead s = m.expHead s) ∧
        (∀ p, p ≠ e → M.exps p = m.exps p) ∧
        (∃ c r0, m.exps e = some c ∧ M.exps e = some { c with repl := r } ∧
          m.repls r = some r0 ∧ M.repls r = some { r0 with next := c.repl }) ∧
        (∀ q c L, m.exps q = some c → replChain m.repls c.repl L = true →
          ∃ c2, M.exps q = some c2 ∧
            replChain M.repls c2.repl (if q = e then r :: L else L) = true) ∧
        (∀ p, p ≠ r → M.repls p = m.repls p) ∧
        M.replArr = m.replArr ∧ M.page.repl = m.page.repl) :=
  ⟨fun m slot new_exp exp ret M h hzero hnew =>
      rcc_expand_grows m slot new_exp exp ret M h hzero hnew,
    fun m e r ret M h hnew => rcc_expand_repl_grows m e r ret M h hnew⟩

/-- C12 at the example: installing the cell of record 107 (cell 22) in run 3,
which holds the cell of record 105 (cell 20), gives the list 22, 20; cell 20
keeps its fields and the empty run 0 stays empty. -/
theorem overlay_only_grows_witness :
    ∃ M, __wt_bt_rcc_expand_serial_func exMemOther 3 0 22 = some (0, M) ∧
      expChain M.exps (M.expHead 3) [22, 20] = true ∧
      expChain M.exps (M.expHead 0) [] = true ∧
      M.exps 20 = some ⟨5, 30, 0⟩ := by
  have h := overlay_only_grows.1 exMemOther 3 0 22 0 _ rfl
    (fun h0 => absurd h0 (by decide)) exMemOther_unpublished
  refine ⟨_, rfl, ?_, ?_, ?_⟩
  · exact h.1 3 [20] (by decide)
  · exact h.1 0 [] (by decide)
  · rw [h.2.2.1 20 (by decide)]
    rfl

/-- C13: two deletes of two not-yet-expanded records of the same run (same
slot; the offsets `toc1.srch_rcc_offset` and `toc2.srch_rcc_offset`), both
searched and allocated before the work queue runs either submission.  For
either order of the two install-expansion server functions both calls are
defined and afterwards the run's list is the two new cells followed by the
complete old list, every old cell has its fields unchanged, each new cell
carries its own offset and its own tombstone.  When the page had no expansion
array both calls allocated a candidate: the page's array is the candidate of
the submission that ran first and is still allocated, the other candidate is
freed by the call that allocated it (and by no one else).  When the page had
an array it stays and nothing is freed. -/
theorem col_del_concurrent_installs_both (idb : IDB) (toc1 toc2 : WT_TOC) (m : Mem)
    (a1 e1 r1 a2 e2 r2 : Ptr) (L : List Ptr) (swap : Bool)
    (hcomp : idb.repeat_comp = true)
    (hnew1 : toc1.srch_repl = 0) (hnew2 : toc2.srch_repl = 0)
    (hrun : toc1.srch_slot = toc2.srch_slot)
    (hoff : toc1.srch_rcc_offset ≠ toc2.srch_rcc_offset)
    (hslot : toc1.srch_slot < m.page.indx_count)
    (hok : m.ExpcolOK)
    (hf1 : Calloc.Fresh ⟨some a1, some e1, some r1⟩ idb m)
    (hf2 : Calloc.Fresh ⟨some a2, some e2, some r2⟩ idb m)
    (ha : a1 ≠ a2) (he : e1 ≠ e2) (hr : r1 ≠ r2)
    (hL : expChain m.exps (m.expHead toc1.srch_slot) L = true) :
    ∃ f1 f2 res1 res2,
      col_del_alloc idb toc1 ⟨some a1, some e1, some r1⟩ m =
        some (f1, .ok (.rcc_expand toc1.srch_slot f1.new_expcol e1)) ∧
      col_del_alloc idb toc2 ⟨some a2, some e2, some r2⟩ f1.mem =
        some (f2, .ok (.rcc_expand toc2.srch_slot f2.new_expcol e2)) ∧
      col_del_race idb toc1 toc2 f1 f2 (.rcc_expand toc1.srch_slot f1.new_expcol e1)
        (.rcc_expand toc2.srch_slot f2.new_expcol e2) swap = some (res1, res2) ∧
      expChain res2.mem.exps (res2.mem.expHead toc1.srch_slot)
        (if swap then e1 :: e2 :: L else e2 :: e1 :: L) = true ∧
      (∀ p ∈ L, res2.mem.exps p = m.exps p) ∧
      (∃ n1 n2, res2.mem.exps e1 = some ⟨toc1.srch_rcc_offset, r1, n1⟩ ∧
        res2.mem.exps e2 = some ⟨toc2.srch_rcc_offset, r2, n2⟩ ∧
        res2.mem.rccOffset e1 ≠ res2.mem.rccOffset e2) ∧
      res2.mem.repls r1 = some ⟨WT_REPL_DELETED_VALUE, 0⟩ ∧
      res2.mem.repls r2 = some ⟨WT_REPL_DELETED_VALUE, 0⟩ ∧
      (m.page.expcol ≠ 0 →
        res2.mem.page.expcol = m.page.expcol ∧
        ∀ p, Event.free_expcol p ∉ res1.trace ∧ Event.free_expcol p ∉ res2.trace) ∧
      (m.page.expcol = 0 →
        Event.calloc_new_expcol a1 ∈ res1.trace ∧ Event.calloc_new_expcol a2 ∈ res2.trace ∧
        res2.mem.page.expcol = (if swap then a2 else a1) ∧
        res2.mem.expArr (if swap then a2 else a1) ≠ none ∧
        res2.mem.expArr (if swap then a1 else a2) = none ∧
        (Event.free_expcol a1 ∈ res1.trace ↔ swap = true) ∧
        (Event.free_expcol a2 ∈ res2.trace ↔ swap = false) ∧
        Event.free_expcol a2 ∉ res1.trace ∧ Event.free_expcol a1 ∉ res2.trace) := by
  rw [← hrun]
  obtain ⟨f1, f2, h1, h2, x1, x2, n1, n2, t1, t2, pg, c1, c2, co, rr1, rr2, ar, arp, hd⟩ :=
    col_del_race_frames idb toc1 toc2 m a1 e1 r1 a2 e2 r2 hcomp hnew1 hnew2 hf1 hf2 ha he hr
  have he1f : m.exps e1 = none := (hf1.2.1 e1 rfl).2
  have he2f : m.exps e2 = none := (hf2.2.1 e2 rfl).2
  have he10 : e1 ≠ 0 := (hf1.2.1 e1 rfl).1
  have he20 : e2 ≠ 0 := (hf2.2.1 e2 rfl).1
  have ha10 : a1 ≠ 0 := by
    have z := hf1.2.2
    simp only [hcomp] at z
    exact (z a1 rfl).1
  have ha20 : a2 ≠ 0 := by
    have z := hf2.2.2
    simp only [hcomp] at z
    exact (z a2 rfl).1
  have hLm : ∀ p ∈ L, p ≠ e1 ∧ p ≠ e2 := by
    intro p hp
    have := chain_allocated _ _ _ _ hL p hp
    exact ⟨fun h => this (h ▸ he1f), fun h => this (h ▸ he2f)⟩
  have hL2 : expChain f2.mem.exps (f2.mem.expHead toc1.srch_slot) L = true := by
    rw [hd]
    refine chain_congr _ m.exps _ L _ ?_ hL
    intro p hp
    exact co p (hLm p hp).1 (hLm p hp).2
  rw [← hrun] at h2
  rw [x1] at h1
  rw [x2] at h2
  obtain ⟨res1, res2, hrace, ch, xo, ⟨k1, y1⟩, ⟨k2, y2⟩, rr, pe, parr, pfree, tr1, tr2,
    sub1, sub2⟩ :=
    col_del_race_run idb toc1 toc2 f1 f2 toc1.srch_slot ⟨toc1.srch_rcc_offset, r1, 0⟩
      ⟨toc2.srch_rcc_offset, r2, 0⟩ L swap (by rw [x1]; exact c1) (by rw [x2]; exact c2)
      (by rw [x1, x2]; exact he) (by rw [x1]; exact he10) (by rw [x2]; exact he20)
      (by
        intro h0
        rw [pg] at h0
        rw [n1, n2, if_pos h0, if_pos h0]
        refine ⟨ha10, ha20, ha, ⟨_, (ar h0).1, by simpa using hslot, ?_⟩,
          ⟨_, (ar h0).2, by simpa using hslot, ?_⟩⟩
        · intro x hx; exact List.eq_of_mem_replicate hx
        · intro x hx; exact List.eq_of_mem_replicate hx)
      (by
        intro h0
        rw [pg] at h0 ⊢
        rw [n1, n2, if_neg h0, if_neg h0]
        obtain ⟨arr, harr, hlen⟩ := hok h0
        exact ⟨rfl, rfl, arr, by rw [arp h0]; exact harr, by rw [hlen]; exact hslot⟩)
      hL2 (by rw [x1]; exact fun h => (hLm e1 h).1 rfl)
      (by rw [x2]; exact fun h => (hLm e2 h).2 rfl)
  rw [x1, x2] at hrace ch xo
  rw [x1] at y1
  rw [x2] at y2
  rw [pg] at pe pfree tr1 tr2
  refine ⟨f1, f2, res1, res2, h1, h2, hrace, ch, ?_, ?_, ?_, ?_, ?_, ?_⟩
  · intro p hp
    rw [xo p (hLm p hp).1 (hLm p hp).2, co p (hLm p hp).1 (hLm p hp).2]
  · refine ⟨k1, k2, y1, y2, ?_⟩
    rw [rccOffset_of _ _ _ y1, rccOffset_of _ _ _ y2]
    exact hoff
  · rw [rr]; exact rr1
  · rw [rr]; exact rr2
  · intro h0
    refine ⟨by rw [pe, if_neg h0], fun p => ⟨?_, ?_⟩⟩
    · rw [tr1 p, t1]; simp [h0]
    · rw [tr2 p, t2]; simp [h0]
  · intro h0
    rw [n1, if_pos h0] at pe pfree tr1
    rw [n2, if_pos h0] at pe pfree tr2
    rw [if_pos h0] at pe
    refine ⟨sub1 _ (by rw [t1]; simp [h0]), sub2 _ (by rw [t2]; simp [h0]), pe, ?_,
      pfree h0, ?_, ?_, ?_, ?_⟩
    · rw [← pe]; exact parr
    · rw [tr1 a1, t1]; simp [h0]
    · rw [tr2 a2, t2]; simp [h0]
    · rw [tr1 a2, t1]; simp [h0, Ne.symm ha]
    · rw [tr2 a1, t2]; simp [h0, ha]


/-- C13 at the example: records 105 and 107 of run 3 are deleted by two calls
on the page without overlay; the submission of the second call runs first.
The run's list is then cell 20 (record 105) followed by cell 21 (record 107),
the page's array is the second call's candidate 11, and the first call frees
its candidate 10. -/
theorem col_del_concurrent_installs_both_witness :
    ∃ f1 f2 res1 res2,
      col_del_alloc exIdb ⟨2, 3, 0, 0, 5⟩ ⟨some 10, some 20, some 30⟩ exMem =
        some (f1, .ok (.rcc_expand 3 f1.new_expcol 20)) ∧
      col_del_alloc exIdb ⟨2, 3, 0, 0, 7⟩ ⟨some 11, some 21, some 31⟩ f1.mem =
        some (f2, .ok (.rcc_expand 3 f2.new_expcol 21)) ∧
      col_del_race exIdb ⟨2, 3, 0, 0, 5⟩ ⟨2, 3, 0, 0, 7⟩ f1 f2 (.rcc_expand 3 f1.new_expcol 20)
        (.rcc_expand 3 f2.new_expcol 21) true = some (res1, res2) ∧
      expChain res2.mem.exps (res2.mem.expHead 3) [20, 21] = true ∧
      res2.mem.page.expcol = 11 ∧
      Event.free_expcol 10 ∈ res1.trace ∧ Event.free_expcol 11 ∉ res2.trace := by
  obtain ⟨f1, f2, res1, res2, h1, h2, h3, h4, _, _, _, _, _, h10⟩ :=
    col_del_concurrent_installs_both exIdb ⟨2, 3, 0, 0, 5⟩ ⟨2, 3, 0, 0, 7⟩ exMem
      10 20 30 11 21 31 [] true rfl rfl rfl rfl (by decide) (by decide)
      (fun h => absurd rfl h)
      (by refine ⟨?_, ?_, ?_⟩ <;> simp [FreshIn, exIdb, exMem])
      (by refine ⟨?_, ?_, ?_⟩ <;> simp [FreshIn, exIdb, exMem])
      (by decide) (by decide) (by decide) (by decide)
  obtain ⟨_, _, pe, _, _, fr1, fr2, _⟩ := h10 rfl
  exact ⟨f1, f2, res1, res2, h1, h2, h3, h4, pe, fr1.2 rfl, fun h => by simpa using fr2.1 h⟩

/-- C15: in a store without compression, for a record whose search succeeds
with slot `toc.srch_slot` and whose allocations succeed, `__wt_db_col_del`
allocates a replacement array candidate exactly when the page has no
replacement array, the candidate has `indx_count` zeroed slots, and the call
makes exactly one submission: the install-replacement function for that slot
with a new record whose value is the deleted marker.  With the server function
as the specification describes it, the slot holds a tombstone after the first
delete and after a second delete of the same record; the page's array pointer
is set at most once: by the first call when the array was absent, never by the
second call, which allocates no candidate, and no run of the server function
changes an array pointer that is set.  No array is freed. -/
theorem col_del_plain_twice (idb : IDB) (search : Mem → Nat → Int × WT_TOC)
    (al1 al2 : Calloc) (m : Mem) (recno : Nat) (toc : WT_TOC) (r1 r2 : Ptr)
    (hcomp : idb.repeat_comp = false)
    (hsearch : search m recno = (0, toc))
    (hsearch2 : ∀ res1, __wt_db_col_del idb search al1 m recno = some res1 →
      search res1.mem recno = (0, toc))
    (hpage : toc.srch_page ≠ 0)
    (hslot : toc.srch_slot < m.page.indx_count)
    (hok : m.ReplOK)
    (harr : m.page.repl = 0 → ∃ a, al1.arr = some a ∧ a ≠ 0)
    (hr1 : al1.repl = some r1) (hr10 : r1 ≠ 0)
    (hr2 : al2.repl = some r2) (hr20 : r2 ≠ 0) :
    ∃ f1 res1 res2,
      col_del_alloc idb toc al1 m = some (f1, .ok (.update toc.srch_slot f1.new_repl r1)) ∧
      __wt_db_col_del idb search al1 m recno = some res1 ∧
      __wt_db_col_del idb search al2 res1.mem recno = some res2 ∧
      ((∃ p, Event.calloc_new_repl p ∈ res1.trace) ↔ m.page.repl = 0) ∧
      (∀ p, Event.calloc_new_repl p ∈ res1.trace →
        p = f1.new_repl ∧ al1.arr = some p ∧
          f1.mem.replArr p = some (List.replicate m.page.indx_count 0)) ∧
      f1.mem.repls r1 = some ⟨WT_REPL_DELETED_VALUE, 0⟩ ∧
      res1.trace.filter Event.isSubmit = [Event.submit_update toc.srch_slot f1.new_repl r1] ∧
      res2.trace.filter Event.isSubmit = [Event.submit_update toc.srch_slot 0 r2] ∧
      res1.mem.replAt toc.srch_slot = some r1 ∧
      res1.mem.repls r1 = some ⟨WT_REPL_DELETED_VALUE, 0⟩ ∧
      res2.mem.replAt toc.srch_slot = some r2 ∧
      res2.mem.repls r2 = some ⟨WT_REPL_DELETED_VALUE, 0⟩ ∧
      res1.mem.page.repl = (if m.page.repl = 0 then f1.new_repl else m.page.repl) ∧
      res1.mem.page.repl ≠ 0 ∧
      res2.mem.page.repl = res1.mem.page.repl ∧
      (∀ p, Event.calloc_new_repl p ∉ res2.trace) ∧
      (∀ p, Event.free_replarr p ∉ res1.trace ∧ Event.free_replarr p ∉ res2.trace) ∧
      (∀ (M : Mem) (slot : Nat) (a r : Ptr) (ret : Int) (M2 : Mem), M.page.repl ≠ 0 →
        __wt_bt_update_serial_func M slot a r = some (ret, M2) →
        M2.page.repl = M.page.repl) := by
  obtain ⟨res1, f1, arr1, hd1, hal1, n1, na1, fr1, sb1, ca1, fa1, _, pn1, pr1, par1, len1,
    at1, rp1, ic1⟩ :=
    col_del_plain_run idb search al1 m recno toc r1 hcomp hsearch hpage hslot hok harr hr1 hr10
  obtain ⟨res2, f2, arr2, hd2, hal2, n2, na2, fr2, sb2, ca2, fa2, _, pn2, pr2, par2, len2,
    at2, rp2, ic2⟩ :=
    col_del_plain_run idb search al2 res1.mem recno toc r2 hcomp (hsearch2 res1 hd1) hpage
      (by rw [ic1]; exact hslot) (fun _ => ⟨arr1, par1, by rw [len1, ic1]⟩)
      (fun h => absurd h pn1) hr2 hr20
  have hn2 : f2.new_repl = 0 := by
    by_contra h
    exact pn1 (n2.1 h)
  refine ⟨f1, res1, res2, hal1, hd1, hd2, ?_, ?_, fr1, sb1, by rw [sb2, hn2], at1, ?_, at2, ?_,
    pr1, pn1, ?_, ?_, fun p => ⟨fa1 p, fa2 p⟩, ?_⟩
  · constructor
    · rintro ⟨p, hp⟩
      exact ((ca1 p).1 hp).2
    · intro h0
      exact ⟨f1.new_repl, (ca1 _).2 ⟨rfl, h0⟩⟩
  · intro p hp
    obtain ⟨rfl, h0⟩ := (ca1 p).1 hp
    exact ⟨rfl, na1 (n1.2 h0)⟩
  · rw [rp1]; simp
  · rw [rp2]; simp
  · rw [pr2, if_neg pn1]
  · intro p hp
    exact pn1 ((ca2 p).1 hp).2
  · intro M slot a r ret M2 hM h
    obtain ⟨_, _, _, _, _, hpg, _⟩ := update_func_inv M slot a r ret M2 h
    rw [hpg, if_neg hM]

/-- C15 at the example: record 3 of the plain store is deleted twice, starting
from the page without overlay.  The first call allocates the array candidate 10
and the tombstone 30, the second only the tombstone 31; afterwards slot 3 of the
array 10 holds 31. -/
theorem col_del_plain_twice_witness :
    ∃ res1 res2,
      __wt_db_col_del exIdbPlain exSearchPlain ⟨some 10, none, some 30⟩ exMem 3 = some res1 ∧
      __wt_db_col_del exIdbPlain exSearchPlain ⟨none, none, some 31⟩ res1.mem 3 = some res2 ∧
      res1.mem.replAt 3 = some 30 ∧ res2.mem.replAt 3 = some 31 ∧
      res2.mem.repls 31 = some ⟨WT_REPL_DELETED_VALUE, 0⟩ ∧
      res2.mem.page.repl = res1.mem.page.repl := by
  obtain ⟨_, res1, res2, _, h1, h2, _, _, _, _, _, a1, _, a2, t2, _, _, pe, _⟩ :=
    col_del_plain_twice exIdbPlain exSearchPlain ⟨some 10, none, some 30⟩
      ⟨none, none, some 31⟩ exMem 3 ⟨2, 3, 0, 0, 0⟩ 30 31 rfl rfl (fun _ _ => rfl)
      (by decide) (by decide) (fun h => absurd rfl h) (fun _ => ⟨10, rfl, by decide⟩)
      rfl (by decide) rfl (by decide)
  exact ⟨res1, res2, h1, h2, a1, a2, t2, pe⟩

/-- C17: the install-expansion server function never indexes an absent array.
Take a page whose expansion array is absent, or present and allocated, any
sequence of deletes from it (`before`), then a call that submits to
`__wt_bt_rcc_expand_serial_func` with a `NULL` array candidate, and any sequence
of deletes (`between`) that complete after the call's check and before the work
queue runs its submission; every allocation returns a fresh block.  Then the
page had an expansion array when the call checked (line 74), the page still has
that array when the server function runs, so after the adoption step
`page->expcol` is not `NULL`, it is an allocated block in which `slot` is in
range, the read of `expcol[slot]` is defined and the server function is
defined. -/
theorem rcc_expand_array_present (idb : IDB)
    (before between : List ((Mem → Nat → Int × WT_TOC) × Calloc × Nat)) (m0 m M : Mem)
    (toc : WT_TOC) (al : Calloc) (f : Frame) (e : Ptr)
    (hok0 : m0.ExpcolOK)
    (hfresh0 : CallsFresh idb before m0) (hreach : col_del_calls idb before m0 = some m)
    (hslot : toc.srch_slot < m.page.indx_count)
    (hfresh : al.Fresh idb m)
    (halloc : col_del_alloc idb toc al m = some (f, .ok (.rcc_expand toc.srch_slot 0 e)))
    (hfresh2 : CallsFresh idb between f.mem)
    (hinter : col_del_calls idb between f.mem = some M) :
    m.page.expcol ≠ 0 ∧ M.page.expcol = m.page.expcol ∧
      (rcc_expand_adopt M 0).page.expcol ≠ 0 ∧
      (∃ arr, M.expArr (rcc_expand_adopt M 0).page.expcol = some arr ∧
        toc.srch_slot < arr.length) ∧
      (∃ head, (rcc_expand_adopt M 0).expcolAt toc.srch_slot = some head) ∧
      ∃ M3, __wt_bt_rcc_expand_serial_func M toc.srch_slot 0 e = some (0, M3) := by
  obtain ⟨mok, _, _, _⟩ := col_del_calls_preserves idb before m0 m hfresh0 hreach hok0
  have hshape := col_del_alloc_sub idb toc al m f _ halloc
  have hH := col_del_alloc_holds idb toc al m f _ hfresh halloc
  obtain ⟨_, hcn⟩ := col_del_alloc_candidate idb toc al m f _ hfresh halloc
  obtain ⟨_, _, _, _, hloc⟩ := col_del_alloc_locals idb toc al m f _ hfresh halloc
  have hloc2 := (hloc _ rfl).2
  have hpath : col_del_path idb toc = Path.two := by
    cases hp : col_del_path idb toc <;> simp only [hp] at hshape
    · cases hshape
    · rfl
    · cases hshape
  simp only [hpath] at hshape hloc2
  have hn : f.new_expcol = 0 := by
    injection hshape with _ h2 _
    exact h2.symm
  have hfe : f.exp = e := by
    injection hshape with _ _ h3
    exact h3.symm
  obtain ⟨_, he0, c, hc, _⟩ := hloc2
  rw [hfe] at he0 hc
  have hp0 : m.page.expcol ≠ 0 := by
    intro h0
    exact hcn _ rfl hpath h0 hn
  have hfok : f.mem.ExpcolOK := by
    intro h0
    rw [hH.page] at h0 ⊢
    obtain ⟨arr, harr, hlen⟩ := mok h0
    exact ⟨arr, by rw [hH.expArr _ (Or.inr hn)]; exact harr, hlen⟩
  obtain ⟨Mok, Mic, Mpg, Mex⟩ :=
    col_del_calls_preserves idb between f.mem M hfresh2 hinter hfok
  have hMp : M.page.expcol = m.page.expcol := by
    rw [Mpg (by rw [hH.page]; exact hp0), hH.page]
  have hMp0 : M.page.expcol ≠ 0 := by rw [hMp]; exact hp0
  obtain ⟨arr, harr, hlen⟩ := Mok hMp0
  have hlt : toc.srch_slot < arr.length := by
    rw [hlen, Mic, hH.page]; exact hslot
  have hc2 : ∃ c2, M.exps e = some c2 := by
    cases hx : M.exps e with
    | none => exact absurd hx (Mex e (by rw [hc]; simp))
    | some c2 => exact ⟨c2, rfl⟩
  obtain ⟨c2, hc2⟩ := hc2
  have had : rcc_expand_adopt M 0 = M := rcc_expand_adopt_present M 0 hMp0
  refine ⟨hp0, hMp, by rw [had]; exact hMp0, ⟨arr, by rw [had]; exact harr, hlt⟩, ?_, ?_⟩
  · rw [had]
    refine ⟨arr.getD toc.srch_slot 0, ?_⟩
    simp [Mem.expcolAt, hMp0, harr, List.getD_eq_getElem?_getD, hlt]
  · exact ⟨_, rcc_expand_func_eq M toc.srch_slot 0 e arr c2 (by rw [had]; exact hMp0)
      (by rw [had]; exact harr) hlt he0 hc2⟩


/-- C17 at the example: on the page that holds the expansion of record 105, a
delete of record 107 allocates the cell 22 and submits it without an array
candidate; before the work queue runs the submission another delete of record
105 completes.  The page's array is still block 10 and the server function is
defined. -/
theorem rcc_expand_array_present_witness :
    ∃ f M M3,
      col_del_alloc exIdb ⟨2, 3, 0, 0, 7⟩ ⟨none, some 22, some 32⟩ exMem1 =
        some (f, .ok (.rcc_expand 3 0 22)) ∧
      col_del_calls exIdb [(exSearchOld, ⟨none, none, some 33⟩, 105)] f.mem = some M ∧
      M.page.expcol = 10 ∧
      __wt_bt_rcc_expand_serial_func M 3 0 22 = some (0, M3) := by
  have h := rcc_expand_array_present exIdb [] [(exSearchOld, ⟨none, none, some 33⟩, 105)]
    exMem1 exMem1 _ ⟨2, 3, 0, 0, 7⟩ ⟨none, some 22, some 32⟩
    { mem := (exMem1.setExp 22 (some ⟨7, 32, 0⟩)).setRepl 32 (some ⟨WT_REPL_DELETED_VALUE, 0⟩)
      exp := 22, new_expcol := 0, new_repl := 0, repl := 32
      trace := [Event.calloc_exp 22, Event.calloc_repl 32] } 22
    (fun _ => ⟨[0, 0, 0, 20], rfl, rfl⟩) trivial rfl (by decide)
    (by refine ⟨?_, ?_, ?_⟩ <;> simp [FreshIn, exIdb, exMem1])
    (col_del_alloc_rcc_new_present exIdb ⟨2, 3, 0, 0, 7⟩ exMem1 none 22 32 rfl rfl
      (by decide) (by decide) (by decide))
    ⟨by refine ⟨?_, ?_, ?_⟩ <;> simp [FreshIn, exIdb, exMem1, Function.update],
      fun _ _ => trivial⟩
    rfl
  obtain ⟨_, hp, _, _, _, M3, h3⟩ := h
  exact ⟨_, _, M3, col_del_alloc_rcc_new_present exIdb ⟨2, 3, 0, 0, 7⟩ exMem1 none 22 32 rfl rfl
    (by decide) (by decide) (by decide), rfl, hp, h3⟩

end ColPut
